import Mathlib

/-!
mockturtle: the k-LUT network and the don't-care view.

A shallow embedding of `include/mockturtle/networks/klut.hpp` and
`include/mockturtle/views/dont_care_view.hpp`.

Shared storage reached through `std::shared_ptr` is explicit state passing: every
member function of `klut_network` takes the storage and returns the new storage
(next to its result, when it has one).  The 32-bit fields `h1`, `h2` of a node's
data words are natural numbers reduced modulo `2 ^ 32` wherever the source
increments, decrements or reads them through a `uint32_t`.
-/

namespace mockturtle

/-! ## Truth tables and the truth-table cache -/

/-- Modelled from the spec: the truth-table capability `kitty::dynamic_truth_table`
(the library is not part of the sources at hand), "an opaque bit-vector type supporting
construction at a given input count, bit get/set, and construct()".  A table over
`num_vars` inputs has `2 ^ num_vars` bits; bit `i` of the table is bit `i` of `bits`. -/
structure dynamic_truth_table where
  num_vars : Nat
  bits : Nat
deriving DecidableEq, Repr, Inhabited

namespace kitty

/-- Number of bits of a table. -/
def num_bits (tt : dynamic_truth_table) : Nat := 2 ^ tt.num_vars

/-- Bit `index` of a table, as the number 0 or 1. -/
def get_bit (tt : dynamic_truth_table) (index : Nat) : Nat :=
  if tt.bits.testBit index then 1 else 0

/-- Sets bit `index` of a table. -/
def set_bit (tt : dynamic_truth_table) (index : Nat) : dynamic_truth_table :=
  { tt with bits := tt.bits ||| (1 <<< index) }

/-- A table of the same shape with every bit clear (`tt.construct()`). -/
def construct (tt : dynamic_truth_table) : dynamic_truth_table :=
  { num_vars := tt.num_vars, bits := 0 }

/-- Bitwise complement of the `2 ^ num_vars` bits of a table (`~tt`). -/
def unary_not (tt : dynamic_truth_table) : dynamic_truth_table :=
  { tt with bits := tt.bits ^^^ (2 ^ num_bits tt - 1) }

end kitty

/-- Modelled from the spec: the Function Cache `truth_table_cache` (its header is not
part of the sources at hand), an "append-only, content-addressed collection of truth
tables" whose entries are addressed by a stable index.  A table is stored with bit 0
clear and the cache hands out the literal `2 * index + complement flag`; this is the
scheme the literals 0 to 4 hard-coded in `klut.hpp` rely on. -/
structure truth_table_cache where
  data : List dynamic_truth_table
deriving DecidableEq, Repr, Inhabited

namespace truth_table_cache

/-- Looks the table up (complemented first when its bit 0 is set), appends it when
it is absent, and returns its literal. -/
def insert (c : truth_table_cache) (tt : dynamic_truth_table) : Nat × truth_table_cache :=
  let is_compl := kitty.get_bit tt 0
  let t := if is_compl = 1 then kitty.unary_not tt else tt
  if t ∈ c.data then (2 * c.data.indexOf t + is_compl, c)
  else (2 * c.data.length + is_compl, { data := c.data ++ [t] })

/-- The table a literal stands for (`cache[literal]`). -/
def get (c : truth_table_cache) (literal : Nat) : dynamic_truth_table :=
  let entry := c.data.getD (literal / 2) default
  if literal % 2 = 1 then kitty.unary_not entry else entry

end truth_table_cache

/-! ## Storage -/

/-- A k-LUT node (`klut_storage_node`): its child slots and the two data words,
`data[0].h1` the fan-out size, `data[0].h2` the application-specific value,
`data[1].h1` the function literal, `data[1].h2` the visited flag. -/
structure klut_storage_node where
  children : List Nat
  data0_h1 : Nat
  data0_h2 : Nat
  data1_h1 : Nat
  data1_h2 : Nat
deriving DecidableEq, Repr

instance : Inhabited klut_storage_node := ⟨⟨[], 0, 0, 0, 0⟩⟩

/-- The comparison `klut_storage_node::operator==` the structural hash table uses:
same function literal and same ordered children. -/
def klut_storage_node.eq (a other : klut_storage_node) : Bool :=
  a.data1_h1 == other.data1_h1 && a.children == other.children

/-- The storage container `klut_storage`.  Modelled from the spec: the hash table
member (declared in `storage.hpp`, not part of the sources at hand) is the "mapping from
a node's canonical (function, children) signature to its node id"; it is kept as a list
of entries, each a copy of the node that was the key and the index stored for it,
searched with `operator==`. -/
structure klut_storage where
  nodes : List klut_storage_node
  inputs : List Nat
  outputs : List Nat
  hash : List (klut_storage_node × Nat)
  data : truth_table_cache

namespace klut_storage

/-- Modelled from the spec: the constructor of the storage, which reserves "the first
node for a constant". -/
def mk_empty : klut_storage :=
  { nodes := [default], inputs := [], outputs := [], hash := [], data := { data := [] } }

/-- The value `hash.find( node )` points at, when there is one. -/
def hash_find (s : klut_storage) (node : klut_storage_node) : Option Nat :=
  (s.hash.find? (fun e => e.1.eq node)).map Prod.snd

/-- The node `_storage->nodes[n]`. -/
def node (s : klut_storage) (n : Nat) : klut_storage_node := s.nodes.getD n default

end klut_storage

/-- The width of the fields `h1` and `h2`. -/
def word32 : Nat := 2 ^ 32

namespace klut_network

open klut_storage

/-- The post-increment `data[0].h1++` of node `n`. -/
def incr_h1 (nodes : List klut_storage_node) (n : Nat) : List klut_storage_node :=
  nodes.modify (fun x => { x with data0_h1 := (x.data0_h1 + 1) % word32 }) n

/-- Private member `_init`: reserves the second node for constant 1 and the first
three functions of the cache. -/
def _init (s : klut_storage) : klut_storage :=
  let nodes := s.nodes ++ [default]
  let tt_zero : dynamic_truth_table := { num_vars := 0, bits := 0 }
  let data := (s.data.insert tt_zero).2
  let tt_not : dynamic_truth_table := { num_vars := 1, bits := 0x1 }
  let data := (data.insert tt_not).2
  let tt_and : dynamic_truth_table := { num_vars := 2, bits := 0x8 }
  let data := (data.insert tt_and).2
  let nodes := nodes.modify (fun x => { x with data1_h1 := 0 }) 0
  let nodes := nodes.modify (fun x => { x with data1_h1 := 1 }) 1
  { s with nodes := nodes, data := data }

/-- The default constructor `klut_network()`. -/
def init : klut_storage := _init mk_empty

def get_constant (value : Bool) : Nat := if value then 1 else 0

def create_pi (s : klut_storage) : Nat × klut_storage :=
  let index := s.nodes.length
  let nodes := s.nodes ++ [default]
  let inputs := s.inputs ++ [index]
  let nodes := nodes.modify (fun x => { x with data1_h1 := 2 }) index
  (index, { s with nodes := nodes, inputs := inputs })

def create_po (s : klut_storage) (f : Nat) : klut_storage :=
  { s with nodes := incr_h1 s.nodes f, outputs := s.outputs ++ [f] }

def is_constant (n : Nat) : Bool := n ≤ 1

def is_pi (s : klut_storage) (n : Nat) : Bool :=
  decide (n > 1) && (s.node n).children.isEmpty

def set_value (s : klut_storage) (n v : Nat) : klut_storage :=
  { s with nodes := s.nodes.modify (fun x => { x with data0_h2 := v % word32 }) n }

/-- The member `_create_node`.  The parameter `literal` is a `uint32_t` and the field
`data[1].h1` it is stored in has 32 bits: the node carries the literal modulo `2 ^ 32`. -/
def _create_node (s : klut_storage) (children : List Nat) (literal : Nat) :
    Nat × klut_storage :=
  let node : klut_storage_node :=
    { children := children, data0_h1 := 0, data0_h2 := 0, data1_h1 := literal % word32,
      data1_h2 := 0 }
  match s.hash_find node with
  | some index => (index, s)
  | none =>
    let index := s.nodes.length
    let s1 := { s with nodes := s.nodes ++ [node], hash := (node, index) :: s.hash }
    let s2 := { s1 with nodes := children.foldl incr_h1 s1.nodes }
    (index, set_value s2 index 0)

def create_not (s : klut_storage) (a : Nat) : Nat × klut_storage :=
  _create_node s [a] 3

def create_and (s : klut_storage) (a b : Nat) : Nat × klut_storage :=
  _create_node s [a, b] 4

def create_node (s : klut_storage) (children : List Nat) (function : dynamic_truth_table) :
    Nat × klut_storage :=
  let r := s.data.insert function
  _create_node { s with data := r.2 } children r.1

/-- One visit of the inner loop of `substitute_node`: child slot `j` of node `i`. -/
def substitute_slot (old_node new_node i j : Nat) (nodes : List klut_storage_node) :
    List klut_storage_node :=
  match (nodes[i]?).bind (fun n => n.children[j]?) with
  | some child =>
    if child = old_node then
      incr_h1 (nodes.modify (fun n => { n with children := n.children.set j new_node }) i)
        new_node
    else nodes
  | none => nodes

/-- The loop `for ( auto& child : n.children )` for the node at index `i`. -/
def substitute_children (old_node new_node : Nat) (nodes : List klut_storage_node) (i : Nat) :
    List klut_storage_node :=
  (List.range (nodes.getD i default).children.length).foldl
    (fun ns j => substitute_slot old_node new_node i j ns) nodes

/-- The loop over the outputs of `substitute_node`, from output slot `k` on. -/
def substitute_outputs (old_node new_node : Nat) :
    List Nat → List klut_storage_node → List Nat × List klut_storage_node
  | [], nodes => ([], nodes)
  | output :: rest, nodes =>
    if output = old_node then
      let r := substitute_outputs old_node new_node rest (incr_h1 nodes new_node)
      (new_node :: r.1, r.2)
    else
      let r := substitute_outputs old_node new_node rest nodes
      (output :: r.1, r.2)

def substitute_node (s : klut_storage) (old_node new_node : Nat) : klut_storage :=
  let nodes := (List.range s.nodes.length).foldl (substitute_children old_node new_node) s.nodes
  let r := substitute_outputs old_node new_node s.outputs nodes
  let nodes := r.2.modify (fun x => { x with data0_h1 := 0 }) old_node
  { s with nodes := nodes, outputs := r.1 }

def size (s : klut_storage) : Nat := s.nodes.length

def num_pis (s : klut_storage) : Nat := s.inputs.length

def num_pos (s : klut_storage) : Nat := s.outputs.length

/-- The member `fanin_size`, which returns the number of children as a `uint32_t`. -/
def fanin_size (s : klut_storage) (n : Nat) : Nat := (s.node n).children.length % word32

/-- The member `fanout_size`, which returns `data[0].h1` as a `uint32_t`. -/
def fanout_size (s : klut_storage) (n : Nat) : Nat := (s.node n).data0_h1 % word32

def node_function (s : klut_storage) (n : Nat) : dynamic_truth_table :=
  s.data.get (s.node n).data1_h1

/-- The values `foreach_fanin` hands to its callback, in child-slot order: each child
index converted to `uint32_t`. -/
def foreach_fanin (s : klut_storage) (n : Nat) : List Nat :=
  if n = 0 || is_pi s n then [] else (s.node n).children.map (fun c => c % word32)

/-- The inner loop of `compute`: the 32-bit `pattern` read at bit position `i` of the
first `nfanin` input tables (its counter `j` does not wrap on a node of fewer than
`2 ^ 32` children). -/
def compute_pattern (tts : List dynamic_truth_table) (i nfanin : Nat) : Nat :=
  (List.range nfanin).foldl
    (fun pattern j => (pattern ||| (kitty.get_bit (tts.getD j default) i <<< j)) % word32) 0

/-- The loop `for ( auto i = 0u; i < result.num_bits(); ++i )` of `compute`, from the
counter value `i` and the table `result` built so far.  The counter is a 32-bit unsigned
and its increment wraps at `2 ^ 32`; `num_bits` is the 64-bit number of bits of the
result.  The first argument bounds the number of tests of the loop condition, and `none`
says that the loop has not been left within that bound. -/
def compute_loop (gate_tt : dynamic_truth_table) (tts : List dynamic_truth_table)
    (nfanin num_bits : Nat) : Nat → Nat → dynamic_truth_table → Option dynamic_truth_table
  | 0, _, _ => none
  | fuel + 1, i, result =>
    if i < num_bits then
      compute_loop gate_tt tts nfanin num_bits fuel ((i + 1) % word32)
        (if kitty.get_bit gate_tt (compute_pattern tts i nfanin) ≠ 0
          then kitty.set_bit result i else result)
    else some result

/-- The member `compute` on truth tables.  The outer `none` stands for a failed
assertion.  When the assertions pass, the value is the run of the loop as a function of
the bound on the tests of its condition: `some result` when the loop is left within the
bound and the function returns `result`, `none` otherwise (on a table of `2 ^ 32` bits or
more the 32-bit counter wraps before it reaches `num_bits()` and the loop is never
left). -/
def compute (s : klut_storage) (n : Nat) (tts : List dynamic_truth_table) :
    Option (Nat → Option dynamic_truth_table) :=
  let nfanin := (s.node n).children.length
  if nfanin = 0 then none
  else if tts.length ≠ nfanin then none
  else
    let result := kitty.construct (tts.headD default)
    let gate_tt := s.data.get (s.node n).data1_h1
    some (fun fuel => compute_loop gate_tt tts nfanin (kitty.num_bits result) fuel 0 result)

end klut_network

/-! ## Reference counting and reachable states of the k-LUT network -/

/-- The node `_create_node` builds from its arguments and looks up in the hash table. -/
def key_node (children : List Nat) (literal : Nat) : klut_storage_node :=
  { children := children, data0_h1 := 0, data0_h2 := 0, data1_h1 := literal % word32,
    data1_h2 := 0 }

/-- What a slot holding `c` holds once references to `old_node` are redirected. -/
def redirect (old_node new_node c : Nat) : Nat := if c = old_node then new_node else c

/-- One increment of a 32-bit field. -/
def incr32 (v : Nat) : Nat := (v + 1) % word32

/-- Number of child slots, over all nodes of the store, that hold `n`. -/
def child_refs (nodes : List klut_storage_node) (n : Nat) : Nat :=
  (nodes.map (fun x => x.children.count n)).sum

/-- Number of child slots plus number of primary-output slots that hold `n`. -/
def num_refs (s : klut_storage) (n : Nat) : Nat :=
  child_refs s.nodes n + s.outputs.count n

/-- The child slots `cs` once the first `j` of them have been visited by the inner loop
of `substitute_node`. -/
def redirect_upto (old_node new_node j : Nat) (cs : List Nat) : List Nat :=
  (cs.take j).map (redirect old_node new_node) ++ cs.drop j

/-- The node store `ns0` once the loops of `substitute_node` have visited every child slot
of the first `i` nodes and the first `j` child slots of node `i`. -/
def subst_state (old_node new_node : Nat) (ns0 : List klut_storage_node) (i j : Nat) :
    List klut_storage_node :=
  ns0.mapIdx (fun m n => { n with
    children :=
      if m < i then n.children.map (redirect old_node new_node)
      else if m = i then redirect_upto old_node new_node j n.children
      else n.children,
    data0_h1 :=
      if m = new_node then
        incr32^[child_refs (ns0.take i) old_node
          + ((ns0.getD i default).children.take j).count old_node] n.data0_h1
      else n.data0_h1 })

/-- The node store `ns0` with every child slot redirected and `k` increments applied to
the fan-out field of `new_node`. -/
def redirected (old_node new_node : Nat) (ns0 : List klut_storage_node) (k : Nat) :
    List klut_storage_node :=
  ns0.mapIdx (fun m n => { n with
    children := n.children.map (redirect old_node new_node),
    data0_h1 := if m = new_node then incr32^[k] n.data0_h1 else n.data0_h1 })

/-- The public operations that build and rewrite a network. -/
inductive klut_op where
  | create_pi
  | create_po (f : Nat)
  | create_not (a : Nat)
  | create_and (a b : Nat)
  | create_node (children : List Nat) (function : dynamic_truth_table)
  | substitute_node (old_node new_node : Nat)
deriving DecidableEq, Repr

namespace klut_op

/-- Every signal or node handed to the operation exists in the store. -/
def valid (s : klut_storage) : klut_op → Bool
  | create_pi => true
  | create_po f => decide (f < s.nodes.length)
  | create_not a => decide (a < s.nodes.length)
  | create_and a b => decide (a < s.nodes.length) && decide (b < s.nodes.length)
  | create_node children _ => children.all (fun c => decide (c < s.nodes.length))
  | substitute_node old_node new_node =>
    decide (old_node < s.nodes.length) && decide (new_node < s.nodes.length)

/-- The storage after the operation. -/
def apply (s : klut_storage) : klut_op → klut_storage
  | create_pi => (klut_network.create_pi s).2
  | create_po f => klut_network.create_po s f
  | create_not a => (klut_network.create_not s a).2
  | create_and a b => (klut_network.create_and s a b).2
  | create_node children function => (klut_network.create_node s children function).2
  | substitute_node old_node new_node => klut_network.substitute_node s old_node new_node

/-- Every operation is admitted. -/
def any_op (_ : klut_op) : Bool := true

/-- Every operation but a substitution of a node by itself. -/
def no_self_substitution : klut_op → Bool
  | substitute_node old_node new_node => decide (old_node ≠ new_node)
  | _ => true

/-- Creations and output registrations only. -/
def no_substitution : klut_op → Bool
  | substitute_node _ _ => false
  | _ => true

end klut_op

/-- States reached from a freshly constructed network by admitted operations on valid
signals. -/
inductive reachable_by (admitted : klut_op → Bool) : klut_storage → Prop where
  | init : reachable_by admitted klut_network.init
  | step (s : klut_storage) (op : klut_op) :
      reachable_by admitted s → admitted op = true → op.valid s = true →
      reachable_by admitted (op.apply s)

/-- Runs a sequence of operations. -/
def run_ops (s : klut_storage) (ops : List klut_op) : klut_storage :=
  ops.foldl klut_op.apply s

/-- Every operation of the sequence is admitted and valid in the state it is run in. -/
def ops_ok (admitted : klut_op → Bool) : klut_storage → List klut_op → Bool
  | _, [] => true
  | s, op :: rest => admitted op && op.valid s && ops_ok admitted (op.apply s) rest

/-- The storage after `k` successive calls `create_po(f)`. -/
def po_burst (k f : Nat) (s : klut_storage) : klut_storage :=
  (fun t => klut_network.create_po t f)^[k] s

/-- A network with two primary inputs, nodes 2 and 3. -/
def two_pis : klut_storage := run_ops klut_network.init [.create_pi, .create_pi]

/-- Input 3 registered as a primary output `2 ^ 32 - 1` times, then input 2 once. -/
def wrap_net : klut_storage := klut_network.create_po (po_burst 4294967295 3 two_pis) 2

/-- One primary input, registered as a primary output and then substituted by itself. -/
def self_substituted : klut_storage :=
  run_ops klut_network.init [.create_pi, .create_po 2, .substitute_node 2 2]

/-- The constant-false node registered as a primary output `2 ^ 32` times. -/
def po_overflow : klut_storage := po_burst 4294967296 0 klut_network.init

/-- A network with an AND gate, two outputs and one substitution. -/
def sample_net : klut_storage :=
  run_ops klut_network.init
    [.create_pi, .create_pi, .create_pi, .create_and 2 3, .create_po 5, .create_po 2,
      .substitute_node 2 4]

/-- Every entry of the structural hash table points at a node of the store that has the
children and the function literal of the entry's key. -/
def hash_sound (s : klut_storage) : Prop :=
  ∀ e ∈ s.hash, ∃ x, s.nodes[e.2]? = some x
    ∧ x.children = e.1.children ∧ x.data1_h1 = e.1.data1_h1

/-- Every node of the first store is still there in the second, with the children and
the function literal it had. -/
def extends_shape (ns ns2 : List klut_storage_node) : Prop :=
  ∀ (m : Nat) (x : klut_storage_node), ns[m]? = some x →
    ∃ y, ns2[m]? = some y ∧ y.children = x.children ∧ y.data1_h1 = x.data1_h1

/-- The hash table is sound and node 0, the constant, has no children. -/
def creation_inv (s : klut_storage) : Prop :=
  hash_sound s ∧ ∃ x, s.nodes[0]? = some x ∧ x.children = []

/-! ## The gate count, and what creations and substitutions keep of a node -/

/-- The width of `std::size_t`. -/
def word64 : Nat := 2 ^ 64

namespace klut_network

/-- The member `num_gates`, `nodes.size() - inputs.size() - 2`: the subtraction is one of
`std::size_t` values and wraps modulo `2 ^ 64`. -/
def num_gates (s : klut_storage) : Nat :=
  (((s.nodes.length : Int) - (s.inputs.length : Int) - 2) % (word64 : Int)).toNat

end klut_network

/-- The constant-false node registered as a primary output `2 ^ 32 - 1` times. -/
def po_saturated : klut_storage := po_burst 4294967295 0 klut_network.init

/-- The indices below `len` that are neither one of the two constants nor a member of the
primary-input list. -/
def gate_indices (len : Nat) (inputs : List Nat) : List Nat :=
  (List.range len).filter (fun n => decide (1 < n) && !decide (n ∈ inputs))

/-- The nodes of the store that are neither one of the two reserved constants nor a
member of the primary-input list. -/
def gate_nodes (s : klut_storage) : List Nat := gate_indices s.nodes.length s.inputs

/-- The two constants are in the store, every member of the primary-input list is a node
of the store, and the store holds the two constants, the primary inputs and the gate
nodes. -/
def count_inv (s : klut_storage) : Prop :=
  2 ≤ s.nodes.length ∧ (∀ i ∈ s.inputs, i < s.nodes.length)
    ∧ (gate_nodes s).length + s.inputs.length + 2 = s.nodes.length

/-- Every node of the first store is still there in the second, with as many children
and the function literal it had. -/
def extends_arity (ns ns2 : List klut_storage_node) : Prop :=
  ∀ (m : Nat) (x : klut_storage_node), ns[m]? = some x →
    ∃ y, ns2[m]? = some y ∧ y.children.length = x.children.length ∧ y.data1_h1 = x.data1_h1

/-- Every entry of the structural hash table points at a node of the store that has as
many children as the entry's key and the function literal of the key; the function cache
starts with the three tables `_init` stores; nodes 0 and 1 carry the literals 0 and 1. -/
def literal_inv (s : klut_storage) : Prop :=
  (∀ e ∈ s.hash, ∃ x, s.nodes[e.2]? = some x
    ∧ x.children.length = e.1.children.length ∧ x.data1_h1 = e.1.data1_h1)
  ∧ (∃ rest, s.data.data = [⟨0, 0⟩, ⟨1, 2⟩, ⟨2, 8⟩] ++ rest)
  ∧ (∃ x, s.nodes[0]? = some x ∧ x.data1_h1 = 0)
  ∧ (∃ x, s.nodes[1]? = some x ∧ x.data1_h1 = 1)

/-- Two AND gates over three primary inputs, both registered as primary outputs, after
the substitution of input 4 by input 3. -/
def twin_gates : klut_storage :=
  run_ops klut_network.init
    [.create_pi, .create_pi, .create_pi, .create_and 2 3, .create_and 2 4, .create_po 5,
      .create_po 6, .substitute_node 4 3]

/-- Every member of the primary-input list is a node of the store, the structural hash
table has an entry for the signature of every gate node, and no two distinct gate nodes
have the same function literal and the same ordered children. -/
def unique_inv (s : klut_storage) : Prop :=
  (∀ i ∈ s.inputs, i < s.nodes.length)
  ∧ (∀ n x, n ∈ gate_nodes s → s.nodes[n]? = some x →
      (s.hash_find (key_node x.children x.data1_h1)).isSome = true)
  ∧ (∀ m n x y, m ∈ gate_nodes s → n ∈ gate_nodes s →
      s.nodes[m]? = some x → s.nodes[n]? = some y →
      x.children = y.children → x.data1_h1 = y.data1_h1 → m = n)

/-- An AND gate, node 4, over two primary inputs, after the substitution of its first
child, input 2, by the gate itself. -/
def self_loop : klut_storage :=
  run_ops klut_network.init [.create_pi, .create_pi, .create_and 2 3, .substitute_node 2 4]

/-- Every child slot of every node holds the index of a node created before it. -/
def acyclic_inv (s : klut_storage) : Prop :=
  ∀ (n : Nat) (x : klut_storage_node), s.nodes[n]? = some x → ∀ c ∈ x.children, c < n

/-- Every operation but a `create_node` call with no children. -/
def klut_op.with_children : klut_op → Bool
  | .create_node children _ => !children.isEmpty
  | _ => true

/-- A fresh network after `create_node` with no children and the constant-false table. -/
def childless_gate : klut_storage :=
  run_ops klut_network.init [.create_node [] { num_vars := 0, bits := 0 }]

/-- The two constants are in the store, every member of the primary-input list is a node
of the store other than the constants, and a node other than the constants has no
children exactly when it is a member of the primary-input list. -/
def pi_inv (s : klut_storage) : Prop :=
  2 ≤ s.nodes.length ∧ (∀ i ∈ s.inputs, 2 ≤ i ∧ i < s.nodes.length)
  ∧ ∀ (n : Nat) (x : klut_storage_node), s.nodes[n]? = some x → 2 ≤ n →
      (x.children.length = 0 ↔ n ∈ s.inputs)

/-! ## Custom node values and visited flags -/

namespace klut_network

def clear_values (s : klut_storage) : klut_storage :=
  { s with nodes := s.nodes.map (fun x => { x with data0_h2 := 0 }) }

def value (s : klut_storage) (n : Nat) : Nat := (s.node n).data0_h2 % word32

/-- The member `incr_value`: `return data[0].h2++`, the value before the increment and
the storage after it. -/
def incr_value (s : klut_storage) (n : Nat) : Nat × klut_storage :=
  let nodes := s.nodes.modify (fun x => { x with data0_h2 := (x.data0_h2 + 1) % word32 }) n
  ((s.node n).data0_h2 % word32, { s with nodes := nodes })

/-- The member `decr_value`: `return --data[0].h2`, the value after the decrement, which
wraps from 0 to `2 ^ 32 - 1`, and the storage after it. -/
def decr_value (s : klut_storage) (n : Nat) : Nat × klut_storage :=
  let nodes :=
    s.nodes.modify (fun x => { x with data0_h2 := (x.data0_h2 + (word32 - 1)) % word32 }) n
  ((nodes.getD n default).data0_h2 % word32, { s with nodes := nodes })

def clear_visited (s : klut_storage) : klut_storage :=
  { s with nodes := s.nodes.map (fun x => { x with data1_h2 := 0 }) }

def visited (s : klut_storage) (n : Nat) : Nat := (s.node n).data1_h2 % word32

def set_visited (s : klut_storage) (n v : Nat) : klut_storage :=
  { s with nodes := s.nodes.modify (fun x => { x with data1_h2 := v % word32 }) n }

end klut_network

/-- The storage with the field `data[0].h2` of node `n` replaced by its image under
`g`. -/
def map_value (s : klut_storage) (n : Nat) (g : Nat → Nat) : klut_storage :=
  { s with nodes := s.nodes.modify (fun x => { x with data0_h2 := g x.data0_h2 }) n }

/-- The second storage differs from the first at most in the value of node `n`: every
node has the fan-out, the visited flag, the function and the children it had, every node
but `n` the value it had, and the input list, the output list, the hash table and the
function cache are the same. -/
def same_but_value (s t : klut_storage) (n : Nat) : Prop :=
  (∀ m, klut_network.fanout_size t m = klut_network.fanout_size s m
    ∧ klut_network.visited t m = klut_network.visited s m
    ∧ klut_network.node_function t m = klut_network.node_function s m
    ∧ (t.node m).children = (s.node m).children
    ∧ (m ≠ n → klut_network.value t m = klut_network.value s m))
  ∧ klut_network.size t = klut_network.size s
  ∧ t.inputs = s.inputs ∧ t.outputs = s.outputs ∧ t.hash = s.hash ∧ t.data = s.data

/-- A primary input whose value is set to `2 ^ 32 - 1`. -/
def full_value : klut_storage :=
  klut_network.set_value (klut_network.create_pi klut_network.init).2 2 4294967295

/-! ## Substitutions that rewrite no child slot, and a cache of `2 ^ 31` tables -/

/-- No child slot of the store holds node `n`. -/
def no_child_slot (s : klut_storage) (n : Nat) : Bool :=
  s.nodes.all (fun x => !x.children.contains n)

/-- Every creation and output registration, and a substitution that rewrites no child
slot of the state it is run in: the substituted node is its own substitute, or no child
slot holds it. -/
def rewires_no_child (s : klut_storage) : klut_op → Bool
  | .substitute_node old_node new_node =>
    decide (old_node = new_node) || no_child_slot s old_node
  | _ => true

/-- States reached from a freshly constructed network by operations on valid signals,
each admitted in the state it is run in. -/
inductive reachable_when (admitted : klut_storage → klut_op → Bool) : klut_storage → Prop where
  | init : reachable_when admitted klut_network.init
  | step (s : klut_storage) (op : klut_op) :
      reachable_when admitted s → admitted s op = true → op.valid s = true →
      reachable_when admitted (op.apply s)

/-- Every operation of the sequence is valid and admitted in the state it is run in. -/
def ops_ok_when (admitted : klut_storage → klut_op → Bool) :
    klut_storage → List klut_op → Bool
  | _, [] => true
  | s, op :: rest => admitted s op && op.valid s && ops_ok_when admitted (op.apply s) rest

/-- Four inputs 2, 3, 4, 5, the majority gate 6 over (2, 3, 4), the output 5, and
`substitute_node(5, 6)`, which redirects the output and rewrites no child slot. -/
def spare_input_net : klut_storage :=
  run_ops klut_network.init
    [.create_pi, .create_pi, .create_pi, .create_pi,
      .create_node [2, 3, 4] { num_vars := 3, bits := 0xe8 }, .create_po 5,
      .substitute_node 5 6]

/-- Four inputs 2, 3, 4, 5, the AND gates 6 = AND(2, 3) and 7 = AND(2, 4), the output 5,
and `substitute_node(5, 7)`, which redirects the output and rewrites no child slot. -/
def spare_input_ands : klut_storage :=
  run_ops klut_network.init
    [.create_pi, .create_pi, .create_pi, .create_pi, .create_and 2 3, .create_and 2 4,
      .create_po 5, .substitute_node 5 7]

/-- Every creation and output registration, and a substitution of a node by itself or by
a node created before it. -/
def klut_op.downward_substitution : klut_op → Bool
  | .substitute_node old_node new_node => decide (new_node ≤ old_node)
  | _ => true

/-- Three inputs 2, 3, 4, the gate 5 = AND(2, 4), the output 5, and
`substitute_node(4, 3)`, after which the child slots of node 5 hold (2, 3). -/
def lowered_and : klut_storage :=
  run_ops klut_network.init
    [.create_pi, .create_pi, .create_pi, .create_and 2 4, .create_po 5,
      .substitute_node 4 3]

/-- The `k`-th of a run of different tables over six variables, each with bit 0 clear. -/
def burst_table (k : Nat) : dynamic_truth_table := { num_vars := 6, bits := 2 * (k + 1) }

/-- The storage after `create_node((), burst_table 0)`, ..., `create_node((),
burst_table (k - 1))`. -/
def table_burst : Nat → klut_storage → klut_storage
  | 0, s => s
  | k + 1, s => (klut_network.create_node (table_burst k s) [] (burst_table k)).2

/-- A fresh network after 2147483645 such calls: its cache holds `2 ^ 31` tables. -/
def full_cache : klut_storage := table_burst 2147483645 klut_network.init

end mockturtle

/-! # The don't-care view -/

namespace mockturtle

/-- Modelled from the spec: a signal of a complement-capable family, "a node identifier
plus a polarity bit". -/
structure signal where
  index : Nat
  complement : Bool
deriving DecidableEq, Repr, Inhabited

/-- The complemented signal `!f`. -/
def signal.not (f : signal) : signal := { f with complement := !f.complement }

/-- Modelled from the spec: a node of the fixed-fanin-2 family with complemented edges
(`networks/aig.hpp` is not part of the sources at hand): its ordered children, none for the
constant and for a primary input and two for a gate, and its fan-out count. -/
structure aig_node where
  children : List signal
  fanout_count : Nat
deriving DecidableEq, Repr, Inhabited

/-- Modelled from the spec: the network the view is instantiated with, the façade of the
fixed-fanin-2 family with complemented edges over its node store: the nodes in creation
order, node 0 being the constant false, the primary-input index list, the primary
outputs, and the structural hash table from the canonical children of a gate to its
node. -/
structure aig_network where
  nodes : List aig_node
  inputs : List Nat
  outputs : List signal
  hash : List ((signal × signal) × Nat)
deriving DecidableEq, Repr

namespace aig_network

/-- Modelled from the spec: a freshly constructed network, which holds the constant node
only. -/
def empty : aig_network := { nodes := [⟨[], 0⟩], inputs := [], outputs := [], hash := [] }

/-- Modelled from the spec: `get_constant(value)`, the constant node at the polarity
`value`. -/
def get_constant (value : Bool) : signal := ⟨0, value⟩

def get_node (f : signal) : Nat := f.index

def is_complemented (f : signal) : Bool := f.complement

def size (ntk : aig_network) : Nat := ntk.nodes.length

def num_pis (ntk : aig_network) : Nat := ntk.inputs.length

def num_pos (ntk : aig_network) : Nat := ntk.outputs.length

/-- Modelled from the spec: primary inputs "are distinguished by membership in the
primary-input index list". -/
def is_pi (ntk : aig_network) (n : Nat) : Bool := decide (n ∈ ntk.inputs)

/-- Modelled from the spec: the nodes `foreach_gate` visits, those that are neither the
constant nor a primary input; every one of them is an AND gate in this family. -/
def is_gate (ntk : aig_network) (n : Nat) : Bool := decide (n ≠ 0) && !(is_pi ntk n)

def is_and (ntk : aig_network) (n : Nat) : Bool := is_gate ntk n

/-- Modelled from the spec: `foreach_fanin`, the children of a gate in child-slot
order. -/
def foreach_fanin (ntk : aig_network) (n : Nat) : List signal :=
  if is_gate ntk n then (ntk.nodes.getD n default).children else []

/-- Increment of the fan-out count of node `n`. -/
def incr_fanout (nodes : List aig_node) (n : Nat) : List aig_node :=
  nodes.modify (fun x => { x with fanout_count := x.fanout_count + 1 }) n

/-- Modelled from the spec: `create_pi` "appends a new input node with zero children,
registers it in the primary-input list; returns its signal at positive polarity". -/
def create_pi (ntk : aig_network) : signal × aig_network :=
  (⟨ntk.nodes.length, false⟩,
    { ntk with nodes := ntk.nodes ++ [⟨[], 0⟩], inputs := ntk.inputs ++ [ntk.nodes.length] })

/-- Modelled from the spec: `create_po` "appends `signal` to the primary-output list and
increments the referenced node's `fanout_count`". -/
def create_po (ntk : aig_network) (f : signal) : aig_network :=
  { ntk with nodes := incr_fanout ntk.nodes f.index, outputs := ntk.outputs ++ [f] }

/-- Modelled from the spec: `create_and` "computes the canonical child ordering", the
child of smaller index first, "looks up the structural hash table; on hit returns the
existing signal, on miss appends a new node, updates fanout counts of the children,
inserts the hash entry, and returns the new signal". -/
def create_and (ntk : aig_network) (a b : signal) : signal × aig_network :=
  let lo := if a.index > b.index then b else a
  let hi := if a.index > b.index then a else b
  match (ntk.hash.find? (fun e => e.1 == (lo, hi))).map Prod.snd with
  | some index => (⟨index, false⟩, ntk)
  | none =>
    let index := ntk.nodes.length
    let nodes := ntk.nodes ++ [⟨[lo, hi], 0⟩]
    let nodes := incr_fanout (incr_fanout nodes lo.index) hi.index
    (⟨index, false⟩, { ntk with nodes := nodes, hash := ((lo, hi), index) :: ntk.hash })

/-- Modelled from the spec: `create_or`, which the family with AND as its sole gate
kind realises as the complemented AND of the complemented operands. -/
def create_or (ntk : aig_network) (a b : signal) : signal × aig_network :=
  let r := create_and ntk a.not b.not
  (r.1.not, r.2)

/-- Modelled from the spec: the value simulation gives a node, by "the family's built-in
gate semantics (AND: output iff all true)": a primary input takes its entry of the
assignment, a gate the conjunction of the values of its two children, each complemented
when its edge is, and the constant is false. -/
def node_value (inputs : List Nat) (pattern : List Bool) (vals : List Bool) (n : Nat)
    (children : List signal) : Bool :=
  if n ∈ inputs then pattern.getD (inputs.indexOf n) false
  else
    match children with
    | [a, b] =>
      (xor (vals.getD a.index false) a.complement) && (xor (vals.getD b.index false) b.complement)
    | _ => false

/-- Values of the nodes in creation order, each computed from the values before it. -/
def simulate_nodes (inputs : List Nat) (pattern : List Bool) :
    List (List signal) → List Bool → List Bool
  | [], vals => vals
  | children :: rest, vals =>
    simulate_nodes inputs pattern rest
      (vals ++ [node_value inputs pattern vals vals.length children])

def node_values (ntk : aig_network) (pattern : List Bool) : List Bool :=
  simulate_nodes ntk.inputs pattern (ntk.nodes.map (fun x => x.children)) []

/-- The value of a signal under an assignment. -/
def signal_value (ntk : aig_network) (pattern : List Bool) (f : signal) : Bool :=
  xor ((node_values ntk pattern).getD f.index false) f.complement

/-- Modelled from the spec: `simulate<bool>` with the default simulator on an assignment:
the values of the primary outputs, in output order. -/
def simulate (ntk : aig_network) (pattern : List Bool) : List Bool :=
  ntk.outputs.map (signal_value ntk pattern)

end aig_network

/-! ## Parsing a don't-care description -/

namespace detail

open aig_network

/-- The loop `for i < num_pis` that creates the primary inputs. -/
def create_pis (ntk : aig_network) (num_pis : Nat) : aig_network × List signal :=
  (List.range num_pis).foldl
    (fun st _ => ((create_pi st.1).2, st.2 ++ [(create_pi st.1).1])) (ntk, [])

/-- One visit of the loop over the characters of a row: `top` is `none` while
`top_is_set` is false. -/
def term_step (pis : List signal) (str : List Char)
    (st : aig_network × Option signal) (i : Nat) : aig_network × Option signal :=
  if str.getD i ' ' = '0' then
    match st.2 with
    | some top => ((create_and st.1 top (pis.getD i default).not).2,
        some (create_and st.1 top (pis.getD i default).not).1)
    | none => (st.1, some (pis.getD i default).not)
  else if str.getD i ' ' = '1' then
    match st.2 with
    | some top => ((create_and st.1 top (pis.getD i default)).2,
        some (create_and st.1 top (pis.getD i default)).1)
    | none => (st.1, some (pis.getD i default))
  else st

/-- The big AND of one row. -/
def build_term (ntk : aig_network) (pis : List signal) (str : List Char) (num_pis : Nat) :
    aig_network × Option signal :=
  (List.range num_pis).foldl (term_step pis str) (ntk, none)

/-- What `std::getline( ss, str, ' ' )` leaves in `str`: the line up to its first blank. -/
def bit_field (line : List Char) : List Char := line.takeWhile (fun c => c ≠ ' ')

/-- What `str` holds after `std::getline( ss, str )`: the rest of the line after the
first blank; when the line has no blank the stream is at its end, the second read fails
and leaves `str` as it was. -/
def output_field (line : List Char) : List Char :=
  if ' ' ∈ line then (line.dropWhile (fun c => c ≠ ' ')).drop 1 else bit_field line

/-- The character `str[0]`, the terminating null character for an empty string. -/
def first_char (str : List Char) : Char := str.headD (Char.ofNat 0)

/-- The `while` loop over the rows; `none` stands for a failed assertion. -/
def parse_rows (pis : List signal) (num_pis : Nat) :
    List (List Char) → aig_network → List signal → Option (aig_network × List signal)
  | [], ntk, terms => some (ntk, terms)
  | line :: rest, ntk, terms =>
    if line.take 4 = ['.', 'e', 'n', 'd'] then some (ntk, terms)
    else if (bit_field line).length ≠ num_pis then none
    else
      let r := build_term ntk pis (bit_field line) num_pis
      let terms := match r.2 with
        | some top => terms ++ [top]
        | none => terms
      if first_char (output_field line) ≠ '0' then none
      else parse_rows pis num_pis rest r.1 terms

/-- The loop that ORs the terms together.  Its counter is a 32-bit unsigned compared with
`terms.size()`; the fold is that loop for fewer than `2 ^ 32` terms. -/
def or_terms (ntk : aig_network) (top : signal) (terms : List signal) :
    aig_network × signal :=
  terms.foldl (fun st t => ((create_or st.1 st.2 t).2, (create_or st.1 st.2 t).1)) (ntk, top)

/-- The function `detail::parse_excdc` on the lines of the file (no line when the file
cannot be read); `none` stands for a failed assertion.  The parameter `num_pis` is a
`uint32_t`: the values the code can be called with are those below `2 ^ 32`. -/
def parse_excdc (ntk : aig_network) (lines : List String) (num_pis : Nat) :
    Option aig_network :=
  let r := create_pis ntk num_pis
  match parse_rows r.2 num_pis ((lines.drop 4).map String.toList) r.1 [] with
  | none => none
  | some (ntk, terms) =>
    match terms with
    | [] => none
    | t0 :: rest =>
      let o := or_terms ntk t0 rest
      some (create_po o.1 o.2.not)

end detail

/-- The class `dont_care_view<Ntk>`: the base network and the don't-care network. -/
structure dont_care_view where
  ntk : aig_network
  _excdc : aig_network
deriving DecidableEq, Repr

namespace dont_care_view

open aig_network

/-- The constructor from a don't-care network; `none` stands for a failed assertion. -/
def from_networks (ntk cdc_ntk : aig_network) : Option dont_care_view :=
  if ntk.num_pis ≠ cdc_ntk.num_pis then none
  else if cdc_ntk.num_pos ≠ 1 then none
  else some { ntk := ntk, _excdc := cdc_ntk }

/-- The constructor from a file. -/
def from_file (ntk : aig_network) (lines : List String) : Option dont_care_view :=
  (detail.parse_excdc aig_network.empty lines ntk.num_pis).map
    (fun cdc => { ntk := ntk, _excdc := cdc })

/-- The member `pattern_is_EXCDC`; `none` when the assertion on the pattern size fails
or the simulation has no output value at index 0. -/
def pattern_is_EXCDC (view : dont_care_view) (pattern : List Bool) : Option Bool :=
  if pattern.length ≠ view.ntk.num_pis then none
  else (simulate view._excdc pattern)[0]?

end dont_care_view

/-! ## Emission of the exclusion clauses -/

/-- Modelled from the spec: a signed literal of the solver (`bill::lit_type`, not part of
the sources at hand): a variable and a polarity, positive by default. -/
structure lit_type where
  var : Nat
  negative : Bool
deriving DecidableEq, Repr, Inhabited

/-- The complemented literal. -/
def lit_not (l : lit_type) : lit_type := { l with negative := !l.negative }

/-- The literal, complemented when the condition holds (`lit_not_cond`). -/
def lit_not_cond (l : lit_type) (c : Bool) : lit_type := if c then lit_not l else l

/-- Modelled from the spec: the solver capability, "`add_variable() -> id`;
`add_clause(ordered sequence of signed literals)`": the number of variables handed out
and the clauses received, in order. -/
structure solver_t where
  num_variables : Nat
  clauses : List (List lit_type)
deriving DecidableEq, Repr

namespace solver_t

/-- A fresh variable: the next unused identifier. -/
def add_variable (s : solver_t) : Nat × solver_t :=
  (s.num_variables, { s with num_variables := s.num_variables + 1 })

def add_clause (s : solver_t) (clause : List lit_type) : solver_t :=
  { s with clauses := s.clauses ++ [clause] }

end solver_t

namespace detail

/-- Modelled from the spec: `on_and` of `algorithms/cnf.hpp` (not part of the sources at
hand), the "clauses encoding exact Boolean equivalence" of `c` with the conjunction of `a`
and `b`. -/
def on_and (c a b : lit_type) : List (List lit_type) :=
  [[a, lit_not c], [b, lit_not c], [lit_not a, lit_not b, c]]

end detail

namespace dont_care_view

open aig_network

/-- The literals of the constant and of the primary inputs: the node map before the
gates are visited. -/
def input_literals (excdc : aig_network) : List lit_type :=
  let cdc_lits := List.replicate excdc.size default
  let cdc_lits := cdc_lits.set (get_node (get_constant false)) ⟨0, false⟩
  let cdc_lits :=
    if get_node (get_constant false) ≠ get_node (get_constant true) then
      cdc_lits.set (get_node (get_constant true)) ⟨0, true⟩
    else cdc_lits
  excdc.inputs.enum.foldl (fun lits e => lits.set e.2 ⟨e.1 + 1, false⟩) cdc_lits

/-- The body of the `foreach_gate` callback for node `n`, skipped when `n` is not a
gate. -/
def gate_step (excdc : aig_network) (st : List lit_type × solver_t) (n : Nat) :
    List lit_type × solver_t :=
  if is_gate excdc n then
    let child_lits := (foreach_fanin excdc n).map
      (fun f => lit_not_cond (st.1.getD (get_node f) default) (is_complemented f))
    let v := st.2.add_variable
    let node_lit : lit_type := ⟨v.1, false⟩
    let cdc_lits := st.1.set n node_lit
    if is_and excdc n then
      (cdc_lits, (detail.on_and node_lit (child_lits.getD 0 default)
        (child_lits.getD 1 default)).foldl solver_t.add_clause v.2)
    else (cdc_lits, v.2)
  else st

/-- The node map and the solver after the gates have been visited in creation order. -/
def encode_gates (excdc : aig_network) (solver : solver_t) : List lit_type × solver_t :=
  (List.range excdc.size).foldl (gate_step excdc) (input_literals excdc, solver)

/-- The node map `cdc_lits` once every gate has its literal. -/
def cdc_literals (view : dont_care_view) (solver : solver_t) : List lit_type :=
  (encode_gates view._excdc solver).1

/-- The member `add_EXCDC_clauses`: the solver after the clauses of the gates and the
unit clause of each output have been added. -/
def add_EXCDC_clauses (view : dont_care_view) (solver : solver_t) : solver_t :=
  view._excdc.outputs.foldl
    (fun s f => s.add_clause
      [lit_not_cond ((cdc_literals view solver).getD (get_node f) default) (!is_complemented f)])
    (encode_gates view._excdc solver).2

/-- The clauses `add_EXCDC_clauses` adds to the solver. -/
def emitted_clauses (view : dont_care_view) (solver : solver_t) : List (List lit_type) :=
  (add_EXCDC_clauses view solver).clauses.drop solver.clauses.length

end dont_care_view

/-- The truth value of a literal under an assignment of the variables. -/
def lit_true (α : Nat → Bool) (l : lit_type) : Bool := xor (α l.var) l.negative

/-- The clause holds under the assignment: one of its literals is true. -/
def clause_true (α : Nat → Bool) (clause : List lit_type) : Bool := clause.any (lit_true α)

/-- Variable 0 is false and variable `i + 1` has the value of input `i`. -/
def fixes_inputs (num_pis : Nat) (p : List Bool) (α : Nat → Bool) : Prop :=
  α 0 = false ∧ ∀ i, i < num_pis → α (i + 1) = p.getD i false

/-- The clauses are satisfiable with variable 0 fixed to false and variable `i + 1`
fixed to `p[i]`. -/
def satisfiable_with (num_pis : Nat) (p : List Bool) (clauses : List (List lit_type)) : Prop :=
  ∃ α, fixes_inputs num_pis p α ∧ ∀ c ∈ clauses, clause_true α c = true

/-- Node `m` has its literal once the gates before node `k` have been visited: it is
the constant, a primary input, or a node before `k`. -/
def has_literal_at (excdc : aig_network) (k m : Nat) : Prop :=
  m = 0 ∨ m ∈ excdc.inputs ∨ m < k

/-- What holds of the node map `lits`, the number `nvars` of solver variables and the
clauses `emitted` so far when the gates before node `k` have been visited: the literals
and clauses use variables handed out, every assignment that fixes the inputs and
satisfies the clauses gives each literal the simulated value of its node, and there is
such an assignment. -/
def encode_inv (excdc : aig_network) (p : List Bool) (v0 k : Nat) (lits : List lit_type)
    (nvars : Nat) (emitted : List (List lit_type)) : Prop :=
  lits.length = excdc.nodes.length
  ∧ v0 ≤ nvars
  ∧ (∀ m, m < excdc.nodes.length → has_literal_at excdc k m →
      (lits.getD m default).var < nvars)
  ∧ (∀ c ∈ emitted, ∀ l ∈ c, l.var < nvars)
  ∧ (∀ α, fixes_inputs excdc.inputs.length p α → (∀ c ∈ emitted, clause_true α c = true) →
      ∀ m, m < excdc.nodes.length → has_literal_at excdc k m →
        lit_true α (lits.getD m default) = (aig_network.node_values excdc p).getD m false)
  ∧ (∃ α, fixes_inputs excdc.inputs.length p α ∧ (∀ c ∈ emitted, clause_true α c = true)
      ∧ ∀ m, m < excdc.nodes.length → has_literal_at excdc k m →
        lit_true α (lits.getD m default) = (aig_network.node_values excdc p).getD m false)

/-! ## Well-formed networks and the function a description denotes -/

namespace aig_network

/-- The child lists of the nodes, in creation order. -/
def kids (ntk : aig_network) : List (List signal) := ntk.nodes.map (fun x => x.children)

/-- A network made of AND gates in topological order: node 0 is the constant, the
primary inputs are distinct nodes without children, every other node is a gate with two
children created before it, every hash entry points at the gate with the children of its
key, and every output is a node of the network. -/
def well_formed (ntk : aig_network) : Prop :=
  0 < ntk.nodes.length
  ∧ (kids ntk).getD 0 [] = []
  ∧ 0 ∉ ntk.inputs
  ∧ ntk.inputs.Nodup
  ∧ (∀ n ∈ ntk.inputs, n < ntk.nodes.length ∧ (kids ntk).getD n [] = [])
  ∧ (∀ n, n < ntk.nodes.length → n ≠ 0 → n ∉ ntk.inputs →
      ((kids ntk).getD n []).length = 2 ∧ ∀ c ∈ (kids ntk).getD n [], c.index < n)
  ∧ (∀ e ∈ ntk.hash, (kids ntk)[e.2]? = some [e.1.1, e.1.2])
  ∧ (∀ f ∈ ntk.outputs, f.index < ntk.nodes.length)

instance (ntk : aig_network) : Decidable (well_formed ntk) := by
  unfold well_formed
  infer_instance

/-- The second network has the inputs of the first and its nodes, with the same
children, followed by further nodes. -/
def extends_to (ntk ntk2 : aig_network) : Prop :=
  ntk2.inputs = ntk.inputs ∧ ntk2.outputs = ntk.outputs
    ∧ ∃ more, kids ntk2 = kids ntk ++ more

end aig_network

/-- The don't-care network after `parse_excdc` has created `n` primary inputs in a fresh
network. -/
def with_pis (n : Nat) : aig_network :=
  { nodes := List.replicate (n + 1) ⟨[], 0⟩, inputs := List.range' 1 n, outputs := [],
    hash := [] }

/-- The signals of the primary inputs of `with_pis n`. -/
def pi_signals (n : Nat) : List signal := (List.range' 1 n).map (fun i => ⟨i, false⟩)

/-- The signals `pis` are nodes of the network and signal `i` has the value of entry `i`
of the assignment. -/
def pis_ok (ntk : aig_network) (pis : List signal) (n : Nat) : Prop :=
  ∀ i, i < n → (pis.getD i default).index < ntk.nodes.length
    ∧ ∀ p, aig_network.signal_value ntk p (pis.getD i default) = p.getD i false

/-- The value of the AND under construction, true while `top_is_set` is false. -/
def top_value (ntk : aig_network) (p : List Bool) : Option signal → Bool
  | some t => aig_network.signal_value ntk p t
  | none => true

/-- What a character of a row asks of the value of its input: false under `0`, true
under `1`, nothing under any other character. -/
def literal_holds (c : Char) (b : Bool) : Bool :=
  if c = '0' then !b else if c = '1' then b else true

/-- The character is `0` or `1`. -/
def is_literal (c : Char) : Bool := decide (c = '0') || decide (c = '1')

/-- The conjunction of the literals at the first `m` positions of a row. -/
def product_upto (str : List Char) (p : List Bool) (m : Nat) : Bool :=
  (List.range m).all (fun i => literal_holds (str.getD i ' ') (p.getD i false))

/-- The product term of a row: the conjunction of its literals. -/
def row_product (str : List Char) (p : List Bool) : Bool := product_upto str p str.length

/-- One of the first `m` positions of the row holds `0` or `1`. -/
def literal_upto (str : List Char) (m : Nat) : Bool :=
  (List.range m).any (fun i => is_literal (str.getD i ' '))

/-- The row holds at least one `0` or `1`. -/
def has_literal (str : List Char) : Bool := literal_upto str str.length

/-- The data rows of a description: the lines after the 4 header lines and before the
first line that starts with `.end`. -/
def data_lines (lines : List String) : List (List Char) :=
  ((lines.drop 4).map String.toList).takeWhile (fun l => l.take 4 ≠ ['.', 'e', 'n', 'd'])

/-- The bitstrings of the data rows that hold at least one `0` or `1`: the rows that
contribute a term. -/
def term_rows (lines : List String) : List (List Char) :=
  ((data_lines lines).map detail.bit_field).filter has_literal

/-- The function the description denotes, in the words of the format: the negation of
the disjunction, over the given rows, of the product term of each row. -/
def excdc_function (rows : List (List Char)) (p : List Bool) : Bool :=
  !(rows.any (fun str => row_product str p))

/-- The assignment agrees with the row: false at each position holding `0`, true at
each position holding `1`. -/
def agrees (str : List Char) (p : List Bool) : Prop :=
  ∀ i, i < str.length →
    (str.getD i ' ' = '0' → p.getD i false = false)
    ∧ (str.getD i ' ' = '1' → p.getD i false = true)

instance (str : List Char) (p : List Bool) : Decidable (agrees str p) := by
  unfold agrees
  infer_instance

/-- A description with the two offset cubes `01-` and `1-1` over three inputs. -/
def sample_description : List String :=
  [".i 3", ".o 1", ".p 2", ".type fr", "01- 0", "1-1 0", ".end"]

/-- A description whose first data row holds no literal. -/
def blank_row_description : List String :=
  [".i 3", ".o 1", ".p 2", ".type fr", "--- 0", "1-1 0", ".end"]

/-- A description without data rows. -/
def empty_description : List String :=
  [".i 3", ".o 1", ".p 0", ".type fr", ".end"]

/-- A view over two inputs whose don't-care network is the single gate
`x1 AND NOT x2`, registered as the output. -/
def small_view : dont_care_view :=
  { ntk := with_pis 2,
    _excdc := aig_network.create_po
      (aig_network.create_and (with_pis 2) ⟨1, false⟩ ⟨2, true⟩).2 ⟨3, false⟩ }

/-- A data row as the format describes it: a bitstring of `num_pis` characters, a
blank, the output bit `0`. -/
def row_ok (num_pis : Nat) (line : List Char) : Bool :=
  decide ((detail.bit_field line).length = num_pis)
    && decide (detail.first_char (detail.output_field line) = '0')

/-- The vector `terms` of `detail::parse_excdc` when the loop over the rows is left, the
signals that are then OR-combined; `none` stands for a failed assertion in the loop. -/
def excdc_terms (ntk : aig_network) (lines : List String) (num_pis : Nat) :
    Option (List signal) :=
  (detail.parse_rows (detail.create_pis ntk num_pis).2 num_pis
    ((lines.drop 4).map String.toList) (detail.create_pis ntk num_pis).1 []).map Prod.snd

/-- In the words of the format: the output bit of a data row, the character that follows
the blank after the bitstring; a row that holds no blank, or nothing after it, has
none. -/
def output_character (line : List Char) : Option Char :=
  ((line.dropWhile (fun c => c ≠ ' ')).drop 1).head?

/-- A description whose only data row holds a bitstring and no output bit. -/
def no_output_description : List String :=
  [".i 3", ".o 1", ".p 1", ".type fr", "0-1", ".end"]

end mockturtle

/-! # The majority network and the inverter pass -/

namespace mockturtle

/-- Modelled from the spec: the network of the fixed-fanin-3 majority family with
complemented edges (`networks/mig.hpp` is not part of the sources at hand), each node
given by its ordered children in creation order, none for the constant node 0 and for a
primary input and three for a gate, with the primary-input index list and the primary
outputs. -/
structure mig_network where
  nodes : List (List signal)
  inputs : List Nat
  outputs : List signal
deriving DecidableEq, Repr

namespace mig_network

def size (ntk : mig_network) : Nat := ntk.nodes.length

def get_node (f : signal) : Nat := f.index

def is_complemented (f : signal) : Bool := f.complement

/-- Modelled from the spec: "node 0 is always the constant-false node", and in a
complement-capable family the constant true is the same node, complemented. -/
def is_constant (n : Nat) : Bool := decide (n = 0)

/-- Modelled from the spec: primary inputs "are distinguished by membership in the
primary-input index list". -/
def is_pi (ntk : mig_network) (n : Nat) : Bool := decide (n ∈ ntk.inputs)

/-- A node that is neither the constant nor a primary input. -/
def is_gate (ntk : mig_network) (n : Nat) : Bool := !is_constant n && !is_pi ntk n

/-- The nodes `foreach_gate` visits, in creation order. -/
def foreach_gate (ntk : mig_network) : List Nat :=
  (List.range ntk.size).filter (is_gate ntk)

/-- The children `foreach_fanin` hands to its callback, in child-slot order. -/
def foreach_fanin (ntk : mig_network) (n : Nat) : List signal := ntk.nodes.getD n []

/-- Modelled from the spec: "majority-of-3: output iff ≥2 true". -/
def maj (a b c : Bool) : Bool := (a && b) || (a && c) || (b && c)

/-- Modelled from the spec: the value simulation gives a node: a primary input takes its
entry of the assignment, a gate the majority of the values of its three children, each
complemented when its edge is, and the constant is false. -/
def node_value (inputs : List Nat) (pattern : List Bool) (vals : List Bool) (n : Nat)
    (children : List signal) : Bool :=
  if n ∈ inputs then pattern.getD (inputs.indexOf n) false
  else
    match children with
    | [a, b, c] =>
      maj (xor (vals.getD a.index false) a.complement)
        (xor (vals.getD b.index false) b.complement)
        (xor (vals.getD c.index false) c.complement)
    | _ => false

/-- Values of the nodes in creation order, each computed from the values before it. -/
def simulate_nodes (inputs : List Nat) (pattern : List Bool) :
    List (List signal) → List Bool → List Bool
  | [], vals => vals
  | children :: rest, vals =>
    simulate_nodes inputs pattern rest
      (vals ++ [node_value inputs pattern vals vals.length children])

def node_values (ntk : mig_network) (pattern : List Bool) : List Bool :=
  simulate_nodes ntk.inputs pattern ntk.nodes []

/-- The value of a signal under an assignment. -/
def signal_value (ntk : mig_network) (pattern : List Bool) (f : signal) : Bool :=
  xor ((node_values ntk pattern).getD f.index false) f.complement

/-- Modelled from the spec: the values of the primary outputs under an assignment of the
primary inputs, in output order. -/
def simulate (ntk : mig_network) (pattern : List Bool) : List Bool :=
  ntk.outputs.map (signal_value ntk pattern)

/-- Modelled from the spec: a well-formed network: every gate has the three fanins of
the family, each a node created before the gate, and the constant and the primary inputs
have no children. -/
def well_formed (ntk : mig_network) : Prop :=
  ∀ n, n < ntk.size →
    (is_gate ntk n = true →
      (foreach_fanin ntk n).length = 3 ∧ ∀ f ∈ foreach_fanin ntk n, f.index < n)
    ∧ (is_gate ntk n = false → foreach_fanin ntk n = [])

instance (ntk : mig_network) : Decidable (well_formed ntk) := by
  unfold well_formed
  infer_instance

end mig_network

namespace fanout_view

/-- Modelled from the spec: the fanout view adds "an index (node → ordered list of
referencing nodes)" computed "from the base network's children lists": the nodes that
hold `n` in a child slot, in creation order. -/
def foreach_fanout (ntk : mig_network) (n : Nat) : List Nat :=
  (List.range ntk.size).filter
    (fun p => (ntk.foreach_fanin p).any (fun f => decide (f.index = n)))

end fanout_view

namespace inv_opt_test

open mig_network

/-- The function `number_of_inverted` of the test file: the complemented fanins of gates
whose node is not the constant, plus the complemented primary outputs. -/
def number_of_inverted (ntk : mig_network) : Nat :=
  ((foreach_gate ntk).map (fun n =>
    ((foreach_fanin ntk n).filter
      (fun f => !is_constant (get_node f) && is_complemented f)).length)).sum
  + (ntk.outputs.filter is_complemented).length

end inv_opt_test

/-- The statistics of the pass the test file reads. -/
structure mig_inv_optimization_stats where
  total_gain : Int
deriving DecidableEq, Repr

namespace mig_network

/-- What removing the polarity of an edge saves: 1 when the edge is complemented, as the
complement goes away, and -1 when it is not, as a complement is introduced. -/
def polarity_gain (f : signal) : Int := if f.complement then 1 else -1

/-- The saving at the fanins of a gate when each changes polarity, the constant fanins
not counting. -/
def fanin_gain (ntk : mig_network) (n : Nat) : Int :=
  (((foreach_fanin ntk n).filter (fun f => !is_constant (get_node f))).map polarity_gain).sum

/-- The saving at the slots of a list that reference node `n` when each changes
polarity. -/
def use_gain (n : Nat) (slots : List signal) : Int :=
  ((slots.filter (fun f => decide (f.index = n))).map polarity_gain).sum

/-- Modelled from the spec: the "net reduction in complemented-edge count" of flipping
gate `n`, "the number of complemented edges removed minus any newly introduced", over the
gate's own fanins, its fanout slots and the primary-output slots that reference it. -/
def flip_gain (ntk : mig_network) (n : Nat) : Int :=
  fanin_gain ntk n
  + ((fanout_view.foreach_fanout ntk n).map (fun p => use_gain n (foreach_fanin ntk p))).sum
  + use_gain n ntk.outputs

/-- The slot with its polarity toggled when it references node `n`. -/
def toggle_use (n : Nat) (f : signal) : signal := if f.index = n then f.not else f

/-- The children of node `m` after the flip of gate `n`: the slots that reference `n`
are toggled, and the fanins of `n` itself are complemented. -/
def flip_children (n m : Nat) (children : List signal) : List signal :=
  if m = n then (children.map (toggle_use n)).map signal.not
  else children.map (toggle_use n)

/-- Modelled from the spec: the flip of gate `n`, which "replaces the gate by its
complement", for a majority gate the majority of its complemented fanins, and toggles
"the gate's outward-facing polarity at every fanout slot and every primary-output slot
that references it"; the identity of every node is unchanged. -/
def invert_node (ntk : mig_network) (n : Nat) : mig_network :=
  { ntk with
    nodes := ntk.nodes.mapIdx (flip_children n),
    outputs := ntk.outputs.map (toggle_use n) }

end mig_network

open mig_network

/-- One visit of the pass: gate `n` is flipped when the policy decides so, and the gain
of the flip is added to `total_gain`. -/
def mig_inv_optimization_visit (policy : mig_network → Nat → Bool)
    (st : mig_network × mig_inv_optimization_stats) (n : Nat) :
    mig_network × mig_inv_optimization_stats :=
  if decide (n < st.1.size) && is_gate st.1 n && policy st.1 n then
    (invert_node st.1 n, { total_gain := st.2.total_gain + flip_gain st.1 n })
  else st

/-- Modelled from the spec: the inverter-minimization pass (its header
`algorithms/mig_inv_optimization.hpp` is not part of the sources at hand).  The pass
visits gates, flips a visited gate when that is decided to pay, and accumulates the gain
of each applied flip in `total_gain`.  The order of the visits and the decision are
parameters: the description fixes a sweep in creation order and a flip "only on strict
improvement" (`strict_improvement`), and the savings the test file expects also need
repeated sweeps and a flip of gain 0 that enables a flip of one of its fanouts. -/
def mig_inv_optimization (policy : mig_network → Nat → Bool) (schedule : List Nat)
    (ntk : mig_network) : mig_network × mig_inv_optimization_stats :=
  schedule.foldl (mig_inv_optimization_visit policy) (ntk, { total_gain := 0 })

/-- Modelled from the spec: "a flip is applied only on strict improvement (ties are left
unflipped)". -/
def strict_improvement (ntk : mig_network) (n : Nat) : Bool := decide (0 < flip_gain ntk n)

/-- The policy that flips every gate it is asked about. -/
def always_flip (_ : mig_network) (_ : Nat) : Bool := true

/-- Modelled from the spec: `k` sweeps over the nodes "in topological (creation)
order". -/
def sweeps (ntk : mig_network) (k : Nat) : List Nat :=
  (List.replicate k (List.range ntk.size)).flatten

/-- The network of the test "basic": inputs 1 to 4, `f1 = maj(!a, b, c)`,
`f2 = maj(!a, b, d)`, `f3 = maj(a, !f1, f2)`, `f4 = maj(a, !f1, b)`, outputs `f3, f4`. -/
def test_basic : mig_network :=
  { nodes := [[], [], [], [], [],
      [⟨1, true⟩, ⟨2, false⟩, ⟨3, false⟩], [⟨1, true⟩, ⟨2, false⟩, ⟨4, false⟩],
      [⟨1, false⟩, ⟨5, true⟩, ⟨6, false⟩], [⟨1, false⟩, ⟨2, false⟩, ⟨5, true⟩]],
    inputs := [1, 2, 3, 4],
    outputs := [⟨7, false⟩, ⟨8, false⟩] }

/-- The network of the test "constant input 0": `f1 = maj(!a, b, 0)`,
`f2 = maj(!a, b, c)`, `f3 = maj(a, !f1, f2)`, output `f3`. -/
def test_constant_0 : mig_network :=
  { nodes := [[], [], [], [],
      [⟨0, false⟩, ⟨1, true⟩, ⟨2, false⟩], [⟨1, true⟩, ⟨2, false⟩, ⟨3, false⟩],
      [⟨1, false⟩, ⟨4, true⟩, ⟨5, false⟩]],
    inputs := [1, 2, 3],
    outputs := [⟨6, false⟩] }

/-- The network of the test "constant input 1": `f1 = maj(a, b, 1)`,
`f2 = maj(!a, b, c)`, `f3 = maj(a, !f1, f2)`, `f4 = maj(a, !f1, c)`, outputs `f3, f4`. -/
def test_constant_1 : mig_network :=
  { nodes := [[], [], [], [],
      [⟨0, true⟩, ⟨1, false⟩, ⟨2, false⟩], [⟨1, true⟩, ⟨2, false⟩, ⟨3, false⟩],
      [⟨1, false⟩, ⟨4, true⟩, ⟨5, false⟩], [⟨1, false⟩, ⟨3, false⟩, ⟨4, true⟩]],
    inputs := [1, 2, 3],
    outputs := [⟨6, false⟩, ⟨7, false⟩] }

/-- The network of the test "output": `f1 = maj(!a, b, c)`, `f2 = maj(!a, b, d)`,
`f3 = maj(a, !f1, f2)`, outputs `f3, !f1`. -/
def test_output : mig_network :=
  { nodes := [[], [], [], [], [],
      [⟨1, true⟩, ⟨2, false⟩, ⟨3, false⟩], [⟨1, true⟩, ⟨2, false⟩, ⟨4, false⟩],
      [⟨1, false⟩, ⟨5, true⟩, ⟨6, false⟩]],
    inputs := [1, 2, 3, 4],
    outputs := [⟨7, false⟩, ⟨5, true⟩] }

/-- The network of the test "complex": inputs `x1` to `x3` are nodes 1 to 3, `y1, y2`
nodes 4 and 5, `z1` to `z5` nodes 6 to 10, `t1, t2` nodes 11 and 12, outputs
`!t1, !t2, z4, z5`. -/
def test_complex : mig_network :=
  { nodes := [[], [], [], [],
      [⟨1, false⟩, ⟨2, true⟩, ⟨3, false⟩], [⟨0, false⟩, ⟨2, true⟩, ⟨3, false⟩],
      [⟨3, true⟩, ⟨4, false⟩, ⟨5, false⟩], [⟨2, false⟩, ⟨3, false⟩, ⟨5, true⟩],
      [⟨0, false⟩, ⟨1, false⟩, ⟨5, true⟩], [⟨0, false⟩, ⟨2, false⟩, ⟨4, true⟩],
      [⟨0, false⟩, ⟨1, false⟩, ⟨4, true⟩],
      [⟨6, false⟩, ⟨7, false⟩, ⟨8, true⟩], [⟨0, false⟩, ⟨1, true⟩, ⟨6, false⟩]],
    inputs := [1, 2, 3],
    outputs := [⟨11, true⟩, ⟨12, true⟩, ⟨9, false⟩, ⟨10, false⟩] }

/-- The network of the test "two level": `f1 = maj(!a, b, c)`, `f2 = maj(!a, b, d)`,
`f3 = maj(!a, f1, f2)`, `f4 = maj(a, !f1, f2)`, `f5 = maj(a, !f1, f4)`, outputs
`!f3, f5`. -/
def test_two_level : mig_network :=
  { nodes := [[], [], [], [], [],
      [⟨1, true⟩, ⟨2, false⟩, ⟨3, false⟩], [⟨1, true⟩, ⟨2, false⟩, ⟨4, false⟩],
      [⟨1, true⟩, ⟨5, false⟩, ⟨6, false⟩], [⟨1, false⟩, ⟨5, true⟩, ⟨6, false⟩],
      [⟨1, false⟩, ⟨5, true⟩, ⟨8, false⟩]],
    inputs := [1, 2, 3, 4],
    outputs := [⟨7, true⟩, ⟨9, false⟩] }

/-- The rewrite that toggles the slots that reference node `n` and leaves the fanins of
`n` as they are. -/
def toggle_uses (ntk : mig_network) (n : Nat) : mig_network :=
  { ntk with
    nodes := ntk.nodes.map (List.map (toggle_use n)),
    outputs := ntk.outputs.map (toggle_use n) }

/-- The values of the nodes with the value of node `n` complemented. -/
def toggle_at (n : Nat) (vals : List Bool) : List Bool :=
  vals.mapIdx (fun m v => if m = n then !v else v)

/-- The complemented fanins of a list of slots that `number_of_inverted` counts. -/
def inverted_slots (slots : List signal) : Nat :=
  (slots.filter (fun f => !is_constant (get_node f) && is_complemented f)).length

end mockturtle

/-! # Theorems about the k-LUT network -/

namespace mockturtle

open klut_storage klut_network

/-! ## The truth-table cache -/

theorem cache_insert_twice (c : truth_table_cache) (tt : dynamic_truth_table) :
    (c.insert tt).2.insert tt = ((c.insert tt).1, (c.insert tt).2) := by
  unfold truth_table_cache.insert
  by_cases h : (if kitty.get_bit tt 0 = 1 then kitty.unary_not tt else tt) ∈ c.data
  · simp [h]
  · simp [h, List.indexOf_append_of_not_mem]

theorem unary_not_unary_not (tt : dynamic_truth_table) :
    kitty.unary_not (kitty.unary_not tt) = tt := by
  cases tt with
  | mk nv b =>
    simp only [kitty.unary_not, kitty.num_bits, dynamic_truth_table.mk.injEq, true_and]
    rw [Nat.xor_assoc, Nat.xor_self, Nat.xor_zero]

theorem get_bit_le_one (tt : dynamic_truth_table) (i : Nat) : kitty.get_bit tt i ≤ 1 := by
  unfold kitty.get_bit
  split <;> omega

theorem cache_get_insert (c : truth_table_cache) (tt : dynamic_truth_table) :
    (c.insert tt).2.get (c.insert tt).1 = tt := by
  have hb := get_bit_le_one tt 0
  unfold truth_table_cache.insert truth_table_cache.get
  by_cases h : (if kitty.get_bit tt 0 = 1 then kitty.unary_not tt else tt) ∈ c.data
  · simp only [h, if_true]
    have hdiv : (2 * List.indexOf (if kitty.get_bit tt 0 = 1 then kitty.unary_not tt else tt)
        c.data + kitty.get_bit tt 0) / 2
        = List.indexOf (if kitty.get_bit tt 0 = 1 then kitty.unary_not tt else tt) c.data := by
      omega
    have hmod : (2 * List.indexOf (if kitty.get_bit tt 0 = 1 then kitty.unary_not tt else tt)
        c.data + kitty.get_bit tt 0) % 2 = kitty.get_bit tt 0 := by omega
    have hget : c.data.getD
        (List.indexOf (if kitty.get_bit tt 0 = 1 then kitty.unary_not tt else tt) c.data) default
        = (if kitty.get_bit tt 0 = 1 then kitty.unary_not tt else tt) := by
      rw [List.getD_eq_getElem?_getD, List.getElem?_indexOf h]
      rfl
    rw [hdiv, hmod, hget]
    by_cases hc : kitty.get_bit tt 0 = 1
    · simp [hc, unary_not_unary_not]
    · simp [hc]
  · simp only [h, if_false]
    have hdiv : (2 * c.data.length + kitty.get_bit tt 0) / 2 = c.data.length := by omega
    have hmod : (2 * c.data.length + kitty.get_bit tt 0) % 2 = kitty.get_bit tt 0 := by omega
    rw [hdiv, hmod]
    by_cases hc : kitty.get_bit tt 0 = 1
    · simp [hc, unary_not_unary_not, List.getD_eq_getElem?_getD]
    · simp [hc, List.getD_eq_getElem?_getD]

/-! ## Node creation -/

theorem klut_node_eq_self (x : klut_storage_node) : x.eq x = true := by
  simp [klut_storage_node.eq]

theorem _create_node_hit {s : klut_storage} {children : List Nat} {literal index : Nat}
    (h : s.hash_find (key_node children literal) = some index) :
    _create_node s children literal = (index, s) := by
  unfold _create_node
  rw [key_node] at h
  simp only [h]

theorem _create_node_miss {s : klut_storage} {children : List Nat} {literal : Nat}
    (h : s.hash_find (key_node children literal) = none) :
    _create_node s children literal = (s.nodes.length,
      set_value { s with
        nodes := children.foldl incr_h1 (s.nodes ++ [key_node children literal]),
        hash := (key_node children literal, s.nodes.length) :: s.hash } s.nodes.length 0) := by
  unfold _create_node
  rw [key_node] at h
  simp only [h, key_node]

theorem _create_node_twice (s : klut_storage) (children : List Nat) (literal : Nat) :
    _create_node (_create_node s children literal).2 children literal
      = ((_create_node s children literal).1, (_create_node s children literal).2) := by
  cases h : s.hash_find (key_node children literal) with
  | some index => simp only [_create_node_hit h]
  | none =>
    rw [_create_node_miss h]
    apply _create_node_hit
    simp [hash_find, set_value, klut_node_eq_self]

theorem _create_node_data (t : klut_storage) (children : List Nat) (lit : Nat) :
    (_create_node t children lit).2.data = t.data := by
  cases h : t.hash_find (key_node children lit) with
  | some index => rw [_create_node_hit h]
  | none => rw [_create_node_miss h]; rfl

theorem with_data_self (t : klut_storage) (d : truth_table_cache) (h : t.data = d) :
    { t with data := d } = t := by
  subst h; rfl

theorem create_node_twice (s : klut_storage) (children : List Nat) (f : dynamic_truth_table) :
    create_node (create_node s children f).2 children f
      = ((create_node s children f).1, (create_node s children f).2) := by
  unfold create_node
  simp only [_create_node_data, cache_insert_twice]
  rw [with_data_self _ _ (_create_node_data _ _ _), _create_node_twice]

/-- C1. Hash-consing idempotence: in every storage state, for valid children and any
function, the second of two successive `create_node(children, f)` calls returns the
signal of the first and leaves `size()` and every `fanout_size` as they were; the same
for two successive `create_and(a, b)` and two successive `create_not(a)`. -/
theorem hash_consing_idempotent (s : klut_storage) (children : List Nat)
    (f : dynamic_truth_table) (a b : Nat)
    (_hchildren : ∀ c ∈ children, c < size s) (_ha : a < size s) (_hb : b < size s) :
    ((create_node (create_node s children f).2 children f).1 = (create_node s children f).1
      ∧ size (create_node (create_node s children f).2 children f).2
          = size (create_node s children f).2
      ∧ ∀ n, fanout_size (create_node (create_node s children f).2 children f).2 n
          = fanout_size (create_node s children f).2 n)
    ∧ ((create_and (create_and s a b).2 a b).1 = (create_and s a b).1
      ∧ size (create_and (create_and s a b).2 a b).2 = size (create_and s a b).2
      ∧ ∀ n, fanout_size (create_and (create_and s a b).2 a b).2 n
          = fanout_size (create_and s a b).2 n)
    ∧ ((create_not (create_not s a).2 a).1 = (create_not s a).1
      ∧ size (create_not (create_not s a).2 a).2 = size (create_not s a).2
      ∧ ∀ n, fanout_size (create_not (create_not s a).2 a).2 n
          = fanout_size (create_not s a).2 n) := by
  refine ⟨?_, ?_, ?_⟩
  · rw [create_node_twice]
    exact ⟨rfl, rfl, fun _ => rfl⟩
  · unfold create_and
    rw [_create_node_twice]
    exact ⟨rfl, rfl, fun _ => rfl⟩
  · unfold create_not
    rw [_create_node_twice]
    exact ⟨rfl, rfl, fun _ => rfl⟩

/-- The network with two primary inputs, nodes 2 and 3. -/
theorem hash_consing_idempotent_witness :
    ((create_and (create_and (run_ops init [.create_pi, .create_pi]) 2 3).2 2 3).1
        = (create_and (run_ops init [.create_pi, .create_pi]) 2 3).1
      ∧ size (create_and (create_and (run_ops init [.create_pi, .create_pi]) 2 3).2 2 3).2
          = size (create_and (run_ops init [.create_pi, .create_pi]) 2 3).2
      ∧ ∀ n, fanout_size
            (create_and (create_and (run_ops init [.create_pi, .create_pi]) 2 3).2 2 3).2 n
          = fanout_size (create_and (run_ops init [.create_pi, .create_pi]) 2 3).2 n) :=
  (hash_consing_idempotent (run_ops init [.create_pi, .create_pi]) [2, 3]
    { num_vars := 2, bits := 8 } 2 3 (by decide) (by decide) (by decide)).2.1

/-! ## Substitution -/

theorem redirect_upto_zero (old new : Nat) (cs : List Nat) : redirect_upto old new 0 cs = cs := by
  simp [redirect_upto]

theorem redirect_upto_length (old new j : Nat) (cs : List Nat) :
    (redirect_upto old new j cs).length = cs.length := by
  simp only [redirect_upto, List.length_append, List.length_map, List.length_take,
    List.length_drop]
  omega

theorem redirect_upto_all (old new j : Nat) (cs : List Nat) (h : cs.length ≤ j) :
    redirect_upto old new j cs = cs.map (redirect old new) := by
  simp [redirect_upto, List.take_of_length_le h, List.drop_eq_nil_of_le h]

theorem redirect_upto_getElem? (old new : Nat) (cs : List Nat) (j q : Nat) :
    (redirect_upto old new j cs)[q]?
      = if q < j then (cs[q]?).map (redirect old new) else cs[q]? := by
  unfold redirect_upto
  rw [List.getElem?_append]
  simp only [List.length_map, List.length_take, List.getElem?_map, List.getElem?_take,
    List.getElem?_drop]
  by_cases hq : q < j
  · by_cases hl : q < cs.length
    · have : q < min j cs.length := by omega
      simp [hq, this]
    · have h0 : cs[q]? = none := List.getElem?_eq_none (by omega)
      have h1 : ¬ q < min j cs.length := by omega
      have h2 : cs[j + (q - min j cs.length)]? = none := List.getElem?_eq_none (by omega)
      simp [hq, h0, h1, h2]
  · have h1 : ¬ q < min j cs.length := by omega
    simp only [h1, hq, if_false]
    by_cases hl : j ≤ cs.length
    · congr 1; omega
    · rw [List.getElem?_eq_none (l := cs) (n := q) (by omega), List.getElem?_eq_none (by omega)]

theorem redirect_upto_succ_hit (old new : Nat) (cs : List Nat) (j : Nat)
    (h : cs[j]? = some old) :
    redirect_upto old new (j + 1) cs = (redirect_upto old new j cs).set j new := by
  have hj : j < cs.length := by
    by_contra hc
    rw [List.getElem?_eq_none (by omega)] at h
    cases h
  apply List.ext_getElem?
  intro q
  rw [List.getElem?_set, redirect_upto_getElem?, redirect_upto_getElem?, redirect_upto_length]
  by_cases hq : j = q
  · subst hq
    simp [hj, h, redirect]
  · by_cases hq2 : q < j
    · have : q < j + 1 := by omega
      simp [hq, hq2, this]
    · have : ¬ q < j + 1 := by omega
      simp [hq, hq2, this]

theorem redirect_upto_succ_miss (old new : Nat) (cs : List Nat) (j c : Nat)
    (h : cs[j]? = some c) (hc : c ≠ old) :
    redirect_upto old new (j + 1) cs = redirect_upto old new j cs := by
  apply List.ext_getElem?
  intro q
  rw [redirect_upto_getElem?, redirect_upto_getElem?]
  by_cases hq : j = q
  · subst hq
    simp [h, redirect, hc]
  · by_cases hq2 : q < j
    · have : q < j + 1 := by omega
      simp [hq2, this]
    · have : ¬ q < j + 1 := by omega
      simp [hq2, this]

theorem count_take_succ (old : Nat) (cs : List Nat) (j c : Nat) (h : cs[j]? = some c) :
    (cs.take (j + 1)).count old = (cs.take j).count old + (if c = old then 1 else 0) := by
  rw [List.take_succ, List.count_append, h]
  by_cases hc : c = old
  · simp [hc]
  · have : (c == old) = false := by simpa using hc
    simp [hc, List.count_cons, this]

theorem subst_state_zero (old new : Nat) (ns0 : List klut_storage_node) :
    subst_state old new ns0 0 0 = ns0 := by
  apply List.ext_getElem?
  intro m
  simp only [subst_state, List.getElem?_mapIdx]
  cases ns0[m]? with
  | none => rfl
  | some n => simp [child_refs, redirect_upto_zero]

theorem incr_h1_getElem? (ns : List klut_storage_node) (n m : Nat) :
    (incr_h1 ns n)[m]? = (ns[m]?).map (fun x => if n = m then { x with data0_h1 := incr32 x.data0_h1 } else x) := by
  simp only [incr_h1, List.getElem?_modify, incr32]
  rfl

theorem subst_state_slot (old new : Nat) (ns0 : List klut_storage_node) (i j : Nat)
    (hi : i < ns0.length) (hj : j < (ns0.getD i default).children.length) :
    substitute_slot old new i j (subst_state old new ns0 i j) = subst_state old new ns0 i (j + 1) := by
  obtain ⟨ni, hni⟩ : ∃ ni, ns0[i]? = some ni := ⟨ns0[i], List.getElem?_eq_getElem hi⟩
  have hgetD : ns0.getD i default = ni := by simp [List.getD_eq_getElem?_getD, hni]
  rw [hgetD] at hj
  obtain ⟨c, hc⟩ : ∃ c, ni.children[j]? = some c := ⟨ni.children[j], List.getElem?_eq_getElem hj⟩
  have hlook : ((subst_state old new ns0 i j)[i]?).bind (fun n => n.children[j]?) = some c := by
    simp only [subst_state, List.getElem?_mapIdx, hni, Option.map_some', Option.bind_some]
    simp only [lt_irrefl, if_false, if_true, Option.bind]
    rw [redirect_upto_getElem?]
    simp [hc]
  unfold substitute_slot
  simp only [hlook]
  have hcnt := count_take_succ old ni.children j c hc
  by_cases hco : c = old
  · subst hco
    simp only [if_true] at hcnt ⊢
    have hpre := redirect_upto_succ_hit c new ni.children j hc
    apply List.ext_getElem?
    intro m
    rw [incr_h1_getElem?, List.getElem?_modify]
    simp only [subst_state, List.getElem?_mapIdx, hgetD]
    cases hm : ns0[m]? with
    | none => rfl
    | some n =>
      simp only [Option.map_some', Functor.map, Option.map, Option.some.injEq]
      rw [hcnt, ← add_assoc, Function.iterate_succ_apply']
      by_cases hmi : i = m
      · subst hmi
        have hn : n = ni := by rw [hni] at hm; exact (Option.some.inj hm).symm
        subst hn
        rw [hpre]
        by_cases hmn : new = i
        · subst hmn; simp
        · have hmn2 : ¬ i = new := fun h => hmn h.symm
          simp [hmn, hmn2]
      · have hmi2 : ¬ m = i := fun h => hmi h.symm
        by_cases hmn : new = m
        · subst hmn; simp [hmi, hmi2]
        · have hmn2 : ¬ m = new := fun h => hmn h.symm
          simp [hmi, hmi2, hmn, hmn2]
  · simp only [hco, if_false, add_zero] at hcnt ⊢
    apply List.ext_getElem?
    intro m
    simp only [subst_state, List.getElem?_mapIdx, hgetD]
    cases hm : ns0[m]? with
    | none => rfl
    | some n =>
      simp only [Option.map_some']
      rw [hcnt]
      by_cases hmi : m = i
      · subst hmi
        have hn : n = ni := by rw [hni] at hm; exact (Option.some.inj hm).symm
        subst hn
        rw [redirect_upto_succ_miss old new n.children j c hc hco]
      · simp [hmi]

theorem subst_state_getD_children (old new : Nat) (ns0 : List klut_storage_node) (i : Nat) :
    ((subst_state old new ns0 i 0).getD i default).children = (ns0.getD i default).children := by
  simp only [List.getD_eq_getElem?_getD, subst_state, List.getElem?_mapIdx]
  cases ns0[i]? with
  | none => rfl
  | some n => simp [redirect_upto_zero]

theorem subst_state_inner (old new : Nat) (ns0 : List klut_storage_node) (i : Nat)
    (hi : i < ns0.length) (j : Nat) (hj : j ≤ (ns0.getD i default).children.length) :
    (List.range j).foldl (fun ns q => substitute_slot old new i q ns) (subst_state old new ns0 i 0)
      = subst_state old new ns0 i j := by
  induction j with
  | zero => rfl
  | succ j ih =>
    rw [List.range_succ, List.foldl_append, ih (by omega)]
    exact subst_state_slot old new ns0 i j hi (by omega)

theorem child_refs_take_succ (ns0 : List klut_storage_node) (i n : Nat) (hi : i < ns0.length) :
    child_refs (ns0.take (i + 1)) n
      = child_refs (ns0.take i) n + (ns0.getD i default).children.count n := by
  have hg : ns0.getD i default = ns0[i] := by
    rw [List.getD_eq_getElem?_getD, List.getElem?_eq_getElem hi]; rfl
  rw [List.take_succ, List.getElem?_eq_getElem hi, hg]
  simp only [child_refs, Option.toList, List.map_append, List.sum_append, List.map_cons,
    List.map_nil, List.sum_cons, List.sum_nil, add_zero]

theorem subst_state_next (old new : Nat) (ns0 : List klut_storage_node) (i : Nat)
    (hi : i < ns0.length) :
    subst_state old new ns0 i (ns0.getD i default).children.length
      = subst_state old new ns0 (i + 1) 0 := by
  apply List.ext_getElem?
  intro m
  simp only [subst_state, List.getElem?_mapIdx]
  cases hm : ns0[m]? with
  | none => rfl
  | some n =>
    simp only [Option.map_some', Option.some.injEq, List.take_zero, List.count_nil, add_zero]
    rw [child_refs_take_succ ns0 i old hi, List.take_of_length_le (le_refl _)]
    by_cases hmi : m = i
    · subst hmi
      have hn : ns0.getD m default = n := by simp [List.getD_eq_getElem?_getD, hm]
      rw [hn, redirect_upto_all old new _ n.children (le_refl _)]
      simp
    · by_cases hlt : m < i
      · have : m < i + 1 := by omega
        simp [hlt, this]
      · have h1 : ¬ m < i + 1 := by omega
        have h2 : ¬ m = i + 1 ∨ m = i + 1 := by omega
        rcases Nat.lt_or_ge i m with h | h
        · by_cases h3 : m = i + 1
          · simp [hlt, hmi, h1, h3, redirect_upto_zero]
          · simp [hlt, hmi, h1, h3]
        · omega

theorem subst_state_outer (old new : Nat) (ns0 : List klut_storage_node) (k : Nat)
    (hk : k ≤ ns0.length) :
    (List.range k).foldl (substitute_children old new) ns0 = subst_state old new ns0 k 0 := by
  induction k with
  | zero => exact (subst_state_zero old new ns0).symm
  | succ k ih =>
    rw [List.range_succ, List.foldl_append, ih (by omega)]
    simp only [List.foldl_cons, List.foldl_nil]
    unfold substitute_children
    rw [subst_state_getD_children, subst_state_inner old new ns0 k (by omega) _ (le_refl _)]
    exact subst_state_next old new ns0 k (by omega)

theorem subst_state_all (old new : Nat) (ns0 : List klut_storage_node) :
    subst_state old new ns0 ns0.length 0 = redirected old new ns0 (child_refs ns0 old) := by
  apply List.ext_getElem?
  intro m
  simp only [subst_state, redirected, List.getElem?_mapIdx]
  cases hm : ns0[m]? with
  | none => rfl
  | some n =>
    have hlt : m < ns0.length := by
      by_contra hc
      rw [List.getElem?_eq_none (by omega)] at hm
      cases hm
    simp [hlt, List.take_of_length_le (le_refl _)]

theorem substitute_outputs_eq (old new : Nat) (outs : List Nat) (ns0 : List klut_storage_node)
    (k : Nat) :
    substitute_outputs old new outs (redirected old new ns0 k)
      = (outs.map (redirect old new), redirected old new ns0 (k + outs.count old)) := by
  induction outs generalizing k with
  | nil => simp [substitute_outputs]
  | cons o rest ih =>
    unfold substitute_outputs
    by_cases ho : o = old
    · have hstep : incr_h1 (redirected old new ns0 k) new = redirected old new ns0 (k + 1) := by
        apply List.ext_getElem?
        intro m
        rw [incr_h1_getElem?]
        simp only [redirected, List.getElem?_mapIdx]
        cases ns0[m]? with
        | none => rfl
        | some n =>
          by_cases hmn : new = m
          · subst hmn; simp [Function.iterate_succ_apply']
          · have : ¬ m = new := fun h => hmn h.symm
            simp [hmn, this]
      simp only [ho, if_true, hstep, ih]
      simp [redirect, List.count_cons]
      congr 1; omega
    · have hb : (o == old) = false := by simpa using ho
      simp only [ho, if_false, ih]
      simp [redirect, ho, List.count_cons, hb]

theorem substitute_node_eq (s : klut_storage) (old new : Nat) :
    substitute_node s old new = { s with
      nodes := (redirected old new s.nodes (child_refs s.nodes old + s.outputs.count old)).modify
        (fun x => { x with data0_h1 := 0 }) old,
      outputs := s.outputs.map (redirect old new) } := by
  unfold substitute_node
  simp only [subst_state_outer old new s.nodes _ (le_refl _), subst_state_all,
    substitute_outputs_eq]

theorem word32_eq : word32 = 4294967296 := by norm_num [word32]

theorem incr32_iterate (k v : Nat) : incr32^[k] v % word32 = (v + k) % word32 := by
  induction k with
  | zero => rfl
  | succ k ih =>
    rw [Function.iterate_succ_apply']
    generalize incr32^[k] v = w at ih ⊢
    unfold incr32
    rw [word32_eq] at ih ⊢
    omega

/-- Reading a node of a store that is a pointwise image of another store. -/
theorem getD_of_getElem?_map {ns ns' : List klut_storage_node} {m : Nat}
    {g : klut_storage_node → klut_storage_node} (h : ns'[m]? = (ns[m]?).map g)
    (hm : m < ns.length) : ns'.getD m default = g (ns.getD m default) := by
  rw [List.getD_eq_getElem?_getD, List.getD_eq_getElem?_getD, h, List.getElem?_eq_getElem hm]
  rfl

theorem getD_of_length_le {ns : List klut_storage_node} {m : Nat} (hm : ns.length ≤ m) :
    ns.getD m default = default := by
  rw [List.getD_eq_getElem?_getD, List.getElem?_eq_none hm]
  rfl

theorem substitute_node_getElem? (s : klut_storage) (old new m : Nat) :
    (substitute_node s old new).nodes[m]? = (s.nodes[m]?).map (fun x => { x with
      children := x.children.map (redirect old new),
      data0_h1 := if m = old then 0
        else if m = new then incr32^[num_refs s old] x.data0_h1 else x.data0_h1 }) := by
  rw [substitute_node_eq]
  simp only [List.getElem?_modify, redirected, List.getElem?_mapIdx, num_refs]
  cases s.nodes[m]? with
  | none => rfl
  | some x =>
    by_cases hmo : old = m
    · subst hmo; simp
    · have : ¬ m = old := fun h => hmo h.symm
      simp [hmo, this]

theorem substitute_node_length (s : klut_storage) (old new : Nat) :
    (substitute_node s old new).nodes.length = s.nodes.length := by
  rw [substitute_node_eq]
  simp [redirected]

theorem substitute_node_outputs (s : klut_storage) (old new : Nat) :
    (substitute_node s old new).outputs = s.outputs.map (redirect old new) := by
  rw [substitute_node_eq]

theorem substitute_node_children (s : klut_storage) (old new m : Nat) :
    ((substitute_node s old new).node m).children
      = ((s.node m).children).map (redirect old new) := by
  unfold klut_storage.node
  by_cases hm : m < s.nodes.length
  · rw [getD_of_getElem?_map (substitute_node_getElem? s old new m) hm]
  · rw [getD_of_length_le (by rw [substitute_node_length]; omega), getD_of_length_le (by omega)]
    rfl

theorem substitute_node_fanout_old (s : klut_storage) (old new : Nat)
    (ho : old < s.nodes.length) : fanout_size (substitute_node s old new) old = 0 := by
  unfold fanout_size klut_storage.node
  rw [getD_of_getElem?_map (substitute_node_getElem? s old new old) ho]
  simp

theorem substitute_node_fanout_new (s : klut_storage) (old new : Nat)
    (hn : new < s.nodes.length) (hne : old ≠ new) :
    fanout_size (substitute_node s old new) new
      = (fanout_size s new + num_refs s old) % word32 := by
  unfold fanout_size klut_storage.node
  rw [getD_of_getElem?_map (substitute_node_getElem? s old new new) hn]
  have : ¬ new = old := fun h => hne h.symm
  simp only [this, if_false, if_true]
  rw [incr32_iterate, Nat.mod_add_mod]

theorem substitute_node_fanout_other (s : klut_storage) (old new m : Nat)
    (hmo : m ≠ old) (hmn : m ≠ new) :
    fanout_size (substitute_node s old new) m = fanout_size s m := by
  unfold fanout_size klut_storage.node
  by_cases hm : m < s.nodes.length
  · rw [getD_of_getElem?_map (substitute_node_getElem? s old new m) hm]
    simp [hmo, hmn]
  · rw [getD_of_length_le (by rw [substitute_node_length]; omega), getD_of_length_le (by omega)]

theorem not_mem_map_redirect (old new : Nat) (hne : old ≠ new) (l : List Nat) :
    old ∉ l.map (redirect old new) := by
  intro h
  rw [List.mem_map] at h
  obtain ⟨c, _, hc⟩ := h
  unfold redirect at hc
  by_cases hco : c = old
  · rw [if_pos hco] at hc; exact hne hc.symm
  · rw [if_neg hco] at hc; exact hco hc

/-- C2 (as amended). Substitution correctness: for valid nodes `old ≠ new`, after
`substitute_node(old, new)` no child slot and no primary-output slot holds `old`,
`fanout_size(old)` is 0, `fanout_size(new)` has grown, modulo `2 ^ 32`, by the number of
child slots and output slots that held `old` (by exactly that number when the sum stays
below `2 ^ 32`), and every slot holds what it held before unless it held `old`, in which
case it holds `new`. -/
theorem substitute_node_correct (s : klut_storage) (old new : Nat)
    (ho : old < size s) (hn : new < size s) (hne : old ≠ new) :
    (∀ n, old ∉ ((substitute_node s old new).node n).children)
    ∧ old ∉ (substitute_node s old new).outputs
    ∧ fanout_size (substitute_node s old new) old = 0
    ∧ fanout_size (substitute_node s old new) new
        = (fanout_size s new + num_refs s old) % 2 ^ 32
    ∧ (fanout_size s new + num_refs s old < 2 ^ 32 →
        fanout_size (substitute_node s old new) new = fanout_size s new + num_refs s old)
    ∧ (∀ n, ((substitute_node s old new).node n).children
        = ((s.node n).children).map (fun c => if c = old then new else c))
    ∧ (substitute_node s old new).outputs
        = s.outputs.map (fun c => if c = old then new else c)
    ∧ size (substitute_node s old new) = size s := by
  refine ⟨?_, ?_, ?_, ?_, ?_, ?_, ?_, ?_⟩
  · intro n
    rw [substitute_node_children]
    exact not_mem_map_redirect old new hne _
  · rw [substitute_node_outputs]
    exact not_mem_map_redirect old new hne _
  · exact substitute_node_fanout_old s old new ho
  · exact substitute_node_fanout_new s old new hn hne
  · intro hlt
    rw [substitute_node_fanout_new s old new hn hne]
    exact Nat.mod_eq_of_lt hlt
  · intro n
    exact substitute_node_children s old new n
  · exact substitute_node_outputs s old new
  · exact substitute_node_length s old new

/-! ## Effect of the operations on fan-out fields and reference counts -/

theorem child_refs_eq_of_children {ns ns' : List klut_storage_node}
    (h : ns'.map (fun x => x.children) = ns.map (fun x => x.children)) (n : Nat) :
    child_refs ns' n = child_refs ns n := by
  have e : ∀ l : List klut_storage_node,
      l.map (fun x => x.children.count n) = (l.map (fun x => x.children)).map (List.count n) := by
    intro l; simp
  unfold child_refs
  rw [e, e, h]

theorem map_children_modify (f : klut_storage_node → klut_storage_node)
    (hf : ∀ x, (f x).children = x.children) (ns : List klut_storage_node) (n : Nat) :
    (ns.modify f n).map (fun x => x.children) = ns.map (fun x => x.children) := by
  apply List.ext_getElem?
  intro m
  simp only [List.getElem?_map, List.getElem?_modify]
  cases ns[m]? with
  | none => rfl
  | some x =>
    by_cases h : n = m
    · simp [h, hf]
    · simp [h]

theorem map_children_incr_h1 (ns : List klut_storage_node) (n : Nat) :
    (incr_h1 ns n).map (fun x => x.children) = ns.map (fun x => x.children) := by
  unfold incr_h1
  apply map_children_modify
  intro x
  rfl

theorem map_children_foldl_incr_h1 (cs : List Nat) (ns : List klut_storage_node) :
    (cs.foldl incr_h1 ns).map (fun x => x.children) = ns.map (fun x => x.children) := by
  induction cs generalizing ns with
  | nil => rfl
  | cons c rest ih => rw [List.foldl_cons, ih, map_children_incr_h1]

theorem foldl_incr_h1_getElem? (cs : List Nat) (ns : List klut_storage_node) (m : Nat) :
    (cs.foldl incr_h1 ns)[m]?
      = (ns[m]?).map (fun x => { x with data0_h1 := incr32^[cs.count m] x.data0_h1 }) := by
  induction cs generalizing ns with
  | nil => cases h : ns[m]? <;> simp [h]
  | cons c rest ih =>
    rw [List.foldl_cons, ih, incr_h1_getElem?]
    cases ns[m]? with
    | none => rfl
    | some x =>
      by_cases h : c = m
      · subst h
        simp [List.count_cons, Function.iterate_succ_apply]
      · have hb : (c == m) = false := by simpa using h
        simp [h, List.count_cons, hb]

theorem foldl_incr_h1_length (cs : List Nat) (ns : List klut_storage_node) :
    (cs.foldl incr_h1 ns).length = ns.length := by
  induction cs generalizing ns with
  | nil => rfl
  | cons c rest ih => rw [List.foldl_cons, ih]; simp [incr_h1]

theorem fanout_size_default (s : klut_storage) (m : Nat) (hm : s.nodes.length ≤ m) :
    fanout_size s m = 0 := by
  unfold fanout_size klut_storage.node
  rw [getD_of_length_le hm]
  rfl

/-! ### create_pi -/

theorem create_pi_nodes (s : klut_storage) :
    (create_pi s).2.nodes = s.nodes ++ [{ (default : klut_storage_node) with data1_h1 := 2 }] := by
  unfold create_pi
  simp only []
  apply List.ext_getElem?
  intro m
  rw [List.getElem?_modify]
  by_cases h : m < s.nodes.length
  · have hne : ¬ s.nodes.length = m := by omega
    simp [List.getElem?_append_left h, hne]
  · by_cases h2 : m = s.nodes.length
    · subst h2
      simp
    · have h3 : ¬ s.nodes.length = m := fun e => h2 e.symm
      have h4 : ∀ x : klut_storage_node, [x][m - s.nodes.length]? = none :=
        fun x => List.getElem?_eq_none (by simp; omega)
      simp [h3, List.getElem?_append_right (Nat.le_of_not_lt h), h4]

theorem create_pi_outputs (s : klut_storage) : (create_pi s).2.outputs = s.outputs := rfl

theorem create_pi_fanout (s : klut_storage) (m : Nat) :
    fanout_size (create_pi s).2 m = fanout_size s m := by
  unfold fanout_size klut_storage.node
  rw [create_pi_nodes, List.getD_eq_getElem?_getD, List.getD_eq_getElem?_getD]
  by_cases h : m < s.nodes.length
  · rw [List.getElem?_append_left h]
  · rw [List.getElem?_append_right (Nat.le_of_not_lt h),
      List.getElem?_eq_none (l := s.nodes) (Nat.le_of_not_lt h)]
    by_cases h2 : m - s.nodes.length = 0
    · rw [h2]; rfl
    · rw [List.getElem?_eq_none (by simp; omega)]

theorem create_pi_refs (s : klut_storage) (n : Nat) :
    num_refs (create_pi s).2 n = num_refs s n := by
  unfold num_refs
  have hd : (default : klut_storage_node).children = [] := rfl
  rw [create_pi_outputs, create_pi_nodes]
  simp [child_refs, hd]

/-! ### create_po -/

theorem create_po_fanout (s : klut_storage) (f m : Nat) (hf : f < s.nodes.length) :
    fanout_size (create_po s f) m
      = if m = f then (fanout_size s m + 1) % word32 else fanout_size s m := by
  unfold fanout_size klut_storage.node create_po
  simp only []
  by_cases hm : m < s.nodes.length
  · rw [getD_of_getElem?_map (incr_h1_getElem? s.nodes f m) hm]
    by_cases h : f = m
    · subst h
      simp [incr32]
    · have : ¬ m = f := fun e => h e.symm
      simp [h, this]
  · have : ¬ m = f := by omega
    rw [getD_of_length_le (by simp [incr_h1]; omega), getD_of_length_le (by omega)]
    simp [this]

theorem create_po_refs (s : klut_storage) (f n : Nat) :
    num_refs (create_po s f) n = num_refs s n + (if n = f then 1 else 0) := by
  unfold num_refs create_po
  simp only []
  rw [child_refs_eq_of_children (map_children_incr_h1 s.nodes f), List.count_append]
  by_cases h : n = f
  · subst h; simp; omega
  · have hb : (f == n) = false := by simpa using fun e : f = n => h e.symm
    simp [h, List.count_cons, hb]

/-! ### _create_node -/

theorem _create_node_miss_nodes {s : klut_storage} {children : List Nat} {literal : Nat}
    (h : s.hash_find (key_node children literal) = none) (m : Nat) :
    (_create_node s children literal).2.nodes[m]?
      = ((s.nodes ++ [key_node children literal])[m]?).map
          (fun x => { x with data0_h1 := incr32^[children.count m] x.data0_h1 }) := by
  rw [_create_node_miss h]
  simp only [set_value, List.getElem?_modify, foldl_incr_h1_getElem?]
  by_cases hm : m < s.nodes.length
  · have hne : ¬ s.nodes.length = m := by omega
    rw [List.getElem?_append_left hm]
    cases s.nodes[m]? with
    | none => rfl
    | some x => simp [hne]
  · rw [List.getElem?_append_right (Nat.le_of_not_lt hm)]
    by_cases h2 : m = s.nodes.length
    · subst h2
      simp [key_node, word32_eq]
    · rw [List.getElem?_eq_none (by simp; omega)]
      rfl

theorem _create_node_miss_length {s : klut_storage} {children : List Nat} {literal : Nat}
    (h : s.hash_find (key_node children literal) = none) :
    (_create_node s children literal).2.nodes.length = s.nodes.length + 1 := by
  rw [_create_node_miss h]
  simp [set_value, foldl_incr_h1_length]

theorem _create_node_fanout (s : klut_storage) (children : List Nat) (literal : Nat)
    (hvalid : ∀ c ∈ children, c < s.nodes.length)
    (h : s.hash_find (key_node children literal) = none) (m : Nat) :
    fanout_size (_create_node s children literal).2 m
      = (fanout_size s m + children.count m) % word32 := by
  unfold fanout_size klut_storage.node
  by_cases hm : m < s.nodes.length
  · have hm2 : m < (s.nodes ++ [key_node children literal]).length := by simp; omega
    rw [getD_of_getElem?_map (_create_node_miss_nodes h m) hm2]
    simp only []
    rw [incr32_iterate, List.getD_eq_getElem?_getD, List.getElem?_append_left hm,
      ← List.getD_eq_getElem?_getD, Nat.mod_add_mod]
  · have hcount : children.count m = 0 := by
      rw [List.count_eq_zero]
      intro hc
      exact hm (hvalid m hc)
    rw [hcount, @getD_of_length_le s.nodes m (by omega)]
    by_cases h2 : m = s.nodes.length
    · have hm2 : m < (s.nodes ++ [key_node children literal]).length := by simp; omega
      rw [getD_of_getElem?_map (_create_node_miss_nodes h m) hm2, hcount]
      subst h2
      simp [List.getD_eq_getElem?_getD, key_node]
      rfl
    · rw [getD_of_length_le (by rw [_create_node_miss_length h]; omega)]
      rfl

theorem _create_node_refs (s : klut_storage) (children : List Nat) (literal : Nat)
    (h : s.hash_find (key_node children literal) = none) (n : Nat) :
    num_refs (_create_node s children literal).2 n = num_refs s n + children.count n := by
  rw [_create_node_miss h]
  unfold num_refs set_value
  simp only []
  have e1 := map_children_modify (fun x => { x with data0_h2 := 0 % word32 }) (fun _ => rfl)
    (List.foldl incr_h1 (s.nodes ++ [key_node children literal]) children) s.nodes.length
  rw [child_refs_eq_of_children e1,
    child_refs_eq_of_children (map_children_foldl_incr_h1 _ _)]
  simp [child_refs, key_node]
  omega

/-! ### substitute_node -/

theorem count_map_redirect (old new n : Nat) (hne : old ≠ new) (l : List Nat) :
    (l.map (redirect old new)).count n
      = if n = old then 0 else if n = new then l.count new + l.count old else l.count n := by
  induction l with
  | nil => simp
  | cons c rest ih =>
    rw [List.map_cons, List.count_cons, ih]
    simp only [List.count_cons, redirect, beq_iff_eq]
    split_ifs <;> omega

theorem substitute_node_map_children (s : klut_storage) (old new : Nat) :
    (substitute_node s old new).nodes.map (fun x => x.children)
      = s.nodes.map (fun x => x.children.map (redirect old new)) := by
  apply List.ext_getElem?
  intro m
  rw [List.getElem?_map, List.getElem?_map, substitute_node_getElem?]
  cases s.nodes[m]? <;> rfl

theorem sum_count_redirect (old new n : Nat) (hne : old ≠ new) (ns : List klut_storage_node) :
    ((ns.map (fun x => x.children.map (redirect old new))).map (List.count n)).sum
      = if n = old then 0
        else if n = new then child_refs ns new + child_refs ns old else child_refs ns n := by
  induction ns with
  | nil => simp [child_refs]
  | cons x rest ih =>
    simp only [List.map_cons, List.sum_cons, child_refs] at ih ⊢
    rw [ih, count_map_redirect old new n hne]
    split_ifs <;> omega

theorem substitute_node_refs (s : klut_storage) (old new n : Nat) (hne : old ≠ new) :
    num_refs (substitute_node s old new) n
      = if n = old then 0
        else if n = new then num_refs s new + num_refs s old else num_refs s n := by
  have e : child_refs (substitute_node s old new).nodes n
      = (((substitute_node s old new).nodes.map (fun x => x.children)).map (List.count n)).sum := by
    rw [List.map_map]
    rfl
  unfold num_refs
  rw [e, substitute_node_map_children, sum_count_redirect old new n hne,
    substitute_node_outputs, count_map_redirect old new n hne]
  split_ifs <;> omega

/-! ## Fan-out accounting -/

theorem init_nodes : init.nodes = [⟨[], 0, 0, 0, 0⟩, ⟨[], 0, 0, 1, 0⟩] := by decide

theorem init_outputs : init.outputs = [] := by decide

theorem init_accounting (n : Nat) : fanout_size init n = num_refs init n % word32 := by
  have hr : num_refs init n = 0 := by
    simp [num_refs, child_refs, init_nodes, init_outputs]
  rw [hr]
  unfold fanout_size klut_storage.node
  rw [init_nodes]
  match n with
  | 0 => rfl
  | 1 => rfl
  | k + 2 => rfl

theorem _create_node_accounting (s : klut_storage) (children : List Nat) (literal : Nat)
    (hvalid : ∀ c ∈ children, c < s.nodes.length)
    (hinv : ∀ n, fanout_size s n = num_refs s n % word32) (n : Nat) :
    fanout_size (_create_node s children literal).2 n
      = num_refs (_create_node s children literal).2 n % word32 := by
  cases h : s.hash_find (key_node children literal) with
  | some index => rw [_create_node_hit h]; exact hinv n
  | none =>
    rw [_create_node_fanout s children literal hvalid h, _create_node_refs s children literal h,
      hinv n, Nat.mod_add_mod]

theorem create_po_accounting (s : klut_storage) (f : Nat) (hf : f < s.nodes.length)
    (hinv : ∀ n, fanout_size s n = num_refs s n % word32) (n : Nat) :
    fanout_size (create_po s f) n = num_refs (create_po s f) n % word32 := by
  rw [create_po_fanout s f n hf, create_po_refs, hinv n]
  by_cases h : n = f
  · simp only [h, if_true]; rw [Nat.mod_add_mod]
  · simp [h]

theorem substitute_node_accounting (s : klut_storage) (old new : Nat)
    (ho : old < s.nodes.length) (hn : new < s.nodes.length) (hne : old ≠ new)
    (hinv : ∀ n, fanout_size s n = num_refs s n % word32) (n : Nat) :
    fanout_size (substitute_node s old new) n
      = num_refs (substitute_node s old new) n % word32 := by
  rw [substitute_node_refs s old new n hne]
  by_cases h1 : n = old
  · subst h1
    rw [substitute_node_fanout_old s n new ho]
    simp
  · by_cases h2 : n = new
    · subst h2
      rw [substitute_node_fanout_new s old n hn hne, hinv n]
      simp only [h1, if_false, if_true]
      rw [Nat.mod_add_mod]
    · rw [substitute_node_fanout_other s old new n h1 h2, hinv n]
      simp [h1, h2]

theorem reachable_accounting (s : klut_storage)
    (h : reachable_by klut_op.no_self_substitution s) :
    ∀ n, fanout_size s n = num_refs s n % word32 := by
  induction h with
  | init => exact init_accounting
  | step s op _ hadm hvalid ih =>
    cases op with
    | create_pi =>
      intro n
      show fanout_size (create_pi s).2 n = num_refs (create_pi s).2 n % word32
      rw [create_pi_fanout, create_pi_refs]
      exact ih n
    | create_po f =>
      simp only [klut_op.valid, decide_eq_true_eq] at hvalid
      exact create_po_accounting s f hvalid ih
    | create_not a =>
      simp only [klut_op.valid, decide_eq_true_eq] at hvalid
      apply _create_node_accounting s [a] 3 _ ih
      intro c hc
      simp only [List.mem_singleton] at hc
      omega
    | create_and a b =>
      simp only [klut_op.valid, Bool.and_eq_true, decide_eq_true_eq] at hvalid
      apply _create_node_accounting s [a, b] 4 _ ih
      intro c hc
      simp only [List.mem_cons, List.mem_singleton, List.not_mem_nil, or_false] at hc
      omega
    | create_node children function =>
      simp only [klut_op.valid, List.all_eq_true, decide_eq_true_eq] at hvalid
      exact _create_node_accounting { s with data := (s.data.insert function).2 } children
        (s.data.insert function).1 hvalid ih
    | substitute_node old new =>
      simp only [klut_op.valid, Bool.and_eq_true, decide_eq_true_eq] at hvalid
      simp only [klut_op.no_self_substitution, decide_eq_true_eq] at hadm
      exact substitute_node_accounting s old new hvalid.1 hvalid.2 hadm ih

theorem reachable_of_ops_ok (admitted : klut_op → Bool) (s : klut_storage)
    (hs : reachable_by admitted s) (ops : List klut_op) (h : ops_ok admitted s ops = true) :
    reachable_by admitted (run_ops s ops) := by
  induction ops generalizing s with
  | nil => exact hs
  | cons op rest ih =>
    simp only [ops_ok, Bool.and_eq_true] at h
    exact ih (op.apply s) (reachable_by.step s op hs h.1.1 h.1.2) h.2

/-! ### Repeated output registration -/

theorem po_burst_succ (k f : Nat) (s : klut_storage) :
    po_burst (k + 1) f s = create_po (po_burst k f s) f := by
  unfold po_burst
  rw [Function.iterate_succ_apply']

theorem po_burst_length (k f : Nat) (s : klut_storage) :
    (po_burst k f s).nodes.length = s.nodes.length := by
  induction k with
  | zero => rfl
  | succ k ih =>
    rw [po_burst_succ]
    simp [create_po, incr_h1, ih]

theorem fanout_size_mod (s : klut_storage) (m : Nat) :
    fanout_size s m % word32 = fanout_size s m := by
  unfold fanout_size
  exact Nat.mod_mod _ _

theorem po_burst_fanout (k f : Nat) (s : klut_storage) (hf : f < s.nodes.length) (m : Nat) :
    fanout_size (po_burst k f s) m
      = if m = f then (fanout_size s m + k) % word32 else fanout_size s m := by
  induction k with
  | zero =>
    by_cases h : m = f
    · simp only [h, if_true, Nat.add_zero]
      exact (fanout_size_mod s f).symm
    · simp only [h, if_false]
      rfl
  | succ k ih =>
    rw [po_burst_succ, create_po_fanout _ f m (by rw [po_burst_length]; exact hf), ih]
    by_cases h : m = f
    · simp only [h, if_true]
      rw [Nat.mod_add_mod, Nat.add_assoc]
    · simp only [h, if_false]

theorem po_burst_refs (k f : Nat) (s : klut_storage) (n : Nat) :
    num_refs (po_burst k f s) n = num_refs s n + (if n = f then k else 0) := by
  induction k with
  | zero => simp [po_burst]
  | succ k ih =>
    rw [po_burst_succ, create_po_refs, ih]
    split_ifs <;> omega

theorem reachable_po_burst (admitted : klut_op → Bool) (k f : Nat) (s : klut_storage)
    (hs : reachable_by admitted s) (hadm : admitted (.create_po f) = true)
    (hf : f < s.nodes.length) : reachable_by admitted (po_burst k f s) := by
  induction k with
  | zero => exact hs
  | succ k ih =>
    rw [po_burst_succ]
    refine reachable_by.step (po_burst k f s) (.create_po f) ih hadm ?_
    simp only [klut_op.valid, decide_eq_true_eq]
    rw [po_burst_length]
    exact hf

theorem two_pis_reachable (admitted : klut_op → Bool)
    (h : admitted .create_pi = true) : reachable_by admitted two_pis :=
  reachable_by.step _ .create_pi (reachable_by.step _ .create_pi reachable_by.init h rfl) h rfl

theorem wrap_net_length : wrap_net.nodes.length = 4 := by
  unfold wrap_net
  simp only [create_po, incr_h1, List.length_modify]
  rw [po_burst_length]
  decide

theorem wrap_net_fanout : fanout_size wrap_net 3 = 4294967295 := by
  have h4 : two_pis.nodes.length = 4 := by decide
  have h0 : fanout_size two_pis 3 = 0 := by decide
  unfold wrap_net
  rw [create_po_fanout _ 2 3 (by rw [po_burst_length, h4]; omega),
    if_neg (by omega), po_burst_fanout _ _ _ (by rw [h4]; omega), if_pos rfl, h0, word32_eq]

theorem wrap_net_refs : num_refs wrap_net 2 = 1 := by
  have h0 : num_refs two_pis 2 = 0 := by decide
  unfold wrap_net
  rw [create_po_refs, po_burst_refs, h0]
  simp

/-- C2, the claim as stated fails: in the network `wrap_net` (reached by two `create_pi`,
`2 ^ 32 - 1` calls `create_po(3)` and one `create_po(2)`) exactly one slot holds node 2 and
`fanout_size(3)` is `2 ^ 32 - 1`; after `substitute_node(2, 3)` the 32-bit counter
`fanout_size(3)` is 0, not `2 ^ 32`. -/
theorem substitute_node_fanout_wraps :
    reachable_by klut_op.any_op wrap_net
    ∧ 2 < size wrap_net ∧ 3 < size wrap_net
    ∧ num_refs wrap_net 2 = 1
    ∧ fanout_size wrap_net 3 = 4294967295
    ∧ fanout_size (substitute_node wrap_net 2 3) 3 = 0
    ∧ fanout_size (substitute_node wrap_net 2 3) 3
        ≠ fanout_size wrap_net 3 + num_refs wrap_net 2 := by
  have hsub : fanout_size (substitute_node wrap_net 2 3) 3 = 0 := by
    rw [substitute_node_fanout_new wrap_net 2 3 (by rw [wrap_net_length]; omega) (by omega),
      wrap_net_fanout, wrap_net_refs, word32_eq]
  refine ⟨?_, ?_, ?_, wrap_net_refs, wrap_net_fanout, hsub, ?_⟩
  · have h4 : two_pis.nodes.length = 4 := by decide
    refine reachable_by.step _ (.create_po 2)
      (reachable_po_burst _ _ 3 _ (two_pis_reachable _ rfl) rfl (by rw [h4]; omega)) rfl ?_
    simp only [klut_op.valid, decide_eq_true_eq]
    rw [po_burst_length, h4]
    omega
  · show 2 < wrap_net.nodes.length
    rw [wrap_net_length]; omega
  · show 3 < wrap_net.nodes.length
    rw [wrap_net_length]; omega
  · rw [hsub, wrap_net_fanout, wrap_net_refs]
    omega

/-- Substituting input 2 by input 4 in a network with the gate AND(2, 3) and the outputs
5 and 2. -/
theorem substitute_node_correct_witness :
    2 < size (run_ops init [.create_pi, .create_pi, .create_pi, .create_and 2 3,
      .create_po 5, .create_po 2])
    ∧ fanout_size (substitute_node (run_ops init [.create_pi, .create_pi, .create_pi,
        .create_and 2 3, .create_po 5, .create_po 2]) 2 4) 2 = 0
    ∧ fanout_size (substitute_node (run_ops init [.create_pi, .create_pi, .create_pi,
        .create_and 2 3, .create_po 5, .create_po 2]) 2 4) 4
      = (fanout_size (run_ops init [.create_pi, .create_pi, .create_pi,
          .create_and 2 3, .create_po 5, .create_po 2]) 4
        + num_refs (run_ops init [.create_pi, .create_pi, .create_pi,
          .create_and 2 3, .create_po 5, .create_po 2]) 2) % 2 ^ 32 :=
  ⟨by decide,
   (substitute_node_correct _ 2 4 (by decide) (by decide) (by decide)).2.2.1,
   (substitute_node_correct _ 2 4 (by decide) (by decide) (by decide)).2.2.2.1⟩

/-- C3 (as amended). Fan-out accounting: in every state reached from a freshly
constructed network by `create_pi`, `create_po`, `create_not`, `create_and`, `create_node`
and `substitute_node` calls on valid signals, no substitution being of a node by itself,
`fanout_size(n)` equals, modulo `2 ^ 32`, the number of child slots plus the number of
primary-output slots that hold `n`, hence that number itself when it is below `2 ^ 32`. -/
theorem fanout_accounting (s : klut_storage)
    (h : reachable_by klut_op.no_self_substitution s) (n : Nat) (_hn : n < size s) :
    fanout_size s n = num_refs s n % 2 ^ 32
    ∧ (num_refs s n < 2 ^ 32 → fanout_size s n = num_refs s n) := by
  refine ⟨reachable_accounting s h n, fun hlt => ?_⟩
  rw [reachable_accounting s h n]
  exact Nat.mod_eq_of_lt hlt

/-- Node 4 of `sample_net`, which took over the references to node 2. -/
theorem fanout_accounting_witness :
    reachable_by klut_op.no_self_substitution sample_net ∧ 4 < size sample_net
    ∧ fanout_size sample_net 4 = num_refs sample_net 4 % 2 ^ 32
    ∧ num_refs sample_net 4 = 2 :=
  ⟨reachable_of_ops_ok _ _ reachable_by.init _ (by decide), by decide,
   (fanout_accounting sample_net
     (reachable_of_ops_ok _ _ reachable_by.init _ (by decide)) 4 (by decide)).1,
   by decide⟩

/-- C3, the claim as stated fails twice.  After `create_pi`, `create_po(2)` and
`substitute_node(2, 2)` one output slot holds node 2 and `fanout_size(2)` is 0.  After
`2 ^ 32` calls `create_po(0)` on a fresh network `2 ^ 32` output slots hold node 0 and
the 32-bit counter `fanout_size(0)` is 0. -/
theorem fanout_accounting_fails :
    (reachable_by klut_op.any_op self_substituted ∧ 2 < size self_substituted
      ∧ fanout_size self_substituted 2 = 0 ∧ num_refs self_substituted 2 = 1)
    ∧ (reachable_by klut_op.any_op po_overflow ∧ 0 < size po_overflow
      ∧ fanout_size po_overflow 0 = 0 ∧ num_refs po_overflow 0 = 4294967296) := by
  have h2 : init.nodes.length = 2 := by decide
  refine ⟨⟨reachable_of_ops_ok _ _ reachable_by.init _ (by decide), by decide, by decide,
    by decide⟩, reachable_po_burst _ _ 0 _ reachable_by.init rfl (by rw [h2]; omega), ?_, ?_, ?_⟩
  · show 0 < po_overflow.nodes.length
    unfold po_overflow
    rw [po_burst_length, h2]; omega
  · unfold po_overflow
    rw [po_burst_fanout _ _ _ (by rw [h2]; omega), if_pos rfl, init_accounting,
      Nat.mod_add_mod, word32_eq]
    have : num_refs init 0 = 0 := by decide
    rw [this]
  · unfold po_overflow
    rw [po_burst_refs, if_pos rfl]
    have : num_refs init 0 = 0 := by decide
    rw [this]

/-! ## Commuted AND -/

theorem hash_find_with_data (s : klut_storage) (d : truth_table_cache)
    (x : klut_storage_node) : hash_find { s with data := d } x = hash_find s x := rfl

theorem hash_find_after_other (s : klut_storage) (children other : List Nat)
    (literal : Nat) (hne : children ≠ other) :
    (_create_node s children literal).2.hash_find (key_node other literal)
      = s.hash_find (key_node other literal) := by
  cases h : s.hash_find (key_node children literal) with
  | some index => rw [_create_node_hit h]
  | none =>
    rw [_create_node_miss h]
    have : (key_node children literal).eq (key_node other literal) = false := by
      simp [klut_storage_node.eq, key_node, hne]
    simp [hash_find, set_value, List.find?_cons, this]

/-- C4, the claim as stated fails: on the network with primary inputs 2 and 3,
`create_and(2, 3)` returns node 4 and `create_and(3, 2)` then returns a new node 5,
`size()` growing from 5 to 6. -/
theorem create_and_not_commutative :
    (create_and two_pis 2 3).1 = 4
    ∧ (create_and (create_and two_pis 2 3).2 3 2).1 = 5
    ∧ size (create_and two_pis 2 3).2 = 5
    ∧ size (create_and (create_and two_pis 2 3).2 3 2).2 = 6 := by
  decide

/-- C4 (as amended). The structural hash key of `klut_network` holds the children in
the order given.  For valid signals `a = b`, `create_and(a, b)` followed by
`create_and(b, a)` returns the identical signal and the second call leaves `size()`
unchanged.  For `a ≠ b`, when the hash table has no entry for AND with children
`(b, a)`, the second call appends a new node: `size()` grows by one and the signal
returned is the new node, different from the first call's result whenever that result
is a node of the store. -/
theorem create_and_commuted (s : klut_storage) (a b : Nat)
    (_ha : a < size s) (_hb : b < size s) :
    (a = b →
      (create_and (create_and s a b).2 b a).1 = (create_and s a b).1
      ∧ size (create_and (create_and s a b).2 b a).2 = size (create_and s a b).2)
    ∧ (a ≠ b → s.hash_find (key_node [b, a] 4) = none →
      (create_and (create_and s a b).2 b a).1 = size (create_and s a b).2
      ∧ size (create_and (create_and s a b).2 b a).2 = size (create_and s a b).2 + 1
      ∧ ((create_and s a b).1 < size (create_and s a b).2 →
          (create_and (create_and s a b).2 b a).1 ≠ (create_and s a b).1)) := by
  constructor
  · intro hab
    subst hab
    unfold create_and
    rw [_create_node_twice]
    exact ⟨rfl, rfl⟩
  · intro hab hmiss
    have hne : [a, b] ≠ [b, a] := by
      intro h
      simp only [List.cons.injEq, and_true] at h
      exact hab h.1
    have hmiss2 : (create_and s a b).2.hash_find (key_node [b, a] 4) = none := by
      unfold create_and
      rw [hash_find_after_other s [a, b] [b, a] 4 hne]
      exact hmiss
    have h1 : (create_and (create_and s a b).2 b a).1 = size (create_and s a b).2 := by
      show (_create_node (create_and s a b).2 [b, a] 4).1 = _
      rw [_create_node_miss hmiss2]
      rfl
    refine ⟨h1, ?_, ?_⟩
    · show (_create_node (create_and s a b).2 [b, a] 4).2.nodes.length = _
      rw [_create_node_miss_length hmiss2]
      rfl
    · intro hlt
      rw [h1]
      omega

/-- The network with primary inputs 2 and 3, where no AND has been built. -/
theorem create_and_commuted_witness :
    (create_and (create_and two_pis 2 3).2 3 2).1 = size (create_and two_pis 2 3).2
    ∧ size (create_and (create_and two_pis 2 3).2 3 2).2
        = size (create_and two_pis 2 3).2 + 1 :=
  ⟨((create_and_commuted two_pis 2 3 (by decide) (by decide)).2 (by decide) (by decide)).1,
   ((create_and_commuted two_pis 2 3 (by decide) (by decide)).2 (by decide) (by decide)).2.1⟩

/-! ## What create_node returns -/

theorem hash_sound_of_extends {s t : klut_storage} (hs : hash_sound s)
    (hhash : t.hash = s.hash) (hext : extends_shape s.nodes t.nodes) : hash_sound t := by
  intro e he
  rw [hhash] at he
  obtain ⟨x, hx, hc, hl⟩ := hs e he
  obtain ⟨y, hy, hyc, hyl⟩ := hext e.2 x hx
  exact ⟨y, hy, hyc.trans hc, hyl.trans hl⟩

theorem lt_length_of_getElem? {ns : List klut_storage_node} {m : Nat} {x : klut_storage_node}
    (hx : ns[m]? = some x) : m < ns.length := by
  by_contra hc
  rw [List.getElem?_eq_none (by omega)] at hx
  cases hx

theorem create_pi_extends (s : klut_storage) : extends_shape s.nodes (create_pi s).2.nodes := by
  intro m x hx
  refine ⟨x, ?_, rfl, rfl⟩
  rw [create_pi_nodes, List.getElem?_append_left (lt_length_of_getElem? hx)]
  exact hx

theorem create_po_extends (s : klut_storage) (f : Nat) :
    extends_shape s.nodes (create_po s f).nodes := by
  intro m x hx
  show ∃ y, (incr_h1 s.nodes f)[m]? = some y ∧ _
  rw [incr_h1_getElem?, hx]
  by_cases h : f = m
  · exact ⟨{ x with data0_h1 := incr32 x.data0_h1 }, by simp [h], rfl, rfl⟩
  · exact ⟨x, by simp [h], rfl, rfl⟩

theorem _create_node_extends (s : klut_storage) (children : List Nat) (literal : Nat) :
    extends_shape s.nodes (_create_node s children literal).2.nodes := by
  cases h : s.hash_find (key_node children literal) with
  | some index =>
    rw [_create_node_hit h]
    intro m x hx
    exact ⟨x, hx, rfl, rfl⟩
  | none =>
    intro m x hx
    refine ⟨{ x with data0_h1 := incr32^[children.count m] x.data0_h1 }, ?_, rfl, rfl⟩
    rw [_create_node_miss_nodes h, List.getElem?_append_left (lt_length_of_getElem? hx), hx]
    rfl

theorem _create_node_miss_new {s : klut_storage} {children : List Nat} {literal : Nat}
    (h : s.hash_find (key_node children literal) = none) :
    ∃ x, (_create_node s children literal).2.nodes[s.nodes.length]? = some x
      ∧ x.children = children ∧ x.data1_h1 = literal % word32 := by
  refine ⟨{ key_node children literal with
    data0_h1 := incr32^[children.count s.nodes.length] 0 }, ?_, rfl, rfl⟩
  rw [_create_node_miss_nodes h]
  simp [key_node]

theorem creation_inv_init : creation_inv init := by
  constructor
  · intro e he
    have : init.hash = [] := by decide
    rw [this] at he
    cases he
  · exact ⟨⟨[], 0, 0, 0, 0⟩, by rw [init_nodes]; rfl, rfl⟩

theorem creation_inv_of_extends {s t : klut_storage} (hs : creation_inv s)
    (hhash : t.hash = s.hash) (hext : extends_shape s.nodes t.nodes) : creation_inv t := by
  refine ⟨hash_sound_of_extends hs.1 hhash hext, ?_⟩
  obtain ⟨x, hx, hc⟩ := hs.2
  obtain ⟨y, hy, hyc, _⟩ := hext 0 x hx
  exact ⟨y, hy, hyc.trans hc⟩

theorem creation_inv_create_node (s : klut_storage) (children : List Nat) (literal : Nat)
    (hs : creation_inv s) : creation_inv (_create_node s children literal).2 := by
  cases h : s.hash_find (key_node children literal) with
  | some index => rw [_create_node_hit h]; exact hs
  | none =>
    have hext := _create_node_extends s children literal
    have hhash : (_create_node s children literal).2.hash
        = (key_node children literal, s.nodes.length) :: s.hash := by
      rw [_create_node_miss h]; rfl
    constructor
    · intro e he
      rw [hhash, List.mem_cons] at he
      rcases he with rfl | he
      · exact _create_node_miss_new h
      · obtain ⟨x, hx, hc, hl⟩ := hs.1 e he
        obtain ⟨y, hy, hyc, hyl⟩ := hext e.2 x hx
        exact ⟨y, hy, hyc.trans hc, hyl.trans hl⟩
    · obtain ⟨x, hx, hc⟩ := hs.2
      obtain ⟨y, hy, hyc, _⟩ := hext 0 x hx
      exact ⟨y, hy, hyc.trans hc⟩

theorem reachable_creation_inv (s : klut_storage)
    (h : reachable_by klut_op.no_substitution s) : creation_inv s := by
  induction h with
  | init => exact creation_inv_init
  | step s op _ hadm _ ih =>
    cases op with
    | create_pi => exact creation_inv_of_extends ih rfl (create_pi_extends s)
    | create_po f => exact creation_inv_of_extends ih rfl (create_po_extends s f)
    | create_not a => exact creation_inv_create_node s [a] 3 ih
    | create_and a b => exact creation_inv_create_node s [a, b] 4 ih
    | create_node children function =>
      exact creation_inv_create_node { s with data := (s.data.insert function).2 } children
        (s.data.insert function).1 ih
    | substitute_node old new => simp [klut_op.no_substitution] at hadm

theorem _create_node_result (s : klut_storage) (children : List Nat) (literal : Nat)
    (hs : hash_sound s) :
    ∃ x, (_create_node s children literal).2.nodes[(_create_node s children literal).1]? = some x
      ∧ x.children = children ∧ x.data1_h1 = literal % word32 := by
  cases h : s.hash_find (key_node children literal) with
  | some index =>
    rw [_create_node_hit h]
    unfold hash_find at h
    cases hf : s.hash.find? (fun e => e.1.eq (key_node children literal)) with
    | none => rw [hf] at h; cases h
    | some e =>
      rw [hf] at h
      simp only [Option.map_some', Option.some.injEq] at h
      have hmem := List.mem_of_find?_eq_some hf
      have heq := List.find?_some hf
      obtain ⟨x, hx, hc, hl⟩ := hs e hmem
      simp only [klut_storage_node.eq, Bool.and_eq_true, beq_iff_eq, key_node] at heq
      refine ⟨x, ?_, hc.trans heq.2, hl.trans heq.1⟩
      rw [← h]
      exact hx
  | none =>
    have : (_create_node s children literal).1 = s.nodes.length := by
      rw [_create_node_miss h]
    rw [this]
    exact _create_node_miss_new h

theorem cache_insert_new (c : truth_table_cache) (tt : dynamic_truth_table)
    (h0 : kitty.get_bit tt 0 = 0) (hnew : tt ∉ c.data) :
    c.insert tt = (2 * c.data.length, { data := c.data ++ [tt] }) := by
  unfold truth_table_cache.insert
  simp [h0, hnew]

theorem cache_insert_literal_le (c : truth_table_cache) (tt : dynamic_truth_table) :
    (c.insert tt).1 ≤ 2 * c.data.length + 1 := by
  have hb := get_bit_le_one tt 0
  unfold truth_table_cache.insert
  by_cases h : (if kitty.get_bit tt 0 = 1 then kitty.unary_not tt else tt) ∈ c.data
  · simp only [h, if_true]
    have := List.indexOf_lt_length.mpr h
    omega
  · simp only [h, if_false]
    omega

theorem reachable_when_of_ops_ok (admitted : klut_storage → klut_op → Bool)
    (s : klut_storage) (hs : reachable_when admitted s) (ops : List klut_op)
    (h : ops_ok_when admitted s ops = true) : reachable_when admitted (run_ops s ops) := by
  induction ops generalizing s with
  | nil => exact hs
  | cons op rest ih =>
    simp only [ops_ok_when, Bool.and_eq_true] at h
    exact ih (op.apply s) (reachable_when.step s op hs h.1.1 h.1.2) h.2

theorem reachable_by_mono (a b : klut_op → Bool) (hab : ∀ op, a op = true → b op = true)
    (s : klut_storage) (h : reachable_by a s) : reachable_by b s := by
  induction h with
  | init => exact reachable_by.init
  | step s op _ hadm hvalid ih => exact reachable_by.step s op ih (hab op hadm) hvalid

theorem reachable_when_of_reachable_by (a : klut_op → Bool)
    (b : klut_storage → klut_op → Bool) (hab : ∀ s op, a op = true → b s op = true)
    (s : klut_storage) (h : reachable_by a s) : reachable_when b s := by
  induction h with
  | init => exact reachable_when.init
  | step s op _ hadm hvalid ih => exact reachable_when.step s op ih (hab s op hadm) hvalid

/-- A state reached with no substitution is reached with substitutions that rewrite no
child slot. -/
theorem reachable_when_of_no_substitution (s : klut_storage)
    (h : reachable_by klut_op.no_substitution s) : reachable_when rewires_no_child s := by
  refine reachable_when_of_reachable_by _ _ ?_ s h
  intro t op hop
  cases op <;> first | rfl | cases hop

/-- A state reached with no substitution is reached with substitutions by nodes that are
not later ones. -/
theorem reachable_downward_of_no_substitution (s : klut_storage)
    (h : reachable_by klut_op.no_substitution s) :
    reachable_by klut_op.downward_substitution s := by
  refine reachable_by_mono _ _ ?_ s h
  intro op hop
  cases op <;> first | rfl | cases hop

theorem substitute_node_extends (s : klut_storage) (old new : Nat)
    (h : rewires_no_child s (.substitute_node old new) = true) :
    extends_shape s.nodes (substitute_node s old new).nodes := by
  intro m x hx
  rw [substitute_node_getElem?, hx]
  refine ⟨_, rfl, ?_, rfl⟩
  show x.children.map (redirect old new) = x.children
  have hmem : x ∈ s.nodes := List.mem_iff_getElem?.mpr ⟨m, hx⟩
  simp only [rewires_no_child, Bool.or_eq_true, decide_eq_true_eq, no_child_slot,
    List.all_eq_true, Bool.not_eq_true', List.contains_eq_any_beq, List.any_eq_false,
    beq_iff_eq] at h
  conv_rhs => rw [← List.map_id x.children]
  apply List.map_congr_left
  intro c hc
  unfold redirect
  rcases h with h | h
  · subst h
    by_cases hco : c = old <;> simp [hco]
  · have : ¬ c = old := fun hco => h x hmem c hc hco.symm
    simp [this]

theorem reachable_when_creation_inv (s : klut_storage)
    (h : reachable_when rewires_no_child s) : creation_inv s := by
  induction h with
  | init => exact creation_inv_init
  | step s op _ hadm _ ih =>
    cases op with
    | create_pi => exact creation_inv_of_extends ih rfl (create_pi_extends s)
    | create_po f => exact creation_inv_of_extends ih rfl (create_po_extends s f)
    | create_not a => exact creation_inv_create_node s [a] 3 ih
    | create_and a b => exact creation_inv_create_node s [a, b] 4 ih
    | create_node children function =>
      exact creation_inv_create_node { s with data := (s.data.insert function).2 } children
        (s.data.insert function).1 ih
    | substitute_node old new =>
      exact creation_inv_of_extends ih rfl (substitute_node_extends s old new hadm)

theorem create_node_cache (s : klut_storage) (children : List Nat)
    (f : dynamic_truth_table) : (create_node s children f).2.data = (s.data.insert f).2 := by
  unfold create_node
  rw [_create_node_data]

theorem create_node_entry (s : klut_storage) (hs : creation_inv s) (children : List Nat)
    (f : dynamic_truth_table) :
    ((create_node s children f).2.node (create_node s children f).1).children = children
    ∧ ((create_node s children f).2.node (create_node s children f).1).data1_h1
        = (s.data.insert f).1 % word32
    ∧ (children ≠ [] → (create_node s children f).1 ≠ 0) := by
  have hs2 : creation_inv { s with data := (s.data.insert f).2 } := hs
  obtain ⟨x, hx, hc, hl⟩ := _create_node_result _ children (s.data.insert f).1 hs2.1
  have hnode : (create_node s children f).2.node (create_node s children f).1 = x := by
    unfold klut_storage.node create_node
    rw [List.getD_eq_getElem?_getD, hx]
    rfl
  refine ⟨by rw [hnode, hc], by rw [hnode, hl], ?_⟩
  intro hne h0
  obtain ⟨y, hy, hyc⟩ := (creation_inv_create_node _ children (s.data.insert f).1 hs2).2
  have h0' : (_create_node { s with data := (s.data.insert f).2 } children
      (s.data.insert f).1).1 = 0 := h0
  rw [h0', hy] at hx
  have hxy : y = x := Option.some.inj hx
  rw [← hxy, hyc] at hc
  exact hne hc.symm

theorem burst_table_bit (k : Nat) : kitty.get_bit (burst_table k) 0 = 0 := by
  simp [kitty.get_bit, burst_table]

theorem table_burst_cache (k : Nat) :
    (table_burst k init).data.data
      = [{ num_vars := 0, bits := 0 }, { num_vars := 1, bits := 2 },
          { num_vars := 2, bits := 8 }] ++ (List.range k).map burst_table := by
  induction k with
  | zero => rfl
  | succ k ih =>
    show (create_node (table_burst k init) [] (burst_table k)).2.data.data = _
    rw [create_node_cache, cache_insert_new _ _ (burst_table_bit k), ih, List.range_succ,
      List.map_append, List.append_assoc]
    · rfl
    · rw [ih]
      simp only [List.mem_append, List.mem_cons, List.mem_singleton, List.mem_map,
        List.mem_range, List.not_mem_nil, or_false, burst_table,
        dynamic_truth_table.mk.injEq]
      rintro (h | ⟨i, hi, h⟩)
      · omega
      · omega

theorem table_burst_reachable (k : Nat) :
    reachable_when rewires_no_child (table_burst k init) := by
  induction k with
  | zero => exact reachable_when.init
  | succ k ih => exact reachable_when.step _ (.create_node [] (burst_table k)) ih rfl rfl

theorem full_cache_length : full_cache.data.data.length = 2 ^ 31 := by
  unfold full_cache
  rw [table_burst_cache, List.length_append, List.length_map, List.length_range]
  rfl

theorem table_burst_fresh (k : Nat) : burst_table k ∉ (table_burst k init).data.data := by
  rw [table_burst_cache]
  simp only [List.mem_append, List.mem_cons, List.mem_singleton, List.mem_map,
    List.mem_range, List.not_mem_nil, or_false, burst_table,
    dynamic_truth_table.mk.injEq]
  rintro (h | ⟨i, hi, h⟩)
  · omega
  · omega

theorem table_burst_insert (k : Nat) :
    (table_burst k init).data.insert (burst_table k)
      = (2 * (table_burst k init).data.data.length,
          { data := (table_burst k init).data.data ++ [burst_table k] }) :=
  cache_insert_new _ _ (burst_table_bit k) (table_burst_fresh k)

theorem table_burst_first (k : Nat) (extra : List dynamic_truth_table) :
    truth_table_cache.get { data := (table_burst k init).data.data ++ extra } 0
      = { num_vars := 0, bits := 0 } := by
  rw [table_burst_cache]
  rfl

theorem table_burst_wraps (k : Nat) (hk : k + 3 = 2 ^ 31) :
    ((table_burst k init).data.insert (burst_table k)).1 = 2 ^ 32
    ∧ node_function (create_node (table_burst k init) [] (burst_table k)).2
        (create_node (table_burst k init) [] (burst_table k)).1
        = { num_vars := 0, bits := 0 } := by
  have hlen : (table_burst k init).data.data.length = 2 ^ 31 := by
    rw [table_burst_cache, List.length_append, List.length_map, List.length_range, ← hk]
    simp only [List.length_cons, List.length_nil]
    omega
  have hlit : ((table_burst k init).data.insert (burst_table k)).1 = 2 ^ 32 := by
    rw [table_burst_insert, hlen]
    norm_num
  refine ⟨hlit, ?_⟩
  unfold node_function
  rw [(create_node_entry _ (reachable_when_creation_inv _ (table_burst_reachable k)) []
    _).2.1, create_node_cache, hlit, table_burst_insert]
  have h0 : 2 ^ 32 % word32 = 0 := by norm_num [word32]
  rw [h0]
  exact table_burst_first k _

/-- C5, the claim as stated fails twice.  In `sample_net` (inputs 2, 3, 4, the gate
5 = AND(2, 3), then `substitute_node(2, 4)`) the call `create_node((2, 3), AND)` hits the
hash entry recorded when node 5 was created and returns node 5, whose child slots now
hold (4, 3).  And in `full_cache`, reached by creations only, the cache holds `2 ^ 31`
tables: a further table gets the literal `2 ^ 32`, the 32-bit parameter of `_create_node`
keeps 0 of it, and the returned node has the function of literal 0, the constant false,
not the six-variable table it was created with. -/
theorem create_node_returns_other_gate :
    (reachable_by klut_op.any_op sample_net
      ∧ (create_node sample_net [2, 3] { num_vars := 2, bits := 8 }).1 = 5
      ∧ ((create_node sample_net [2, 3] { num_vars := 2, bits := 8 }).2.node 5).children
          = [4, 3])
    ∧ (reachable_when rewires_no_child full_cache
      ∧ full_cache.data.data.length = 2 ^ 31
      ∧ (full_cache.data.insert (burst_table 2147483645)).1 = 2 ^ 32
      ∧ node_function (create_node full_cache [] (burst_table 2147483645)).2
          (create_node full_cache [] (burst_table 2147483645)).1
          = { num_vars := 0, bits := 0 }
      ∧ (burst_table 2147483645).num_vars = 6) :=
  ⟨⟨reachable_of_ops_ok _ _ reachable_by.init _ (by decide), by decide, by decide⟩,
    table_burst_reachable 2147483645, full_cache_length,
    (table_burst_wraps 2147483645 (by norm_num)).1,
    (table_burst_wraps 2147483645 (by norm_num)).2, rfl⟩

/-- C5 (as amended). In every state reached by any sequence of creations, output
registrations and substitutions that rewrite no child slot (the substituted node is its
own substitute, or no child slot holds it), on valid signals, for every list `children`
of valid signals and every function `f`, the signal returned by `create_node(children,
f)` designates a node whose child slots are exactly `children`, in order, whether the
hash lookup hit or missed.  `foreach_fanin` hands the slots out as 32-bit values, which
are `children` when the network has at most `2 ^ 32` nodes.  The node keeps the literal
of `f` modulo `2 ^ 32` and its `node_function` is the cache entry of that value, which is
`f` when the cache held fewer than `2 ^ 31` tables before the call. -/
theorem create_node_returns_gate (s : klut_storage)
    (h : reachable_when rewires_no_child s) (children : List Nat)
    (f : dynamic_truth_table) (hchildren : ∀ c ∈ children, c < size s) :
    ((create_node s children f).2.node (create_node s children f).1).children = children
    ∧ foreach_fanin (create_node s children f).2 (create_node s children f).1
        = children.map (fun c => c % 2 ^ 32)
    ∧ (size s ≤ 2 ^ 32 →
        foreach_fanin (create_node s children f).2 (create_node s children f).1 = children)
    ∧ node_function (create_node s children f).2 (create_node s children f).1
        = (s.data.insert f).2.get ((s.data.insert f).1 % 2 ^ 32)
    ∧ (s.data.data.length < 2 ^ 31 →
        node_function (create_node s children f).2 (create_node s children f).1 = f) := by
  obtain ⟨hc, hl, hne⟩ := create_node_entry s (reachable_when_creation_inv s h) children f
  have hfan : foreach_fanin (create_node s children f).2 (create_node s children f).1
      = children.map (fun c => c % 2 ^ 32) := by
    unfold foreach_fanin is_pi
    rw [hc]
    cases children with
    | nil => simp
    | cons c rest => simp [hne (List.cons_ne_nil c rest), word32]
  have hfun : node_function (create_node s children f).2 (create_node s children f).1
      = (s.data.insert f).2.get ((s.data.insert f).1 % 2 ^ 32) := by
    unfold node_function
    rw [hl, create_node_cache]
    rfl
  refine ⟨hc, hfan, ?_, hfun, ?_⟩
  · intro hsize
    rw [hfan]
    conv_rhs => rw [← List.map_id children]
    apply List.map_congr_left
    intro c hcm
    exact Nat.mod_eq_of_lt (lt_of_lt_of_le (hchildren c hcm) hsize)
  · intro hlen
    rw [hfun, Nat.mod_eq_of_lt]
    · exact cache_get_insert s.data f
    · have := cache_insert_literal_le s.data f
      omega

/-- The three-input majority gate created again in `spare_input_net`, a state reached
through a substitution that rewrites no child slot. -/
theorem create_node_returns_gate_witness :
    ((create_node spare_input_net [2, 3, 4] { num_vars := 3, bits := 0xe8 }).2.node
        (create_node spare_input_net [2, 3, 4] { num_vars := 3, bits := 0xe8 }).1).children
      = [2, 3, 4]
    ∧ node_function (create_node spare_input_net [2, 3, 4] { num_vars := 3, bits := 0xe8 }).2
        (create_node spare_input_net [2, 3, 4] { num_vars := 3, bits := 0xe8 }).1
      = { num_vars := 3, bits := 0xe8 } :=
  ⟨(create_node_returns_gate _
      (reachable_when_of_ops_ok _ _ reachable_when.init _ (by decide)) [2, 3, 4]
      { num_vars := 3, bits := 0xe8 } (by decide)).1,
    (create_node_returns_gate _
      (reachable_when_of_ops_ok _ _ reachable_when.init _ (by decide)) [2, 3, 4]
      { num_vars := 3, bits := 0xe8 } (by decide)).2.2.2.2 (by decide)⟩

/-! ## Simulation -/

theorem get_bit_set_bit (r : dynamic_truth_table) (i q : Nat) :
    kitty.get_bit (kitty.set_bit r i) q = if q = i then 1 else kitty.get_bit r q := by
  unfold kitty.get_bit kitty.set_bit
  simp only [Nat.testBit_or, Nat.one_shiftLeft, Nat.testBit_two_pow]
  by_cases h : q = i
  · subst h; simp
  · have : ¬ i = q := fun e => h e.symm
    simp [h, this]

theorem get_bit_construct (t : dynamic_truth_table) (q : Nat) :
    kitty.get_bit (kitty.construct t) q = 0 := by
  simp [kitty.get_bit, kitty.construct]

theorem get_bit_foldl_set (cond : Nat → Prop) [DecidablePred cond] (r0 : dynamic_truth_table)
    (N q : Nat) :
    kitty.get_bit ((List.range N).foldl
      (fun r i => if cond i then kitty.set_bit r i else r) r0) q
      = if q < N ∧ cond q then 1 else kitty.get_bit r0 q := by
  induction N with
  | zero => simp
  | succ N ih =>
    rw [List.range_succ, List.foldl_append]
    simp only [List.foldl_cons, List.foldl_nil]
    by_cases hc : cond N
    · rw [if_pos hc, get_bit_set_bit, ih]
      by_cases hq : q = N
      · subst hq; simp [hc]
      · by_cases hcq : cond q
        · have : (q < N + 1) ↔ (q < N) := by omega
          simp [hq, hcq, this]
        · simp [hq, hcq]
    · rw [if_neg hc, ih]
      by_cases hq : q = N
      · subst hq; simp [hc]
      · have : (q < N + 1) ↔ (q < N) := by omega
        simp [this]

theorem num_vars_foldl_set (cond : Nat → Prop) [DecidablePred cond] (r0 : dynamic_truth_table)
    (N : Nat) :
    ((List.range N).foldl
      (fun r i => if cond i then kitty.set_bit r i else r) r0).num_vars = r0.num_vars := by
  induction N with
  | zero => rfl
  | succ N ih =>
    rw [List.range_succ, List.foldl_append]
    simp only [List.foldl_cons, List.foldl_nil]
    by_cases hc : cond N
    · rw [if_pos hc]; exact ih
    · rw [if_neg hc]; exact ih

theorem pattern_sum_lt (b : Nat → Nat) (hb : ∀ j, b j ≤ 1) (k : Nat) :
    ((List.range k).map (fun j => b j * 2 ^ j)).sum < 2 ^ k := by
  induction k with
  | zero => simp
  | succ k ih =>
    rw [List.sum_range_succ, pow_succ]
    have h2 : b k * 2 ^ k ≤ 1 * 2 ^ k := Nat.mul_le_mul_right _ (hb k)
    omega

theorem compute_pattern_eq (tts : List dynamic_truth_table) (i k : Nat) (hk : k ≤ 32) :
    compute_pattern tts i k
      = ((List.range k).map (fun j => kitty.get_bit (tts.getD j default) i * 2 ^ j)).sum := by
  unfold compute_pattern
  induction k with
  | zero => rfl
  | succ k ih =>
    rw [List.range_succ, List.foldl_append, ih (by omega), List.map_append, List.sum_append]
    simp only [List.foldl_cons, List.foldl_nil, List.map_cons, List.map_nil, List.sum_cons,
      List.sum_nil, add_zero]
    have hlt := pattern_sum_lt (fun j => kitty.get_bit (tts.getD j default) i)
      (fun j => get_bit_le_one _ _) k
    have hb := get_bit_le_one (tts.getD k default) i
    rw [Nat.shiftLeft_eq, Nat.or_comm, Nat.mul_comm, ← Nat.mul_add_lt_is_or hlt]
    have hpow : (2 : Nat) ^ (k + 1) ≤ 2 ^ 32 := Nat.pow_le_pow_right (by omega) hk
    have h2 : 2 ^ k * kitty.get_bit (tts.getD k default) i ≤ 2 ^ k * 1 :=
      Nat.mul_le_mul_left _ hb
    have h3 : (2 : Nat) ^ (k + 1) = 2 * 2 ^ k := by rw [pow_succ]; omega
    rw [Nat.mod_eq_of_lt (by unfold word32; omega)]
    exact Nat.add_comm _ _

theorem sum_testBit (i k : Nat) :
    ((List.range k).map (fun j => (if i.testBit j then 1 else 0) * 2 ^ j)).sum = i % 2 ^ k := by
  induction k with
  | zero => simp [Nat.mod_one]
  | succ k ih =>
    rw [List.sum_range_succ, ih, Nat.mod_pow_succ, Nat.testBit_to_div_mod]
    have h2 : i / 2 ^ k % 2 < 2 := Nat.mod_lt _ (by omega)
    by_cases h : i / 2 ^ k % 2 = 1
    · simp [h]
    · have : i / 2 ^ k % 2 = 0 := by omega
      simp [this]

theorem compute_eq_some (s : klut_storage) (n : Nat) (tts : List dynamic_truth_table)
    (h0 : (s.node n).children.length ≠ 0) (hlen : tts.length = (s.node n).children.length) :
    compute s n tts = some (fun fuel =>
      compute_loop (s.data.get (s.node n).data1_h1) tts (s.node n).children.length
        (kitty.num_bits (kitty.construct (tts.headD default))) fuel 0
        (kitty.construct (tts.headD default))) := by
  unfold compute
  simp only [h0, hlen, if_false, ne_eq, not_true_eq_false]

/-- On a table of fewer than `2 ^ 32` bits the counter does not wrap: the loop is left
after one test of its condition per bit and one more, with every bit position visited
once, in order. -/
theorem compute_loop_returns (gate_tt : dynamic_truth_table) (tts : List dynamic_truth_table)
    (nfanin num_bits : Nat) (hN : num_bits < word32) (r0 : dynamic_truth_table) :
    ∀ (d j fuel : Nat), j + d = num_bits → d < fuel →
      compute_loop gate_tt tts nfanin num_bits fuel j
          ((List.range j).foldl (fun r i =>
            if kitty.get_bit gate_tt (compute_pattern tts i nfanin) ≠ 0
              then kitty.set_bit r i else r) r0)
        = some ((List.range num_bits).foldl (fun r i =>
            if kitty.get_bit gate_tt (compute_pattern tts i nfanin) ≠ 0
              then kitty.set_bit r i else r) r0) := by
  intro d
  induction d with
  | zero =>
    intro j fuel hj hfuel
    obtain ⟨f, rfl⟩ : ∃ f, fuel = f + 1 := ⟨fuel - 1, by omega⟩
    have hjN : j = num_bits := by omega
    subst hjN
    unfold compute_loop
    rw [if_neg (by omega)]
  | succ d ih =>
    intro j fuel hj hfuel
    obtain ⟨f, rfl⟩ : ∃ f, fuel = f + 1 := ⟨fuel - 1, by omega⟩
    unfold compute_loop
    rw [if_pos (by omega), Nat.mod_eq_of_lt (by omega)]
    have hstep := ih (j + 1) f (by omega) (by omega)
    rw [List.range_succ, List.foldl_append] at hstep
    exact hstep

/-- On a table of `2 ^ 32` bits or more the counter wraps before it reaches the number
of bits: the loop is not left, whatever the number of tests of its condition. -/
theorem compute_loop_never_returns (gate_tt : dynamic_truth_table)
    (tts : List dynamic_truth_table) (nfanin num_bits : Nat) (hN : word32 ≤ num_bits) :
    ∀ (fuel i : Nat) (r : dynamic_truth_table), i < word32 →
      compute_loop gate_tt tts nfanin num_bits fuel i r = none := by
  intro fuel
  induction fuel with
  | zero => intro i r _; rfl
  | succ f ih =>
    intro i r hi
    unfold compute_loop
    rw [if_pos (by omega)]
    exact ih _ _ (Nat.mod_lt _ (by norm_num [word32]))

theorem two_pow_lt_word32 (m : Nat) (hm : m < 32) : 2 ^ m < word32 := by
  unfold word32
  exact Nat.pow_lt_pow_right (by norm_num) hm

/-- What `compute` returns on tables of fewer than 32 variables. -/
theorem compute_bit (s : klut_storage) (n : Nat) (tts : List dynamic_truth_table)
    (k : Nat) (hk : (s.node n).children.length = k) (h1 : 1 ≤ k) (h32 : k ≤ 32)
    (hlen : tts.length = k) (hm : (tts.headD default).num_vars < 32) :
    ∃ run r, compute s n tts = some run
      ∧ (∀ fuel, 2 ^ (tts.headD default).num_vars < fuel → run fuel = some r)
      ∧ r.num_vars = (tts.headD default).num_vars
      ∧ ∀ i, kitty.get_bit r i
          = if i < 2 ^ (tts.headD default).num_vars
              ∧ kitty.get_bit (s.data.get (s.node n).data1_h1) (((List.range k).map
                (fun j => kitty.get_bit (tts.getD j default) i * 2 ^ j)).sum) ≠ 0
            then 1 else 0 := by
  refine ⟨_, (List.range (kitty.num_bits (kitty.construct (tts.headD default)))).foldl
      (fun r i => if kitty.get_bit (s.data.get (s.node n).data1_h1)
          (compute_pattern tts i (s.node n).children.length) ≠ 0
        then kitty.set_bit r i else r) (kitty.construct (tts.headD default)),
    compute_eq_some s n tts (by omega) (by omega), ?_, ?_, ?_⟩
  · intro fuel hfuel
    have h := compute_loop_returns (s.data.get (s.node n).data1_h1) tts
      (s.node n).children.length (kitty.num_bits (kitty.construct (tts.headD default)))
      (two_pow_lt_word32 _ hm) (kitty.construct (tts.headD default))
      (kitty.num_bits (kitty.construct (tts.headD default))) 0 fuel (by omega) hfuel
    exact h
  · rw [num_vars_foldl_set]; rfl
  · intro i
    rw [get_bit_foldl_set, get_bit_construct, hk, compute_pattern_eq tts i k h32]
    rfl

/-- C7, the claim as stated fails: a primary input has `fanin_size` 0, and `compute`
on it with no values supplied (as many as its fanins) fails the assertion
`nfanin != 0`. -/
theorem compute_fails_without_fanins :
    fanin_size (create_pi init).2 2 = 0
    ∧ ([] : List dynamic_truth_table).length = fanin_size (create_pi init).2 2
    ∧ compute (create_pi init).2 2 [] = none := by
  refine ⟨by decide, by decide, ?_⟩
  unfold compute
  rw [if_pos (by decide)]

/-- C7 (as amended). `compute(n, values)` passes its assertions exactly when node `n`
has at least one child and the number of supplied values equals its number of children,
which is `fanin_size(n)` for a node with fewer than `2 ^ 32` children; it is a precondition
violation otherwise. -/
theorem compute_succeeds_iff (s : klut_storage) (n : Nat) (tts : List dynamic_truth_table) :
    ((compute s n tts).isSome = true
      ↔ ((s.node n).children.length ≠ 0 ∧ tts.length = (s.node n).children.length))
    ∧ (compute s n tts = none
      ↔ ¬ ((s.node n).children.length ≠ 0 ∧ tts.length = (s.node n).children.length))
    ∧ ((s.node n).children.length < 2 ^ 32 →
      ((compute s n tts).isSome = true
        ↔ (fanin_size s n ≠ 0 ∧ tts.length = fanin_size s n))) := by
  have key : (compute s n tts).isSome = true
      ↔ ((s.node n).children.length ≠ 0 ∧ tts.length = (s.node n).children.length) := by
    constructor
    · intro h
      unfold compute at h
      by_cases h0 : (s.node n).children.length = 0
      · simp [h0] at h
      · by_cases hl : tts.length = (s.node n).children.length
        · exact ⟨h0, hl⟩
        · simp [h0, hl] at h
    · rintro ⟨h0, hl⟩
      rw [compute_eq_some s n tts h0 hl]
      rfl
  refine ⟨key, ?_, ?_⟩
  · rw [← key]
    cases compute s n tts <;> simp
  · intro hlt
    have : fanin_size s n = (s.node n).children.length := by
      unfold fanin_size
      exact Nat.mod_eq_of_lt hlt
    rw [this]
    exact key

/-! ## Postconditions of `create_pi` and `create_po` -/

/-- C13. Postcondition of `create_pi`: in every state the call returns the previous
`size()`, increases `size()` and `num_pis()` by one, leaves `num_pos()` and `num_gates()`
unchanged, appends the new node last in the primary-input order, gives it no fanin and
fan-out 0, and leaves every node that existed before, the outputs, the hash table and the
function cache as they were. -/
theorem create_pi_postcondition (s : klut_storage) :
    (create_pi s).1 = size s
    ∧ size (create_pi s).2 = size s + 1
    ∧ num_pis (create_pi s).2 = num_pis s + 1
    ∧ num_pos (create_pi s).2 = num_pos s
    ∧ num_gates (create_pi s).2 = num_gates s
    ∧ (create_pi s).2.inputs = s.inputs ++ [(create_pi s).1]
    ∧ fanin_size (create_pi s).2 (create_pi s).1 = 0
    ∧ fanout_size (create_pi s).2 (create_pi s).1 = 0
    ∧ (∀ m, m < size s → (create_pi s).2.nodes[m]? = s.nodes[m]?)
    ∧ (create_pi s).2.outputs = s.outputs
    ∧ (create_pi s).2.hash = s.hash
    ∧ (create_pi s).2.data = s.data := by
  have hn := create_pi_nodes s
  have h1 : (create_pi s).1 = s.nodes.length := rfl
  have hi : (create_pi s).2.inputs = s.inputs ++ [s.nodes.length] := rfl
  have hnode : (create_pi s).2.node s.nodes.length
      = { (default : klut_storage_node) with data1_h1 := 2 } := by
    unfold klut_storage.node
    rw [hn, List.getD_eq_getElem?_getD, List.getElem?_append_right (le_refl _)]
    simp
  refine ⟨rfl, ?_, ?_, rfl, ?_, rfl, ?_, ?_, ?_, rfl, rfl, rfl⟩
  · unfold size; rw [hn]; simp
  · unfold num_pis; rw [hi]; simp
  · unfold num_gates; rw [hn, hi]
    simp only [List.length_append, List.length_singleton, Nat.cast_add, Nat.cast_one]
    congr 2; omega
  · rw [h1]; unfold fanin_size; rw [hnode]; rfl
  · rw [h1]; unfold fanout_size; rw [hnode]; rfl
  · intro m hm
    rw [hn, List.getElem?_append_left hm]

/-- C14 (as amended). Postcondition of `create_po`: for every state and every signal `f`
of the store the call appends `f` as the last primary output, whether or not `f` is one
already, increases `num_pos()` by one, replaces `fanout_size(f)` by its successor modulo
`2 ^ 32`, which is its successor when the counter is below `2 ^ 32 - 1`, and leaves
`size()`, `num_pis()`, the fan-out of every other node and the child slots of every node
unchanged. -/
theorem create_po_postcondition (s : klut_storage) (f : Nat) (hf : f < size s) :
    (create_po s f).outputs = s.outputs ++ [f]
    ∧ num_pos (create_po s f) = num_pos s + 1
    ∧ fanout_size (create_po s f) f = (fanout_size s f + 1) % 2 ^ 32
    ∧ (fanout_size s f < 2 ^ 32 - 1 → fanout_size (create_po s f) f = fanout_size s f + 1)
    ∧ size (create_po s f) = size s
    ∧ num_pis (create_po s f) = num_pis s
    ∧ (∀ m, m ≠ f → fanout_size (create_po s f) m = fanout_size s m)
    ∧ (∀ m, ((create_po s f).node m).children = (s.node m).children) := by
  have hfan := create_po_fanout s f f hf
  rw [if_pos rfl, word32_eq] at hfan
  refine ⟨rfl, ?_, ?_, ?_, ?_, rfl, ?_, ?_⟩
  · unfold num_pos; simp [create_po]
  · rw [hfan]; norm_num
  · intro hlt
    rw [hfan]; apply Nat.mod_eq_of_lt; omega
  · unfold size create_po incr_h1; simp
  · intro m hm
    rw [create_po_fanout s f m hf, if_neg hm]
  · intro m
    have h := map_children_incr_h1 s.nodes f
    have hlen : (incr_h1 s.nodes f).length = s.nodes.length := by unfold incr_h1; simp
    unfold klut_storage.node
    show ((incr_h1 s.nodes f).getD m default).children = _
    by_cases hm : m < s.nodes.length
    · have e := congrArg (fun l => l[m]?) h
      simp only [List.getElem?_map] at e
      rw [List.getD_eq_getElem?_getD, List.getD_eq_getElem?_getD]
      rw [List.getElem?_eq_getElem (by omega)] at e ⊢
      rw [List.getElem?_eq_getElem hm] at e ⊢
      simpa using e
    · rw [getD_of_length_le (by omega), getD_of_length_le (by omega)]

/-- A primary input registered as a primary output a second time. -/
theorem create_po_postcondition_witness :
    2 < size sample_net
    ∧ (create_po sample_net 4).outputs = [5, 4, 4]
    ∧ fanout_size (create_po sample_net 4) 4 = fanout_size sample_net 4 + 1 :=
  ⟨by decide, by decide,
    (create_po_postcondition sample_net 4 (by decide)).2.2.2.1 (by decide)⟩

/-- C14, the claim as stated fails.  After `2 ^ 32 - 1` calls `create_po(0)` on a fresh
network `fanout_size(0)` is `2 ^ 32 - 1`, and one more call `create_po(0)` leaves it at 0,
not at `2 ^ 32`. -/
theorem create_po_fanout_wraps :
    reachable_by klut_op.any_op po_saturated ∧ 0 < size po_saturated
    ∧ fanout_size po_saturated 0 = 4294967295
    ∧ fanout_size (create_po po_saturated 0) 0 = 0 := by
  have h2 : init.nodes.length = 2 := by decide
  have hlen : po_saturated.nodes.length = 2 := by
    unfold po_saturated; rw [po_burst_length, h2]
  have hfan : fanout_size po_saturated 0 = 4294967295 := by
    unfold po_saturated
    rw [po_burst_fanout _ _ _ (by rw [h2]; omega), if_pos rfl, init_accounting,
      Nat.mod_add_mod, word32_eq]
    have : num_refs init 0 = 0 := by decide
    rw [this]
  refine ⟨reachable_po_burst _ _ 0 _ reachable_by.init rfl (by rw [h2]; omega), ?_, hfan, ?_⟩
  · show 0 < po_saturated.nodes.length
    rw [hlen]; omega
  · rw [create_po_fanout _ _ _ (by rw [hlen]; omega), if_pos rfl, hfan, word32_eq]

/-! ## The gate count -/

theorem gate_indices_succ (len : Nat) (inputs : List Nat) :
    gate_indices (len + 1) inputs
      = gate_indices len inputs ++ (if 1 < len ∧ len ∉ inputs then [len] else []) := by
  unfold gate_indices
  rw [List.range_succ, List.filter_append]
  congr 1
  by_cases h : 1 < len ∧ len ∉ inputs
  · rw [if_pos h]; simp [List.filter, h.1, h.2]
  · rw [if_neg h]
    simp only [List.filter_cons, List.filter_nil]
    rw [if_neg]
    simp only [Bool.and_eq_true, decide_eq_true_eq, Bool.not_eq_true', decide_eq_false_iff_not]
    exact h

theorem gate_indices_append_input (len : Nat) (inputs : List Nat) (i : Nat) (hi : len ≤ i) :
    gate_indices len (inputs ++ [i]) = gate_indices len inputs := by
  unfold gate_indices
  apply List.filter_congr
  intro n hn
  have hlt : n < len := List.mem_range.mp hn
  have hne : n ≠ i := by omega
  simp [hne]

theorem count_inv_of_same {s t : klut_storage} (hs : count_inv s)
    (hlen : t.nodes.length = s.nodes.length) (hin : t.inputs = s.inputs) : count_inv t := by
  unfold count_inv gate_nodes at *
  rw [hlen, hin]
  exact hs

theorem count_inv_create_pi (s : klut_storage) (hs : count_inv s) :
    count_inv (create_pi s).2 := by
  obtain ⟨h2, hlt, hcount⟩ := hs
  have hn : (create_pi s).2.nodes.length = s.nodes.length + 1 := by
    rw [create_pi_nodes]; simp
  have hi : (create_pi s).2.inputs = s.inputs ++ [s.nodes.length] := rfl
  unfold count_inv gate_nodes at *
  rw [hn, hi]
  refine ⟨by omega, ?_, ?_⟩
  · intro i hmem
    rcases List.mem_append.mp hmem with h | h
    · have := hlt i h; omega
    · simp at h; omega
  · rw [gate_indices_succ, if_neg (by simp), List.append_nil,
      gate_indices_append_input _ _ _ (le_refl _)]
    simp only [List.length_append, List.length_singleton]
    omega

theorem _create_node_inputs (s : klut_storage) (children : List Nat) (literal : Nat) :
    (_create_node s children literal).2.inputs = s.inputs := by
  cases h : s.hash_find (key_node children literal) with
  | some index => rw [_create_node_hit h]
  | none => rw [_create_node_miss h]; rfl

theorem count_inv_create_node (s : klut_storage) (children : List Nat) (literal : Nat)
    (hs : count_inv s) : count_inv (_create_node s children literal).2 := by
  cases h : s.hash_find (key_node children literal) with
  | some index => rw [_create_node_hit h]; exact hs
  | none =>
    obtain ⟨h2, hlt, hcount⟩ := hs
    have hn := _create_node_miss_length h
    have hi := _create_node_inputs s children literal
    unfold count_inv gate_nodes at *
    rw [hn, hi]
    refine ⟨by omega, fun i hmem => by have := hlt i hmem; omega, ?_⟩
    have hnot : s.nodes.length ∉ s.inputs := fun hmem => by have := hlt _ hmem; omega
    rw [gate_indices_succ, if_pos ⟨by omega, hnot⟩]
    simp only [List.length_append, List.length_singleton]
    omega

theorem reachable_count_inv (s : klut_storage) (h : reachable_by klut_op.any_op s) :
    count_inv s := by
  induction h with
  | init => exact ⟨by decide, by decide, by decide⟩
  | step s op _ _ _ ih =>
    cases op with
    | create_pi => exact count_inv_create_pi s ih
    | create_po f =>
      exact count_inv_of_same ih (by show (incr_h1 s.nodes f).length = _; simp [incr_h1]) rfl
    | create_not a => exact count_inv_create_node s [a] 3 ih
    | create_and a b => exact count_inv_create_node s [a, b] 4 ih
    | create_node children function =>
      exact count_inv_create_node { s with data := (s.data.insert function).2 } children
        (s.data.insert function).1 ih
    | substitute_node old new =>
      exact count_inv_of_same ih (substitute_node_length s old new) rfl

/-- C15. The gate count: in every state reached from a freshly constructed network by
`create_pi`, `create_po`, `create_not`, `create_and`, `create_node` and `substitute_node`
calls on valid signals, the store fitting the range of `std::size_t`, `size()` is at
least `num_pis() + 2`, so that the unsigned subtraction in `num_gates()` does not wrap,
and `num_gates()` is the number of nodes that are neither one of the two reserved
constants nor a member of the primary-input list. -/
theorem num_gates_counts_gates (s : klut_storage) (h : reachable_by klut_op.any_op s)
    (hsize : size s < 2 ^ 64) :
    num_pis s + 2 ≤ size s
    ∧ num_gates s = size s - num_pis s - 2
    ∧ num_gates s = (gate_nodes s).length := by
  obtain ⟨h2, _, hcount⟩ := reachable_count_inv s h
  unfold size num_pis num_gates word64 at *
  refine ⟨by omega, ?_, ?_⟩
  · have e : ((s.nodes.length : Int) - (s.inputs.length : Int) - 2) % ((2 ^ 64 : Nat) : Int)
        = (s.nodes.length : Int) - (s.inputs.length : Int) - 2 := by
      apply Int.emod_eq_of_lt <;> push_cast <;> omega
    rw [e]; omega
  · have e : ((s.nodes.length : Int) - (s.inputs.length : Int) - 2) % ((2 ^ 64 : Nat) : Int)
        = (s.nodes.length : Int) - (s.inputs.length : Int) - 2 := by
      apply Int.emod_eq_of_lt <;> push_cast <;> omega
    rw [e]; omega

/-- The network `sample_net` has three primary inputs and one gate, node 5. -/
theorem num_gates_counts_gates_witness :
    reachable_by klut_op.any_op sample_net ∧ size sample_net = 6 ∧ num_pis sample_net = 3
    ∧ num_gates sample_net = 1 ∧ gate_nodes sample_net = [5] :=
  ⟨reachable_of_ops_ok _ _ reachable_by.init _ (by decide), by decide, by decide,
    ((num_gates_counts_gates sample_net
      (reachable_of_ops_ok _ _ reachable_by.init _ (by decide))
      (by decide)).2.1).trans (by decide), by decide⟩

/-! ## The hard-coded function literals -/

theorem extends_arity_of_shape {ns ns2 : List klut_storage_node}
    (h : extends_shape ns ns2) : extends_arity ns ns2 := by
  intro m x hx
  obtain ⟨y, hy, hc, hl⟩ := h m x hx
  exact ⟨y, hy, by rw [hc], hl⟩

theorem substitute_node_extends_arity (s : klut_storage) (old new : Nat) :
    extends_arity s.nodes (substitute_node s old new).nodes := by
  intro m x hx
  rw [substitute_node_getElem?, hx]
  exact ⟨_, rfl, by simp, rfl⟩

theorem cache_insert_extends (c : truth_table_cache) (tt : dynamic_truth_table) :
    ∃ rest, (c.insert tt).2.data = c.data ++ rest := by
  unfold truth_table_cache.insert
  simp only
  split_ifs
  · exact ⟨[], by simp⟩
  · exact ⟨[_], rfl⟩
  · exact ⟨[], by simp⟩
  · exact ⟨[_], rfl⟩

theorem literal_inv_of_extends {s t : klut_storage} (hs : literal_inv s)
    (hhash : t.hash = s.hash) (hdata : t.data = s.data)
    (hext : extends_arity s.nodes t.nodes) : literal_inv t := by
  obtain ⟨hh, hd, h0, h1⟩ := hs
  refine ⟨?_, by rw [hdata]; exact hd, ?_, ?_⟩
  · intro e he
    rw [hhash] at he
    obtain ⟨x, hx, hc, hl⟩ := hh e he
    obtain ⟨y, hy, hyc, hyl⟩ := hext e.2 x hx
    exact ⟨y, hy, hyc.trans hc, hyl.trans hl⟩
  · obtain ⟨x, hx, hl⟩ := h0
    obtain ⟨y, hy, _, hyl⟩ := hext 0 x hx
    exact ⟨y, hy, hyl.trans hl⟩
  · obtain ⟨x, hx, hl⟩ := h1
    obtain ⟨y, hy, _, hyl⟩ := hext 1 x hx
    exact ⟨y, hy, hyl.trans hl⟩

theorem literal_inv_create_node (s : klut_storage) (children : List Nat) (literal : Nat)
    (hs : literal_inv s) : literal_inv (_create_node s children literal).2 := by
  cases h : s.hash_find (key_node children literal) with
  | some index => rw [_create_node_hit h]; exact hs
  | none =>
    have hext := extends_arity_of_shape (_create_node_extends s children literal)
    have hhash : (_create_node s children literal).2.hash
        = (key_node children literal, s.nodes.length) :: s.hash := by
      rw [_create_node_miss h]; rfl
    obtain ⟨hh, hd, h0, h1⟩ := hs
    refine ⟨?_, by rw [_create_node_data]; exact hd, ?_, ?_⟩
    · intro e he
      rw [hhash, List.mem_cons] at he
      rcases he with rfl | he
      · obtain ⟨x, hx, hc, hl⟩ := _create_node_miss_new h
        exact ⟨x, hx, by rw [hc]; rfl, hl⟩
      · obtain ⟨x, hx, hc, hl⟩ := hh e he
        obtain ⟨y, hy, hyc, hyl⟩ := hext e.2 x hx
        exact ⟨y, hy, hyc.trans hc, hyl.trans hl⟩
    · obtain ⟨x, hx, hl⟩ := h0
      obtain ⟨y, hy, _, hyl⟩ := hext 0 x hx
      exact ⟨y, hy, hyl.trans hl⟩
    · obtain ⟨x, hx, hl⟩ := h1
      obtain ⟨y, hy, _, hyl⟩ := hext 1 x hx
      exact ⟨y, hy, hyl.trans hl⟩

theorem literal_inv_with_data (s : klut_storage) (tt : dynamic_truth_table)
    (hs : literal_inv s) : literal_inv { s with data := (s.data.insert tt).2 } := by
  obtain ⟨hh, ⟨rest, hd⟩, h0, h1⟩ := hs
  refine ⟨hh, ?_, h0, h1⟩
  obtain ⟨more, hm⟩ := cache_insert_extends s.data tt
  exact ⟨rest ++ more, by rw [hm, hd]; simp⟩

theorem reachable_literal_inv (s : klut_storage) (h : reachable_by klut_op.any_op s) :
    literal_inv s := by
  induction h with
  | init =>
    refine ⟨?_, ⟨[], by decide⟩, ⟨_, by rw [init_nodes]; rfl, rfl⟩,
      ⟨_, by rw [init_nodes]; rfl, rfl⟩⟩
    intro e he
    have : init.hash = [] := by decide
    rw [this] at he
    cases he
  | step s op _ _ _ ih =>
    cases op with
    | create_pi =>
      exact literal_inv_of_extends ih rfl rfl (extends_arity_of_shape (create_pi_extends s))
    | create_po f =>
      exact literal_inv_of_extends ih rfl rfl (extends_arity_of_shape (create_po_extends s f))
    | create_not a => exact literal_inv_create_node s [a] 3 ih
    | create_and a b => exact literal_inv_create_node s [a, b] 4 ih
    | create_node children function =>
      exact literal_inv_create_node { s with data := (s.data.insert function).2 } children
        (s.data.insert function).1 (literal_inv_with_data s function ih)
    | substitute_node old new =>
      exact literal_inv_of_extends ih rfl rfl (substitute_node_extends_arity s old new)

theorem _create_node_arity (s : klut_storage) (children : List Nat) (literal : Nat)
    (hs : literal_inv s) :
    ∃ x, (_create_node s children literal).2.nodes[(_create_node s children literal).1]?
      = some x ∧ x.children.length = children.length ∧ x.data1_h1 = literal % word32 := by
  cases h : s.hash_find (key_node children literal) with
  | some index =>
    rw [_create_node_hit h]
    unfold hash_find at h
    cases hf : s.hash.find? (fun e => e.1.eq (key_node children literal)) with
    | none => rw [hf] at h; cases h
    | some e =>
      rw [hf] at h
      simp only [Option.map_some', Option.some.injEq] at h
      have hmem := List.mem_of_find?_eq_some hf
      have heq := List.find?_some hf
      obtain ⟨x, hx, hc, hl⟩ := hs.1 e hmem
      simp only [klut_storage_node.eq, Bool.and_eq_true, beq_iff_eq, key_node] at heq
      refine ⟨x, ?_, by rw [hc, heq.2], hl.trans heq.1⟩
      rw [← h]
      exact hx
  | none =>
    have : (_create_node s children literal).1 = s.nodes.length := by
      rw [_create_node_miss h]
    rw [this]
    obtain ⟨x, hx, hc, hl⟩ := _create_node_miss_new h
    exact ⟨x, hx, by rw [hc], hl⟩

theorem extends_arity_trans {a b c : List klut_storage_node}
    (h1 : extends_arity a b) (h2 : extends_arity b c) : extends_arity a c := by
  intro m x hx
  obtain ⟨y, hy, hyc, hyl⟩ := h1 m x hx
  obtain ⟨z, hz, hzc, hzl⟩ := h2 m y hy
  exact ⟨z, hz, hzc.trans hyc, hzl.trans hyl⟩

theorem apply_extends_arity (s : klut_storage) (op : klut_op) :
    extends_arity s.nodes (op.apply s).nodes := by
  cases op with
  | create_pi => exact extends_arity_of_shape (create_pi_extends s)
  | create_po f => exact extends_arity_of_shape (create_po_extends s f)
  | create_not a => exact extends_arity_of_shape (_create_node_extends s [a] 3)
  | create_and a b => exact extends_arity_of_shape (_create_node_extends s [a, b] 4)
  | create_node children function =>
    exact extends_arity_of_shape
      (_create_node_extends { s with data := (s.data.insert function).2 } children
        (s.data.insert function).1)
  | substitute_node old new => exact substitute_node_extends_arity s old new

theorem run_ops_extends_arity (ops : List klut_op) (s : klut_storage) :
    extends_arity s.nodes (run_ops s ops).nodes := by
  induction ops generalizing s with
  | nil => exact fun m x hx => ⟨x, hx, rfl, rfl⟩
  | cons op rest ih => exact extends_arity_trans (apply_extends_arity s op) (ih (op.apply s))

theorem node_of_getElem? {s : klut_storage} {n : Nat} {x : klut_storage_node}
    (hx : s.nodes[n]? = some x) : s.node n = x := by
  unfold klut_storage.node
  rw [List.getD_eq_getElem?_getD, hx]
  rfl

theorem cache_get_initial (c : truth_table_cache) (rest : List dynamic_truth_table)
    (h : c.data = [⟨0, 0⟩, ⟨1, 2⟩, ⟨2, 8⟩] ++ rest) :
    c.get 0 = ⟨0, 0⟩ ∧ c.get 1 = ⟨0, 1⟩ ∧ c.get 3 = ⟨1, 1⟩ ∧ c.get 4 = ⟨2, 8⟩ := by
  unfold truth_table_cache.get
  rw [h]
  refine ⟨rfl, ?_, ?_, rfl⟩
  · show kitty.unary_not ⟨0, 0⟩ = ⟨0, 1⟩
    decide
  · show kitty.unary_not ⟨1, 2⟩ = ⟨1, 1⟩
    decide

theorem and_node_computes (t : klut_storage) (ht : literal_inv t) (n : Nat)
    (hk : (t.node n).children.length = 2) (hl : (t.node n).data1_h1 = 4)
    (x y : dynamic_truth_table) (hx32 : x.num_vars < 32) :
    ∃ run r, compute t n [x, y] = some run
      ∧ (∀ fuel, 2 ^ x.num_vars < fuel → run fuel = some r)
      ∧ r.num_vars = x.num_vars
      ∧ ∀ i, kitty.get_bit r i
          = if i < 2 ^ x.num_vars ∧ kitty.get_bit x i = 1 ∧ kitty.get_bit y i = 1
            then 1 else 0 := by
  obtain ⟨run, r, hr, hfuel, hv, hbit⟩ :=
    compute_bit t n [x, y] 2 hk (by omega) (by omega) rfl hx32
  obtain ⟨rest, hd⟩ := ht.2.1
  refine ⟨run, r, hr, hfuel, hv, fun i => ?_⟩
  rw [hbit i, hl, (cache_get_initial t.data rest hd).2.2.2]
  have hx := get_bit_le_one x i
  have hy := get_bit_le_one y i
  have e : ((List.range 2).map
      (fun j => kitty.get_bit ([x, y].getD j default) i * 2 ^ j)).sum
      = kitty.get_bit x i + kitty.get_bit y i * 2 := by
    simp [List.range_succ]
  rw [e]
  show (if i < 2 ^ x.num_vars ∧ _ then 1 else 0) = _
  have hx2 : kitty.get_bit x i = 0 ∨ kitty.get_bit x i = 1 := by omega
  have hy2 : kitty.get_bit y i = 0 ∨ kitty.get_bit y i = 1 := by omega
  by_cases hi : i < 2 ^ x.num_vars
  · rcases hx2 with h1 | h1 <;> rcases hy2 with h2 | h2 <;> rw [h1, h2] <;>
      simp [hi, kitty.get_bit] <;> decide
  · simp [hi]

theorem not_node_computes (t : klut_storage) (ht : literal_inv t) (n : Nat)
    (hk : (t.node n).children.length = 1) (hl : (t.node n).data1_h1 = 3)
    (x : dynamic_truth_table) (hx32 : x.num_vars < 32) :
    ∃ run r, compute t n [x] = some run
      ∧ (∀ fuel, 2 ^ x.num_vars < fuel → run fuel = some r)
      ∧ r.num_vars = x.num_vars
      ∧ ∀ i, kitty.get_bit r i
          = if i < 2 ^ x.num_vars ∧ kitty.get_bit x i = 0 then 1 else 0 := by
  obtain ⟨run, r, hr, hfuel, hv, hbit⟩ :=
    compute_bit t n [x] 1 hk (by omega) (by omega) rfl hx32
  obtain ⟨rest, hd⟩ := ht.2.1
  refine ⟨run, r, hr, hfuel, hv, fun i => ?_⟩
  rw [hbit i, hl, (cache_get_initial t.data rest hd).2.2.1]
  have hx := get_bit_le_one x i
  have e : ((List.range 1).map
      (fun j => kitty.get_bit ([x].getD j default) i * 2 ^ j)).sum
      = kitty.get_bit x i := by
    simp [List.range_succ]
  rw [e]
  show (if i < 2 ^ x.num_vars ∧ _ then 1 else 0) = _
  have hx2 : kitty.get_bit x i = 0 ∨ kitty.get_bit x i = 1 := by omega
  by_cases hi : i < 2 ^ x.num_vars
  · rcases hx2 with h1 | h1
    · rw [h1]; simp [hi, kitty.get_bit]
    · rw [h1]; simp [hi, kitty.get_bit]; decide
  · simp [hi]

theorem created_node_later (t : klut_storage) (ht : reachable_by klut_op.any_op t)
    (n k literal : Nat) (hn : ∃ x, t.nodes[n]? = some x ∧ x.children.length = k
      ∧ x.data1_h1 = literal % word32)
    (hlit : literal < word32)
    (ops : List klut_op) (hops : ops_ok klut_op.any_op t ops = true) :
    literal_inv (run_ops t ops) ∧ ((run_ops t ops).node n).children.length = k
      ∧ ((run_ops t ops).node n).data1_h1 = literal := by
  obtain ⟨x, hx, hc, hl⟩ := hn
  rw [Nat.mod_eq_of_lt hlit] at hl
  obtain ⟨y, hy, hyc, hyl⟩ := run_ops_extends_arity ops t n x hx
  rw [node_of_getElem? hy]
  exact ⟨reachable_literal_inv _ (reachable_of_ops_ok _ _ ht ops hops), hyc.trans hc,
    hyl.trans hl⟩

/-- C16 (as amended). The hard-coded function literals: in every state `s` reached from
a freshly constructed network by `create_pi`, `create_po`, `create_not`, `create_and`,
`create_node` and `substitute_node` calls on valid signals, (1) the node returned by
`create_and(a, b)` computes, right after the call and after any further such operations,
the bitwise AND of its two input tables: on tables `x` and `y` over the same number of
variables, fewer than 32, `compute` returns, after `2 ^ num_vars + 1` tests of its loop
condition, a table of the shape of `x` whose bit `i` is set exactly when bit `i` of `x`
and bit `i` of `y` are; (2) the node returned by `create_not(a)` computes the bitwise
complement: on a table `x` of fewer than 32 variables bit `i` of the result is set
exactly when bit `i` of `x` is clear; (3) `node_function` of node 0 is the constant false
and of node 1 the constant true. -/
theorem hard_coded_literals (s : klut_storage) (h : reachable_by klut_op.any_op s) :
    (∀ a b, a < size s → b < size s → ∀ ops,
      ops_ok klut_op.any_op (create_and s a b).2 ops = true →
      ∀ x y : dynamic_truth_table, x.num_vars < 32 → y.num_vars = x.num_vars →
      ∃ run r,
        compute (run_ops (create_and s a b).2 ops) (create_and s a b).1 [x, y] = some run
        ∧ (∀ fuel, 2 ^ x.num_vars < fuel → run fuel = some r)
        ∧ r.num_vars = x.num_vars
        ∧ ∀ i, kitty.get_bit r i
            = if i < 2 ^ x.num_vars ∧ kitty.get_bit x i = 1 ∧ kitty.get_bit y i = 1
              then 1 else 0)
    ∧ (∀ a, a < size s → ∀ ops,
      ops_ok klut_op.any_op (create_not s a).2 ops = true →
      ∀ x : dynamic_truth_table, x.num_vars < 32 →
      ∃ run r,
        compute (run_ops (create_not s a).2 ops) (create_not s a).1 [x] = some run
        ∧ (∀ fuel, 2 ^ x.num_vars < fuel → run fuel = some r)
        ∧ r.num_vars = x.num_vars
        ∧ ∀ i, kitty.get_bit r i
            = if i < 2 ^ x.num_vars ∧ kitty.get_bit x i = 0 then 1 else 0)
    ∧ node_function s 0 = { num_vars := 0, bits := 0 }
    ∧ node_function s 1 = { num_vars := 0, bits := 1 } := by
  have hinv := reachable_literal_inv s h
  refine ⟨?_, ?_, ?_, ?_⟩
  · intro a b ha hb ops hops x y hx _
    have ht : reachable_by klut_op.any_op (create_and s a b).2 :=
      reachable_by.step s (.create_and a b) h rfl (by
        simp only [klut_op.valid, Bool.and_eq_true, decide_eq_true_eq]
        exact ⟨ha, hb⟩)
    obtain ⟨hl, hk, hlit⟩ := created_node_later _ ht _ 2 4
      (_create_node_arity s [a, b] 4 hinv) (by norm_num [word32]) ops hops
    exact and_node_computes _ hl _ hk hlit x y hx
  · intro a ha ops hops x hx
    have ht : reachable_by klut_op.any_op (create_not s a).2 :=
      reachable_by.step s (.create_not a) h rfl (by
        simp only [klut_op.valid, decide_eq_true_eq]
        exact ha)
    obtain ⟨hl, hk, hlit⟩ := created_node_later _ ht _ 1 3
      (_create_node_arity s [a] 3 hinv) (by norm_num [word32]) ops hops
    exact not_node_computes _ hl _ hk hlit x hx
  · obtain ⟨rest, hd⟩ := hinv.2.1
    obtain ⟨x, hx, hl⟩ := hinv.2.2.1
    unfold node_function
    rw [node_of_getElem? hx, hl]
    exact (cache_get_initial s.data rest hd).1
  · obtain ⟨rest, hd⟩ := hinv.2.1
    obtain ⟨x, hx, hl⟩ := hinv.2.2.2
    unfold node_function
    rw [node_of_getElem? hx, hl]
    exact (cache_get_initial s.data rest hd).2.1

/-- The AND gate of the two inputs of `two_pis` on the tables `1010` and `1100`: the
result is there after 5 tests of the loop condition; and the constant true of that
network. -/
theorem hard_coded_literals_witness :
    reachable_by klut_op.any_op two_pis
    ∧ (∃ run r, compute (create_and two_pis 2 3).2 (create_and two_pis 2 3).1
        [{ num_vars := 2, bits := 0xa }, { num_vars := 2, bits := 0xc }] = some run
      ∧ run 5 = some r
      ∧ r.num_vars = 2 ∧ kitty.get_bit r 3 = 1 ∧ kitty.get_bit r 2 = 0)
    ∧ node_function two_pis 1 = { num_vars := 0, bits := 1 } := by
  have hr : reachable_by klut_op.any_op two_pis :=
    reachable_of_ops_ok _ _ reachable_by.init _ (by decide)
  obtain ⟨run, r, hc, hfuel, hv, hbit⟩ :=
    (hard_coded_literals two_pis hr).1 2 3 (by decide) (by decide)
      [] rfl { num_vars := 2, bits := 0xa } { num_vars := 2, bits := 0xc } (by decide) rfl
  exact ⟨hr, ⟨run, r, hc, hfuel 5 (by decide), hv, by rw [hbit 3]; decide,
      by rw [hbit 2]; decide⟩,
    (hard_coded_literals two_pis hr).2.2.2⟩

/-- C16, the claim as stated fails.  The node 4 returned by `create_not(2)` in a network
with two inputs has one fanin; on an input table of 32 variables `compute` passes its
assertions and never leaves its loop, whose 32-bit counter wraps to 0 after bit position
`2 ^ 32 - 1`: no complement is returned. -/
theorem not_gate_never_returns :
    reachable_by klut_op.any_op two_pis ∧ 2 < size two_pis
    ∧ (create_not two_pis 2).1 = 4
    ∧ ∃ run, compute (create_not two_pis 2).2 (create_not two_pis 2).1
          [{ num_vars := 32, bits := 0 }] = some run
        ∧ ∀ fuel, run fuel = none := by
  refine ⟨reachable_of_ops_ok _ _ reachable_by.init _ (by decide), by decide, by decide,
    _, compute_eq_some _ _ _ (by decide) (by decide), fun fuel => ?_⟩
  exact compute_loop_never_returns _ _ _ _ (by norm_num [kitty.num_bits, kitty.construct, word32])
    fuel 0 _ (by norm_num [word32])

/-! ## Uniqueness of structural signatures -/

theorem mem_gate_indices (len : Nat) (inputs : List Nat) (n : Nat) :
    n ∈ gate_indices len inputs ↔ n < len ∧ 1 < n ∧ n ∉ inputs := by
  unfold gate_indices
  simp [List.mem_filter]

theorem extends_shape_back {ns ns2 : List klut_storage_node} (h : extends_shape ns ns2)
    {m : Nat} {y : klut_storage_node} (hm : m < ns.length) (hy : ns2[m]? = some y) :
    ∃ x, ns[m]? = some x ∧ y.children = x.children ∧ y.data1_h1 = x.data1_h1 := by
  obtain ⟨z, hz, hc, hl⟩ := h m ns[m] (List.getElem?_eq_getElem hm)
  rw [hy] at hz
  cases hz
  exact ⟨ns[m], List.getElem?_eq_getElem hm, hc, hl⟩

theorem hash_find_congr {s t : klut_storage} (h : t.hash = s.hash) (x : klut_storage_node) :
    t.hash_find x = s.hash_find x := by
  unfold hash_find
  rw [h]

theorem unique_inv_of_same {s t : klut_storage} (hs : unique_inv s)
    (hlen : t.nodes.length = s.nodes.length) (hin : t.inputs = s.inputs)
    (hhash : t.hash = s.hash) (hext : extends_shape s.nodes t.nodes) : unique_inv t := by
  obtain ⟨hlt, hH, hU⟩ := hs
  have hg : gate_nodes t = gate_nodes s := by unfold gate_nodes; rw [hlen, hin]
  have hback : ∀ n y, n ∈ gate_nodes s → t.nodes[n]? = some y →
      ∃ x, s.nodes[n]? = some x ∧ y.children = x.children ∧ y.data1_h1 = x.data1_h1 := by
    intro n y hn hy
    exact extends_shape_back hext ((mem_gate_indices _ _ _).mp hn).1 hy
  refine ⟨by rw [hin, hlen]; exact hlt, ?_, ?_⟩
  · intro n y hn hy
    rw [hg] at hn
    obtain ⟨x, hx, hc, hl⟩ := hback n y hn hy
    rw [hash_find_congr hhash, hc, hl]
    exact hH n x hn hx
  · intro m n y1 y2 hm hn hy1 hy2 hc hl
    rw [hg] at hm hn
    obtain ⟨x1, hx1, hc1, hl1⟩ := hback m y1 hm hy1
    obtain ⟨x2, hx2, hc2, hl2⟩ := hback n y2 hn hy2
    exact hU m n x1 x2 hm hn hx1 hx2 (by rw [← hc1, ← hc2, hc]) (by rw [← hl1, ← hl2, hl])

theorem unique_inv_create_pi (s : klut_storage) (hs : unique_inv s) :
    unique_inv (create_pi s).2 := by
  obtain ⟨hlt, hH, hU⟩ := hs
  have hn : (create_pi s).2.nodes.length = s.nodes.length + 1 := by
    rw [create_pi_nodes]; simp
  have hi : (create_pi s).2.inputs = s.inputs ++ [s.nodes.length] := rfl
  have hg : gate_nodes (create_pi s).2 = gate_nodes s := by
    unfold gate_nodes
    rw [hn, hi, gate_indices_succ, if_neg (by simp), List.append_nil,
      gate_indices_append_input _ _ _ (le_refl _)]
  have hback : ∀ n y, n ∈ gate_nodes s → (create_pi s).2.nodes[n]? = some y →
      s.nodes[n]? = some y := by
    intro n y hn hy
    rw [create_pi_nodes, List.getElem?_append_left ((mem_gate_indices _ _ _).mp hn).1] at hy
    exact hy
  refine ⟨?_, ?_, ?_⟩
  · intro i hmem
    rw [hn]
    rw [hi] at hmem
    rcases List.mem_append.mp hmem with h | h
    · have := hlt i h; omega
    · simp at h; omega
  · intro n y hn hy
    rw [hg] at hn
    exact hH n y hn (hback n y hn hy)
  · intro m n y1 y2 hm hn hy1 hy2 hc hl
    rw [hg] at hm hn
    exact hU m n y1 y2 hm hn (hback m y1 hm hy1) (hback n y2 hn hy2) hc hl

theorem klut_node_eq_iff (a b : klut_storage_node) :
    a.eq b = true ↔ a.data1_h1 = b.data1_h1 ∧ a.children = b.children := by
  simp [klut_storage_node.eq]

theorem hash_find_cons_isSome (s : klut_storage) (e : klut_storage_node × Nat)
    (hash : List (klut_storage_node × Nat)) (x : klut_storage_node)
    (h : e.1.eq x = true ∨ (hash_find { s with hash := hash } x).isSome = true) :
    (hash_find { s with hash := e :: hash } x).isSome = true := by
  unfold hash_find at *
  simp only [List.find?_cons]
  cases he : e.1.eq x with
  | true => rfl
  | false =>
    rcases h with h | h
    · rw [he] at h; cases h
    · exact h

theorem key_node_mod (children : List Nat) (literal : Nat) :
    key_node children (literal % word32) = key_node children literal := by
  simp [key_node, Nat.mod_mod]

theorem unique_inv_create_node (s : klut_storage) (children : List Nat) (literal : Nat)
    (hs : unique_inv s) : unique_inv (_create_node s children literal).2 := by
  cases h : s.hash_find (key_node children literal) with
  | some index => rw [_create_node_hit h]; exact hs
  | none =>
    obtain ⟨hlt, hH, hU⟩ := hs
    have hn := _create_node_miss_length h
    have hi := _create_node_inputs s children literal
    have hext := _create_node_extends s children literal
    have hhash : (_create_node s children literal).2.hash
        = (key_node children literal, s.nodes.length) :: s.hash := by
      rw [_create_node_miss h]; rfl
    have hg : ∀ n, n ∈ gate_nodes (_create_node s children literal).2 →
        n ∈ gate_nodes s ∨ n = s.nodes.length := by
      intro n hmem
      unfold gate_nodes at *
      rw [hn, hi, mem_gate_indices] at hmem
      rw [mem_gate_indices]
      by_cases hlast : n = s.nodes.length
      · exact Or.inr hlast
      · exact Or.inl ⟨by omega, hmem.2⟩
    have hold : ∀ n y, n ∈ gate_nodes s →
        (_create_node s children literal).2.nodes[n]? = some y →
        ∃ x, s.nodes[n]? = some x ∧ y.children = x.children ∧ y.data1_h1 = x.data1_h1 :=
      fun n y hmem hy => extends_shape_back hext ((mem_gate_indices _ _ _).mp hmem).1 hy
    have hnew : ∀ y, (_create_node s children literal).2.nodes[s.nodes.length]? = some y →
        y.children = children ∧ y.data1_h1 = literal % word32 := by
      intro y hy
      obtain ⟨x, hx, hc, hl⟩ := _create_node_miss_new h
      rw [hy] at hx
      cases hx
      exact ⟨hc, hl⟩
    have hfind : ∀ x : klut_storage_node,
        (_create_node s children literal).2.hash_find x
          = hash_find { s with hash := (key_node children literal, s.nodes.length) :: s.hash } x := by
      intro x
      unfold hash_find
      rw [hhash]
    have hclash : ∀ n x, n ∈ gate_nodes s → s.nodes[n]? = some x →
        x.children = children → x.data1_h1 = literal % word32 → False := by
      intro n x hmem hx hc hl
      have := hH n x hmem hx
      rw [hc, hl, key_node_mod, h] at this
      cases this
    refine ⟨by rw [hi, hn]; intro i hmem; have := hlt i hmem; omega, ?_, ?_⟩
    · intro n y hmem hy
      rw [hfind]
      apply hash_find_cons_isSome
      rcases hg n hmem with hmem | rfl
      · obtain ⟨x, hx, hc, hl⟩ := hold n y hmem hy
        right
        rw [hc, hl]
        exact hH n x hmem hx
      · obtain ⟨hc, hl⟩ := hnew y hy
        left
        rw [hc, hl, key_node_mod]
        exact klut_node_eq_self _
    · intro m n y1 y2 hm hmn hy1 hy2 hc hl
      rcases hg m hm with hm | rfl <;> rcases hg n hmn with hmn | rfl
      · obtain ⟨x1, hx1, hc1, hl1⟩ := hold m y1 hm hy1
        obtain ⟨x2, hx2, hc2, hl2⟩ := hold n y2 hmn hy2
        exact hU m n x1 x2 hm hmn hx1 hx2 (by rw [← hc1, ← hc2, hc])
          (by rw [← hl1, ← hl2, hl])
      · obtain ⟨x1, hx1, hc1, hl1⟩ := hold m y1 hm hy1
        obtain ⟨hc2, hl2⟩ := hnew y2 hy2
        exact (hclash m x1 hm hx1 (by rw [← hc1, hc, hc2]) (by rw [← hl1, hl, hl2])).elim
      · obtain ⟨x2, hx2, hc2, hl2⟩ := hold n y2 hmn hy2
        obtain ⟨hc1, hl1⟩ := hnew y1 hy1
        exact (hclash n x2 hmn hx2 (by rw [← hc2, ← hc, hc1]) (by rw [← hl2, ← hl, hl1])).elim
      · rfl

theorem unique_inv_with_data (s : klut_storage) (d : truth_table_cache)
    (hs : unique_inv s) : unique_inv { s with data := d } := hs

theorem reachable_unique_inv (s : klut_storage)
    (h : reachable_when rewires_no_child s) : unique_inv s := by
  induction h with
  | init =>
    refine ⟨by decide, ?_, ?_⟩
    · intro n x hn
      have : gate_nodes init = [] := by decide
      rw [this] at hn
      cases hn
    · intro m n x y hm
      have : gate_nodes init = [] := by decide
      rw [this] at hm
      cases hm
  | step s op _ hadm _ ih =>
    cases op with
    | create_pi => exact unique_inv_create_pi s ih
    | create_po f =>
      exact unique_inv_of_same ih (by show (incr_h1 s.nodes f).length = _; simp [incr_h1])
        rfl rfl (create_po_extends s f)
    | create_not a => exact unique_inv_create_node s [a] 3 ih
    | create_and a b => exact unique_inv_create_node s [a, b] 4 ih
    | create_node children function =>
      exact unique_inv_create_node { s with data := (s.data.insert function).2 } children
        (s.data.insert function).1 (unique_inv_with_data s _ ih)
    | substitute_node old new =>
      exact unique_inv_of_same ih (substitute_node_length s old new) rfl rfl
        (substitute_node_extends s old new hadm)

/-- C17 (as amended). Uniqueness of structural signatures: in every state reached from a
freshly constructed network by `create_pi`, `create_po`, `create_not`, `create_and` and
`create_node` calls and by substitutions that rewrite no child slot (the substituted node
is its own substitute, or no child slot holds it), all on valid signals, no two distinct
gate nodes (nodes that are neither a constant nor a member of the primary-input list)
have the same function literal and the same ordered children. -/
theorem unique_signatures (s : klut_storage) (h : reachable_when rewires_no_child s)
    (m n : Nat) (hm : m ∈ gate_nodes s) (hn : n ∈ gate_nodes s) (hne : m ≠ n) :
    ¬ ((s.node m).data1_h1 = (s.node n).data1_h1
      ∧ (s.node m).children = (s.node n).children) := by
  rintro ⟨hl, hc⟩
  have hmlt := ((mem_gate_indices _ _ _).mp hm).1
  have hnlt := ((mem_gate_indices _ _ _).mp hn).1
  have hx := List.getElem?_eq_getElem hmlt
  have hy := List.getElem?_eq_getElem hnlt
  rw [node_of_getElem? hx, node_of_getElem? hy] at hl hc
  exact hne ((reachable_unique_inv s h).2.2 m n _ _ hm hn hx hy hc hl)

/-- The two AND gates of `spare_input_ands`, nodes 6 and 7, carry the same literal and
differ in their second child; the state is reached through a substitution. -/
theorem unique_signatures_witness :
    reachable_when rewires_no_child spare_input_ands
    ∧ gate_nodes spare_input_ands = [6, 7]
    ∧ ¬ ((spare_input_ands.node 6).data1_h1 = (spare_input_ands.node 7).data1_h1
      ∧ (spare_input_ands.node 6).children = (spare_input_ands.node 7).children) :=
  ⟨reachable_when_of_ops_ok _ _ reachable_when.init _ (by decide), by decide,
    unique_signatures spare_input_ands
      (reachable_when_of_ops_ok _ _ reachable_when.init _ (by decide))
      6 7 (by decide) (by decide) (by decide)⟩

/-- C17, the claim as stated fails.  After three `create_pi`, `create_and(2, 3)`,
`create_and(2, 4)`, `create_po(5)`, `create_po(6)` and `substitute_node(4, 3)`, all on
valid signals, the gate nodes 5 and 6 are distinct, each has fan-out 1, and both carry
the function literal 4 and the ordered children 2, 3. -/
theorem twin_gates_share_signature :
    reachable_by klut_op.any_op twin_gates
    ∧ 5 ∈ gate_nodes twin_gates ∧ 6 ∈ gate_nodes twin_gates
    ∧ fanout_size twin_gates 5 = 1 ∧ fanout_size twin_gates 6 = 1
    ∧ (twin_gates.node 5).data1_h1 = 4 ∧ (twin_gates.node 6).data1_h1 = 4
    ∧ (twin_gates.node 5).children = [2, 3] ∧ (twin_gates.node 6).children = [2, 3] :=
  ⟨reachable_of_ops_ok _ _ reachable_by.init _ (by decide), by decide, by decide, by decide,
    by decide, by decide, by decide, by decide, by decide⟩

/-! ## Acyclicity by creation order -/

theorem acyclic_inv_of_same {s t : klut_storage} (hs : acyclic_inv s)
    (hlen : t.nodes.length = s.nodes.length) (hext : extends_shape s.nodes t.nodes) :
    acyclic_inv t := by
  intro n y hy c hc
  have hn : n < s.nodes.length := by rw [← hlen]; exact lt_length_of_getElem? hy
  obtain ⟨x, hx, hxc, _⟩ := extends_shape_back hext hn hy
  exact hs n x hx c (by rw [← hxc]; exact hc)

theorem acyclic_inv_create_pi (s : klut_storage) (hs : acyclic_inv s) :
    acyclic_inv (create_pi s).2 := by
  intro n y hy c hc
  rw [create_pi_nodes] at hy
  by_cases hn : n < s.nodes.length
  · rw [List.getElem?_append_left hn] at hy
    exact hs n y hy c hc
  · have hlen := lt_length_of_getElem? hy
    simp only [List.length_append, List.length_singleton] at hlen
    have hn2 : n = s.nodes.length := by omega
    subst hn2
    rw [List.getElem?_append_right (le_refl _)] at hy
    simp at hy
    subst hy
    cases hc

theorem acyclic_inv_create_node (s : klut_storage) (children : List Nat) (literal : Nat)
    (hs : acyclic_inv s) (hv : ∀ c ∈ children, c < s.nodes.length) :
    acyclic_inv (_create_node s children literal).2 := by
  cases h : s.hash_find (key_node children literal) with
  | some index => rw [_create_node_hit h]; exact hs
  | none =>
    intro n y hy c hc
    by_cases hn : n < s.nodes.length
    · obtain ⟨x, hx, hxc, _⟩ := extends_shape_back (_create_node_extends s children literal) hn hy
      exact hs n x hx c (by rw [← hxc]; exact hc)
    · have hlen := lt_length_of_getElem? hy
      rw [_create_node_miss_length h] at hlen
      have hn2 : n = s.nodes.length := by omega
      subst hn2
      obtain ⟨x, hx, hxc, _⟩ := _create_node_miss_new h
      rw [hy] at hx
      cases hx
      rw [hxc] at hc
      exact hv c hc

theorem acyclic_inv_substitute_node (s : klut_storage) (old new : Nat)
    (hs : acyclic_inv s) (hle : new ≤ old) : acyclic_inv (substitute_node s old new) := by
  intro n y hy c hc
  rw [substitute_node_getElem?] at hy
  cases hx : s.nodes[n]? with
  | none => rw [hx] at hy; cases hy
  | some x =>
    rw [hx] at hy
    simp only [Option.map_some', Option.some.injEq] at hy
    subst hy
    obtain ⟨c0, hc0, rfl⟩ := List.mem_map.mp hc
    have hlt := hs n x hx c0 hc0
    unfold redirect
    by_cases h0 : c0 = old
    · rw [if_pos h0]; omega
    · rw [if_neg h0]; exact hlt

theorem reachable_acyclic_inv (s : klut_storage)
    (h : reachable_by klut_op.downward_substitution s) : acyclic_inv s := by
  induction h with
  | init =>
    intro n x hx c hc
    rw [init_nodes] at hx
    match n, hx with
    | 0, hx => cases hx; cases hc
    | 1, hx => cases hx; cases hc
    | n + 2, hx => cases hx
  | step s op _ hadm hvalid ih =>
    cases op with
    | create_pi => exact acyclic_inv_create_pi s ih
    | create_po f =>
      exact acyclic_inv_of_same ih (by show (incr_h1 s.nodes f).length = _; simp [incr_h1])
        (create_po_extends s f)
    | create_not a =>
      refine acyclic_inv_create_node s [a] 3 ih ?_
      simp only [klut_op.valid, decide_eq_true_eq] at hvalid
      simpa using hvalid
    | create_and a b =>
      refine acyclic_inv_create_node s [a, b] 4 ih ?_
      simp only [klut_op.valid, Bool.and_eq_true, decide_eq_true_eq] at hvalid
      simpa using hvalid
    | create_node children function =>
      refine acyclic_inv_create_node { s with data := (s.data.insert function).2 } children
        (s.data.insert function).1 ih ?_
      simp only [klut_op.valid, List.all_eq_true, decide_eq_true_eq] at hvalid
      exact hvalid
    | substitute_node old new =>
      simp only [klut_op.downward_substitution, decide_eq_true_eq] at hadm
      exact acyclic_inv_substitute_node s old new ih hadm

/-- C18 (as amended). Acyclicity by creation order: in every state reached from a freshly
constructed network by `create_pi`, `create_po`, `create_not`, `create_and` and
`create_node` calls and by substitutions of a node by itself or by a node created before
it (`substitute_node(old, new)` with `new ≤ old`), all on valid signals, every child slot
of every node `n` holds a node index strictly smaller than `n`. -/
theorem children_created_earlier (s : klut_storage)
    (h : reachable_by klut_op.downward_substitution s) (n : Nat) (hn : n < size s) :
    ∀ c ∈ (s.node n).children, c < n := by
  have hx := List.getElem?_eq_getElem hn
  rw [node_of_getElem? hx]
  exact reachable_acyclic_inv s h n _ hx

/-- The AND gate 5 of `lowered_and`, created over (2, 4), has the children 2 and 3 after
`substitute_node(4, 3)`. -/
theorem children_created_earlier_witness :
    reachable_by klut_op.downward_substitution lowered_and ∧ 5 < size lowered_and
    ∧ (lowered_and.node 5).children = [2, 3]
    ∧ ∀ c ∈ (lowered_and.node 5).children, c < 5 :=
  ⟨reachable_of_ops_ok _ _ reachable_by.init _ (by decide), by decide, by decide,
    children_created_earlier lowered_and
      (reachable_of_ops_ok _ _ reachable_by.init _ (by decide)) 5 (by decide)⟩

/-- C18, the claim as stated fails.  After two `create_pi`, `create_and(2, 3)` and
`substitute_node(2, 4)`, all on valid signals and the substitution not of a node by
itself, the first child slot of node 4 holds node 4. -/
theorem substitution_makes_self_loop :
    reachable_by klut_op.any_op self_loop
    ∧ reachable_by klut_op.no_self_substitution self_loop
    ∧ 4 < size self_loop
    ∧ (self_loop.node 4).children = [4, 3]
    ∧ ¬ (∀ c ∈ (self_loop.node 4).children, c < 4) :=
  ⟨reachable_of_ops_ok _ _ reachable_by.init _ (by decide),
    reachable_of_ops_ok _ _ reachable_by.init _ (by decide), by decide, by decide, by decide⟩

/-! ## Primary inputs -/

theorem extends_arity_back {ns ns2 : List klut_storage_node} (h : extends_arity ns ns2)
    {m : Nat} {y : klut_storage_node} (hm : m < ns.length) (hy : ns2[m]? = some y) :
    ∃ x, ns[m]? = some x ∧ y.children.length = x.children.length := by
  obtain ⟨z, hz, hc, _⟩ := h m ns[m] (List.getElem?_eq_getElem hm)
  rw [hy] at hz
  cases hz
  exact ⟨ns[m], List.getElem?_eq_getElem hm, hc⟩

theorem pi_inv_of_same {s t : klut_storage} (hs : pi_inv s)
    (hlen : t.nodes.length = s.nodes.length) (hin : t.inputs = s.inputs)
    (hext : extends_arity s.nodes t.nodes) : pi_inv t := by
  obtain ⟨h2, hlt, hiff⟩ := hs
  refine ⟨by omega, by rw [hin, hlen]; exact hlt, ?_⟩
  intro n y hy hn
  have hnlt : n < s.nodes.length := by rw [← hlen]; exact lt_length_of_getElem? hy
  obtain ⟨x, hx, hc⟩ := extends_arity_back hext hnlt hy
  rw [hc, hin]
  exact hiff n x hx hn

theorem pi_inv_create_pi (s : klut_storage) (hs : pi_inv s) : pi_inv (create_pi s).2 := by
  obtain ⟨h2, hlt, hiff⟩ := hs
  have hn : (create_pi s).2.nodes.length = s.nodes.length + 1 := by
    rw [create_pi_nodes]; simp
  have hi : (create_pi s).2.inputs = s.inputs ++ [s.nodes.length] := rfl
  refine ⟨by omega, ?_, ?_⟩
  · intro i hmem
    rw [hn]
    rw [hi] at hmem
    rcases List.mem_append.mp hmem with h | h
    · have := hlt i h; omega
    · simp at h; omega
  · intro n y hy hn2
    rw [hi]
    rw [create_pi_nodes] at hy
    by_cases hnlt : n < s.nodes.length
    · rw [List.getElem?_append_left hnlt] at hy
      rw [hiff n y hy hn2]
      simp only [List.mem_append, List.mem_singleton]
      constructor
      · exact Or.inl
      · rintro (h | h)
        · exact h
        · omega
    · have hlen := lt_length_of_getElem? hy
      simp only [List.length_append, List.length_singleton] at hlen
      have hn3 : n = s.nodes.length := by omega
      subst hn3
      rw [List.getElem?_append_right (le_refl _)] at hy
      simp at hy
      subst hy
      simp only [List.mem_append, List.mem_singleton, or_true, iff_true]
      rfl

theorem pi_inv_create_node (s : klut_storage) (children : List Nat) (literal : Nat)
    (hs : pi_inv s) (hc : children ≠ []) : pi_inv (_create_node s children literal).2 := by
  cases h : s.hash_find (key_node children literal) with
  | some index => rw [_create_node_hit h]; exact hs
  | none =>
    obtain ⟨h2, hlt, hiff⟩ := hs
    have hn := _create_node_miss_length h
    have hi := _create_node_inputs s children literal
    refine ⟨by omega, by rw [hi, hn]; intro i hmem; have := hlt i hmem; omega, ?_⟩
    intro n y hy hn2
    rw [hi]
    by_cases hnlt : n < s.nodes.length
    · obtain ⟨x, hx, hxc⟩ := extends_arity_back
        (extends_arity_of_shape (_create_node_extends s children literal)) hnlt hy
      rw [hxc]
      exact hiff n x hx hn2
    · have hlen := lt_length_of_getElem? hy
      rw [hn] at hlen
      have hn3 : n = s.nodes.length := by omega
      subst hn3
      obtain ⟨x, hx, hxc, _⟩ := _create_node_miss_new h
      rw [hy] at hx
      cases hx
      rw [hxc]
      constructor
      · intro h0
        exact (hc (List.length_eq_zero.mp h0)).elim
      · intro hmem
        have := hlt _ hmem
        omega

theorem reachable_pi_inv (s : klut_storage) (h : reachable_by klut_op.with_children s) :
    pi_inv s := by
  induction h with
  | init =>
    refine ⟨by decide, by decide, ?_⟩
    intro n x hx hn
    rw [init_nodes] at hx
    match n, hx, hn with
    | n + 2, hx, _ => cases hx
  | step s op _ hadm _ ih =>
    cases op with
    | create_pi => exact pi_inv_create_pi s ih
    | create_po f =>
      exact pi_inv_of_same ih (by show (incr_h1 s.nodes f).length = _; simp [incr_h1]) rfl
        (extends_arity_of_shape (create_po_extends s f))
    | create_not a => exact pi_inv_create_node s [a] 3 ih (by simp)
    | create_and a b => exact pi_inv_create_node s [a, b] 4 ih (by simp)
    | create_node children function =>
      refine pi_inv_create_node { s with data := (s.data.insert function).2 } children
        (s.data.insert function).1 ih ?_
      intro hnil
      rw [hnil] at hadm
      simp [klut_op.with_children] at hadm
    | substitute_node old new =>
      exact pi_inv_of_same ih (substitute_node_length s old new) rfl
        (substitute_node_extends_arity s old new)

/-- C19 (as amended). Primary inputs: in every state reached from a freshly constructed
network by `create_pi`, `create_po`, `create_not`, `create_and`, `create_node` and
`substitute_node` calls on valid signals, every `create_node` call having at least one
child, `is_pi(n)` holds for a node `n` of the store exactly when `n` is a member of the
primary-input list. -/
theorem is_pi_iff_input (s : klut_storage) (h : reachable_by klut_op.with_children s)
    (n : Nat) (hn : n < size s) : is_pi s n = true ↔ n ∈ s.inputs := by
  obtain ⟨h2, hlt, hiff⟩ := reachable_pi_inv s h
  have hx := List.getElem?_eq_getElem hn
  unfold is_pi
  rw [node_of_getElem? hx]
  simp only [Bool.and_eq_true, decide_eq_true_eq, List.isEmpty_iff]
  constructor
  · rintro ⟨h1, he⟩
    exact (hiff n _ hx (by omega)).mp (by rw [he]; rfl)
  · intro hmem
    have hn2 := (hlt n hmem).1
    exact ⟨by omega, List.length_eq_zero.mp ((hiff n _ hx hn2).mpr hmem)⟩

/-- Node 4 of `sample_net`, a primary input, and its gate, node 5. -/
theorem is_pi_iff_input_witness :
    reachable_by klut_op.with_children sample_net ∧ 5 < size sample_net
    ∧ sample_net.inputs = [2, 3, 4]
    ∧ (is_pi sample_net 4 = true ↔ 4 ∈ sample_net.inputs)
    ∧ is_pi sample_net 5 = false :=
  ⟨reachable_of_ops_ok _ _ reachable_by.init _ (by decide), by decide, by decide,
    is_pi_iff_input sample_net (reachable_of_ops_ok _ _ reachable_by.init _ (by decide)) 4
      (by decide), by decide⟩

/-- C19, the claim as stated fails.  After `create_node` with no children on a fresh
network, node 2 has no children, so `is_pi(2)` holds, and the primary-input list is
empty. -/
theorem childless_gate_is_pi :
    reachable_by klut_op.no_substitution childless_gate
    ∧ 2 < size childless_gate
    ∧ is_pi childless_gate 2 = true
    ∧ childless_gate.inputs = [] :=
  ⟨reachable_of_ops_ok _ _ reachable_by.init _ (by decide), by decide, by decide, by decide⟩

/-! ## Custom node values -/

theorem node_modify (ns : List klut_storage_node) (f : klut_storage_node → klut_storage_node)
    (n m : Nat) (hn : n < ns.length) :
    (ns.modify f n).getD m default
      = if n = m then f (ns.getD m default) else ns.getD m default := by
  rw [List.getD_eq_getElem?_getD, List.getD_eq_getElem?_getD, List.getElem?_modify]
  by_cases hnm : n = m
  · subst hnm
    rw [List.getElem?_eq_getElem hn]
    simp
  · simp [hnm]

theorem same_but_value_modify (s : klut_storage) (n : Nat) (hn : n < size s)
    (g : Nat → Nat) : same_but_value s (map_value s n g) n := by
  unfold map_value
  have hnode : ∀ m, (s.nodes.modify (fun x => { x with data0_h2 := g x.data0_h2 }) n).getD m
        default
      = if n = m then { s.node m with data0_h2 := g (s.node m).data0_h2 } else s.node m := by
    intro m
    exact node_modify s.nodes _ n m hn
  refine ⟨fun m => ?_, by simp [size], rfl, rfl, rfl, rfl⟩
  unfold fanout_size visited node_function value
  unfold klut_storage.node at hnode ⊢
  simp only
  rw [hnode m]
  by_cases hnm : n = m
  · rw [if_pos hnm]
    exact ⟨rfl, rfl, rfl, rfl, fun h => (h hnm.symm).elim⟩
  · rw [if_neg hnm]
    exact ⟨rfl, rfl, rfl, rfl, fun _ => rfl⟩

theorem incr_value_spec (s : klut_storage) (n : Nat) (hn : n < size s) :
    (incr_value s n).1 = value s n
    ∧ value (incr_value s n).2 n = (value s n + 1) % word32
    ∧ size (incr_value s n).2 = size s := by
  unfold incr_value value
  refine ⟨rfl, ?_, by simp [size]⟩
  unfold klut_storage.node
  simp only
  rw [node_modify s.nodes _ n n hn, if_pos rfl]
  simp only [Nat.mod_mod, Nat.add_mod_mod, Nat.mod_add_mod]

theorem decr_value_spec (s : klut_storage) (n : Nat) (hn : n < size s) :
    (decr_value s n).1 = value (decr_value s n).2 n
    ∧ value (decr_value s n).2 n = (value s n + (word32 - 1)) % word32
    ∧ size (decr_value s n).2 = size s := by
  unfold decr_value value
  refine ⟨rfl, ?_, by simp [size]⟩
  unfold klut_storage.node
  simp only
  rw [node_modify s.nodes _ n n hn, if_pos rfl]
  simp only [Nat.mod_mod, Nat.add_mod_mod, Nat.mod_add_mod]

theorem value_lt (s : klut_storage) (n : Nat) : value s n < word32 := by
  unfold value
  exact Nat.mod_lt _ (by norm_num [word32])

/-- C23. Return conventions of the scratch counters: for every node `n` of the store,
`incr_value(n)` returns the value held before the increment and leaves the successor
modulo `2 ^ 32`, `decr_value(n)` returns the value held after the decrement, the
predecessor modulo `2 ^ 32`; `incr_value(n)` followed by `decr_value(n)` return the same
number and leave `value(n)` as it was; and each call leaves the fan-out, the visited
flag, the function and the children of every node and the value of every other node
unchanged. -/
theorem scratch_counter_conventions (s : klut_storage) (n : Nat) (hn : n < size s) :
    (incr_value s n).1 = value s n
    ∧ value (incr_value s n).2 n = (value s n + 1) % 2 ^ 32
    ∧ (decr_value s n).1 = value (decr_value s n).2 n
    ∧ value (decr_value s n).2 n = (value s n + (2 ^ 32 - 1)) % 2 ^ 32
    ∧ (decr_value (incr_value s n).2 n).1 = (incr_value s n).1
    ∧ value (decr_value (incr_value s n).2 n).2 n = value s n
    ∧ same_but_value s (incr_value s n).2 n
    ∧ same_but_value s (decr_value s n).2 n := by
  obtain ⟨i1, i2, i3⟩ := incr_value_spec s n hn
  obtain ⟨d1, d2, _⟩ := decr_value_spec s n hn
  obtain ⟨e1, e2, _⟩ := decr_value_spec (incr_value s n).2 n (by rw [i3]; exact hn)
  have hv := value_lt s n
  have hround : value (decr_value (incr_value s n).2 n).2 n = value s n := by
    rw [e2, i2]
    unfold word32 at *
    omega
  refine ⟨i1, i2, d1, d2, ?_, hround,
    same_but_value_modify s n hn (fun v => (v + 1) % word32),
    same_but_value_modify s n hn (fun v => (v + (word32 - 1)) % word32)⟩
  rw [e1, hround, i1]

/-- The value `2 ^ 32 - 1` of node 2 of `full_value`: the increment returns it and wraps
to 0, and the decrement that follows returns it again. -/
theorem scratch_counter_conventions_witness :
    2 < size full_value ∧ value full_value 2 = 4294967295
    ∧ (incr_value full_value 2).1 = 4294967295
    ∧ value (incr_value full_value 2).2 2 = 0
    ∧ (decr_value (incr_value full_value 2).2 2).1 = (incr_value full_value 2).1 :=
  ⟨by decide, by decide,
    (scratch_counter_conventions full_value 2 (by decide)).1.trans (by decide),
    (scratch_counter_conventions full_value 2 (by decide)).2.1.trans (by decide),
    (scratch_counter_conventions full_value 2 (by decide)).2.2.2.2.1⟩

end mockturtle

/-! # Theorems about the don't-care view -/

namespace mockturtle

open aig_network

/-! ## Simulation of a network of AND gates -/

theorem simulate_nodes_append (inputs : List Nat) (p : List Bool)
    (ks ks2 : List (List signal)) (vals : List Bool) :
    simulate_nodes inputs p (ks ++ ks2) vals
      = simulate_nodes inputs p ks2 (simulate_nodes inputs p ks vals) := by
  induction ks generalizing vals with
  | nil => rfl
  | cons k rest ih => exact ih _

theorem simulate_nodes_length (inputs : List Nat) (p : List Bool)
    (ks : List (List signal)) (vals : List Bool) :
    (simulate_nodes inputs p ks vals).length = vals.length + ks.length := by
  induction ks generalizing vals with
  | nil => rfl
  | cons k rest ih =>
    rw [simulate_nodes, ih]
    simp
    omega

theorem simulate_nodes_prefix (inputs : List Nat) (p : List Bool)
    (ks : List (List signal)) (vals : List Bool) :
    ∃ more, simulate_nodes inputs p ks vals = vals ++ more := by
  induction ks generalizing vals with
  | nil => exact ⟨[], by simp [simulate_nodes]⟩
  | cons k rest ih =>
    obtain ⟨more, hm⟩ := ih (vals ++ [node_value inputs p vals vals.length k])
    exact ⟨node_value inputs p vals vals.length k :: more, by rw [simulate_nodes, hm]; simp⟩

theorem node_values_length (ntk : aig_network) (p : List Bool) :
    (node_values ntk p).length = ntk.nodes.length := by
  simp [node_values, simulate_nodes_length]

theorem kids_length (ntk : aig_network) : (kids ntk).length = ntk.nodes.length := by
  simp [kids]

/-- The value of node `n` is computed from the values of the nodes before it. -/
theorem node_values_getD (ntk : aig_network) (p : List Bool) (n : Nat)
    (hn : n < ntk.nodes.length) :
    (node_values ntk p).getD n false
      = node_value ntk.inputs p ((node_values ntk p).take n) n ((kids ntk).getD n []) := by
  have hk : n < (kids ntk).length := by rw [kids_length]; exact hn
  have hsplit : kids ntk = (kids ntk).take n ++ (kids ntk)[n] :: (kids ntk).drop (n + 1) := by
    rw [← List.drop_eq_getElem_cons hk, List.take_append_drop]
  have hlen : (simulate_nodes ntk.inputs p ((kids ntk).take n) []).length = n := by
    rw [simulate_nodes_length]
    simp
    omega
  unfold node_values
  rw [← kids]
  have hgetD : (kids ntk).getD n [] = (kids ntk)[n] := by
    rw [List.getD_eq_getElem?_getD, List.getElem?_eq_getElem hk]
    rfl
  rw [hgetD]
  generalize (kids ntk)[n] = k at hsplit
  generalize hv : simulate_nodes ntk.inputs p ((kids ntk).take n) [] = v at hlen
  have hfull : simulate_nodes ntk.inputs p (kids ntk) []
      = simulate_nodes ntk.inputs p ((kids ntk).drop (n + 1))
          (v ++ [node_value ntk.inputs p v v.length k]) := by
    conv_lhs => rw [hsplit]
    rw [simulate_nodes_append, hv]
    rfl
  obtain ⟨more, hmore⟩ := simulate_nodes_prefix ntk.inputs p ((kids ntk).drop (n + 1))
    (v ++ [node_value ntk.inputs p v v.length k])
  rw [hfull, hmore]
  have htake : (v ++ [node_value ntk.inputs p v v.length k] ++ more).take n = v := by
    rw [List.append_assoc, List.take_append_eq_append_take, hlen]
    simp [← hlen]
  rw [htake, List.getD_eq_getElem?_getD, List.append_assoc,
    List.getElem?_append_right (by omega)]
  simp [hlen]

theorem value_of_input (ntk : aig_network) (p : List Bool) (n : Nat)
    (hn : n < ntk.nodes.length) (hin : n ∈ ntk.inputs) :
    (node_values ntk p).getD n false = p.getD (ntk.inputs.indexOf n) false := by
  rw [node_values_getD ntk p n hn]
  unfold node_value
  rw [if_pos hin]

theorem getD_take_of_lt (vals : List Bool) (n i : Nat) (h : i < n) :
    (vals.take n).getD i false = vals.getD i false := by
  rw [List.getD_eq_getElem?_getD, List.getD_eq_getElem?_getD, List.getElem?_take, if_pos h]

theorem value_of_gate (ntk : aig_network) (p : List Bool) (n : Nat) (a b : signal)
    (hn : n < ntk.nodes.length) (hin : n ∉ ntk.inputs)
    (hk : (kids ntk).getD n [] = [a, b]) (ha : a.index < n) (hb : b.index < n) :
    (node_values ntk p).getD n false = (signal_value ntk p a && signal_value ntk p b) := by
  rw [node_values_getD ntk p n hn, hk]
  unfold node_value signal_value
  rw [if_neg hin]
  simp only [getD_take_of_lt _ _ _ ha, getD_take_of_lt _ _ _ hb]

theorem getD_eq_of_getElem? {α : Type} {l : List α} {n : Nat} {x d : α}
    (h : l[n]? = some x) : l.getD n d = x := by
  rw [List.getD_eq_getElem?_getD, h]
  rfl

theorem lt_of_getElem?_some {α : Type} {l : List α} {n : Nat} {x : α}
    (h : l[n]? = some x) : n < l.length := by
  by_contra hc
  rw [List.getElem?_eq_none (by omega)] at h
  cases h

theorem getD_append_of_lt {α : Type} (l m : List α) (n : Nat) (d : α) (h : n < l.length) :
    (l ++ m).getD n d = l.getD n d := by
  rw [List.getD_eq_getElem?_getD, List.getD_eq_getElem?_getD, List.getElem?_append_left h]

theorem extends_to_refl (ntk : aig_network) : extends_to ntk ntk :=
  ⟨rfl, rfl, [], by simp⟩

theorem extends_to_trans {n1 n2 n3 : aig_network} (h12 : extends_to n1 n2)
    (h23 : extends_to n2 n3) : extends_to n1 n3 := by
  obtain ⟨hi1, ho1, m1, hm1⟩ := h12
  obtain ⟨hi2, ho2, m2, hm2⟩ := h23
  exact ⟨hi2.trans hi1, ho2.trans ho1, m1 ++ m2, by rw [hm2, hm1, List.append_assoc]⟩

theorem extends_to_length {n1 n2 : aig_network} (h : extends_to n1 n2) :
    n1.nodes.length ≤ n2.nodes.length := by
  obtain ⟨_, _, m, hm⟩ := h
  have := congrArg List.length hm
  rw [kids_length, List.length_append, kids_length] at this
  omega

theorem extends_to_values {n1 n2 : aig_network} (h : extends_to n1 n2) (p : List Bool)
    (n : Nat) (hn : n < n1.nodes.length) :
    (node_values n2 p).getD n false = (node_values n1 p).getD n false := by
  obtain ⟨hi, _, m, hm⟩ := h
  unfold node_values
  rw [← kids, ← kids, hm, hi, simulate_nodes_append]
  obtain ⟨more, hmore⟩ := simulate_nodes_prefix n1.inputs p m
    (simulate_nodes n1.inputs p (kids n1) [])
  rw [hmore]
  apply getD_append_of_lt
  rw [simulate_nodes_length, kids_length]
  simpa using hn

theorem extends_to_signal {n1 n2 : aig_network} (h : extends_to n1 n2) (p : List Bool)
    (f : signal) (hf : f.index < n1.nodes.length) :
    signal_value n2 p f = signal_value n1 p f := by
  unfold signal_value
  rw [extends_to_values h p f.index hf]

theorem signal_value_not (ntk : aig_network) (p : List Bool) (f : signal) :
    signal_value ntk p f.not = !(signal_value ntk p f) := by
  unfold signal_value signal.not
  cases (node_values ntk p).getD f.index false <;> cases f.complement <;> rfl

/-! ## create_and on a well-formed network -/

theorem kids_incr_fanout (nodes : List aig_node) (n : Nat) :
    (incr_fanout nodes n).map (fun x => x.children) = nodes.map (fun x => x.children) := by
  apply List.ext_getElem?
  intro m
  simp only [incr_fanout, List.getElem?_map, List.getElem?_modify]
  cases nodes[m]? with
  | none => rfl
  | some x =>
    by_cases h : n = m
    · simp [h]
    · simp [h]

theorem incr_fanout_length (nodes : List aig_node) (n : Nat) :
    (incr_fanout nodes n).length = nodes.length := by
  simp [incr_fanout]

/-- The canonical order of two children. -/
theorem create_and_eq (ntk : aig_network) (a b : signal) :
    ∃ lo hi : signal, ((lo = a ∧ hi = b) ∨ (lo = b ∧ hi = a))
      ∧ ((∃ e ∈ ntk.hash, e.1 = (lo, hi) ∧ create_and ntk a b = (⟨e.2, false⟩, ntk))
        ∨ create_and ntk a b = (⟨ntk.nodes.length, false⟩,
            { ntk with
              nodes := incr_fanout (incr_fanout (ntk.nodes ++ [⟨[lo, hi], 0⟩]) lo.index) hi.index,
              hash := ((lo, hi), ntk.nodes.length) :: ntk.hash })) := by
  refine ⟨if a.index > b.index then b else a, if a.index > b.index then a else b, ?_, ?_⟩
  · by_cases h : a.index > b.index
    · right; simp [h]
    · left; simp [h]
  · unfold create_and
    simp only []
    cases hf : ntk.hash.find? (fun e => e.1 == (if a.index > b.index then b else a,
        if a.index > b.index then a else b)) with
    | some e =>
      left
      refine ⟨e, List.mem_of_find?_eq_some hf, ?_, rfl⟩
      have := List.find?_some hf
      simpa using this
    | none =>
      right
      rfl

theorem well_formed_add_gate (ntk : aig_network) (lo hi : signal)
    (hwf : well_formed ntk) (hlo : lo.index < ntk.nodes.length)
    (hhi : hi.index < ntk.nodes.length) :
    well_formed { ntk with
      nodes := incr_fanout (incr_fanout (ntk.nodes ++ [⟨[lo, hi], 0⟩]) lo.index) hi.index,
      hash := ((lo, hi), ntk.nodes.length) :: ntk.hash } := by
  obtain ⟨h1, h2, h3, h4, h5, h6, h7, h8⟩ := hwf
  have hk : kids { ntk with
      nodes := incr_fanout (incr_fanout (ntk.nodes ++ [⟨[lo, hi], 0⟩]) lo.index) hi.index,
      hash := ((lo, hi), ntk.nodes.length) :: ntk.hash } = kids ntk ++ [[lo, hi]] := by
    simp [kids, kids_incr_fanout]
  have hl : (incr_fanout (incr_fanout (ntk.nodes ++ [⟨[lo, hi], 0⟩]) lo.index) hi.index).length
      = ntk.nodes.length + 1 := by
    simp [incr_fanout_length]
  have hkl := kids_length ntk
  unfold well_formed
  rw [hk]
  simp only [hl]
  refine ⟨by omega, ?_, h3, h4, ?_, ?_, ?_, ?_⟩
  · rw [getD_append_of_lt _ _ _ _ (by omega)]; exact h2
  · intro n hn
    obtain ⟨hlt, hnil⟩ := h5 n hn
    exact ⟨by omega, by rw [getD_append_of_lt _ _ _ _ (by omega)]; exact hnil⟩
  · intro n hn hn0 hnin
    by_cases hlt : n < ntk.nodes.length
    · rw [getD_append_of_lt _ _ _ _ (by omega)]
      exact h6 n hlt hn0 hnin
    · have hn' : n = ntk.nodes.length := by omega
      have hget : (kids ntk ++ [[lo, hi]]).getD n [] = [lo, hi] := by
        rw [List.getD_eq_getElem?_getD, List.getElem?_append_right (by omega)]
        simp [hn', hkl]
      rw [hget]
      refine ⟨rfl, ?_⟩
      intro c hc
      simp only [List.mem_cons, List.mem_singleton, List.not_mem_nil, or_false] at hc
      rcases hc with rfl | rfl <;> omega
  · intro e he
    rw [List.mem_cons] at he
    rcases he with rfl | he
    · rw [List.getElem?_append_right (by simp; omega)]
      simp [hkl]
    · have := h7 e he
      rw [List.getElem?_append_left (lt_of_getElem?_some this)]
      exact this
  · intro f hf
    have := h8 f hf
    omega

theorem create_and_spec (ntk : aig_network) (a b : signal) (hwf : well_formed ntk)
    (ha : a.index < ntk.nodes.length) (hb : b.index < ntk.nodes.length) :
    well_formed (create_and ntk a b).2
    ∧ extends_to ntk (create_and ntk a b).2
    ∧ (create_and ntk a b).1.index < (create_and ntk a b).2.nodes.length
    ∧ ∀ p, signal_value (create_and ntk a b).2 p (create_and ntk a b).1
        = (signal_value ntk p a && signal_value ntk p b) := by
  obtain ⟨lo, hi, hlohi, hcase⟩ := create_and_eq ntk a b
  have hlo : lo.index < ntk.nodes.length := by rcases hlohi with ⟨rfl, rfl⟩ | ⟨rfl, rfl⟩ <;> assumption
  have hhi : hi.index < ntk.nodes.length := by rcases hlohi with ⟨rfl, rfl⟩ | ⟨rfl, rfl⟩ <;> assumption
  have hcomm : ∀ (n : aig_network) (p : List Bool),
      (signal_value n p lo && signal_value n p hi) = (signal_value n p a && signal_value n p b) := by
    intro n p
    rcases hlohi with ⟨rfl, rfl⟩ | ⟨rfl, rfl⟩
    · rfl
    · exact Bool.and_comm _ _
  rcases hcase with ⟨e, he, hkey, heq⟩ | heq
  · rw [heq]
    obtain ⟨h1, h2, h3, h4, h5, h6, h7, h8⟩ := hwf
    have hkid := h7 e he
    rw [hkey] at hkid
    have hidx : e.2 < ntk.nodes.length := by
      have := lt_of_getElem?_some hkid
      rwa [kids_length] at this
    have hgetD : (kids ntk).getD e.2 [] = [lo, hi] := getD_eq_of_getElem? hkid
    have hnin : e.2 ∉ ntk.inputs := by
      intro hin
      have := (h5 e.2 hin).2
      rw [hgetD] at this
      cases this
    have hne0 : e.2 ≠ 0 := by
      intro h0
      rw [h0, h2] at hgetD
      cases hgetD
    have htop := (h6 e.2 hidx hne0 hnin).2
    rw [hgetD] at htop
    refine ⟨⟨h1, h2, h3, h4, h5, h6, h7, h8⟩, extends_to_refl ntk, hidx, ?_⟩
    intro p
    rw [← hcomm]
    have := value_of_gate ntk p e.2 lo hi hidx hnin hgetD (htop lo (by simp)) (htop hi (by simp))
    unfold signal_value at this ⊢
    simp only [Bool.xor_false]
    exact this
  · have hwf' := well_formed_add_gate ntk lo hi hwf hlo hhi
    have hk : kids { ntk with
        nodes := incr_fanout (incr_fanout (ntk.nodes ++ [⟨[lo, hi], 0⟩]) lo.index) hi.index,
        hash := ((lo, hi), ntk.nodes.length) :: ntk.hash } = kids ntk ++ [[lo, hi]] := by
      simp [kids, kids_incr_fanout]
    have hl : (incr_fanout (incr_fanout (ntk.nodes ++ [⟨[lo, hi], 0⟩]) lo.index) hi.index).length
        = ntk.nodes.length + 1 := by
      simp [incr_fanout_length]
    generalize hn2 : ({ ntk with
        nodes := incr_fanout (incr_fanout (ntk.nodes ++ [⟨[lo, hi], 0⟩]) lo.index) hi.index,
        hash := ((lo, hi), ntk.nodes.length) :: ntk.hash } : aig_network) = ntk2 at heq hwf' hk
    have hin2 : ntk2.inputs = ntk.inputs := by rw [← hn2]
    have hout2 : ntk2.outputs = ntk.outputs := by rw [← hn2]
    have hl2 : ntk2.nodes.length = ntk.nodes.length + 1 := by rw [← hn2]; exact hl
    rw [heq]
    have hext : extends_to ntk ntk2 := ⟨hin2, hout2, [[lo, hi]], hk⟩
    refine ⟨hwf', hext, by rw [hl2]; exact Nat.lt_succ_self _, ?_⟩
    intro p
    rw [← hcomm ntk p]
    obtain ⟨h1, h2, h3, h4, h5, h6, h7, h8⟩ := hwf
    have hnin : ntk.nodes.length ∉ ntk2.inputs := by
      rw [hin2]
      intro hin
      have := (h5 _ hin).1
      omega
    have hgetD : (kids ntk2).getD ntk.nodes.length [] = [lo, hi] := by
      rw [hk, List.getD_eq_getElem?_getD, List.getElem?_append_right (by rw [kids_length])]
      simp [kids_length]
    have hv := value_of_gate ntk2 p ntk.nodes.length lo hi (by rw [hl2]; omega) hnin hgetD
      hlo hhi
    rw [extends_to_signal hext p lo hlo, extends_to_signal hext p hi hhi] at hv
    unfold signal_value at hv ⊢
    simp only [Bool.xor_false]
    exact hv

theorem create_or_spec (ntk : aig_network) (a b : signal) (hwf : well_formed ntk)
    (ha : a.index < ntk.nodes.length) (hb : b.index < ntk.nodes.length) :
    well_formed (create_or ntk a b).2
    ∧ extends_to ntk (create_or ntk a b).2
    ∧ (create_or ntk a b).1.index < (create_or ntk a b).2.nodes.length
    ∧ ∀ p, signal_value (create_or ntk a b).2 p (create_or ntk a b).1
        = (signal_value ntk p a || signal_value ntk p b) := by
  obtain ⟨h1, h2, h3, h4⟩ := create_and_spec ntk a.not b.not hwf ha hb
  refine ⟨h1, h2, h3, ?_⟩
  intro p
  have e1 : (create_or ntk a b).1 = (create_and ntk a.not b.not).1.not := rfl
  have e2 : (create_or ntk a b).2 = (create_and ntk a.not b.not).2 := rfl
  rw [e1, e2, signal_value_not, h4 p, signal_value_not, signal_value_not]
  cases signal_value ntk p a <;> cases signal_value ntk p b <;> rfl

/-! ## The network parse_excdc builds -/

theorem create_pis_eq (n : Nat) :
    detail.create_pis aig_network.empty n = (with_pis n, pi_signals n) := by
  unfold detail.create_pis
  induction n with
  | zero => rfl
  | succ n ih =>
    rw [List.range_succ, List.foldl_append, ih]
    simp only [List.foldl_cons, List.foldl_nil, create_pi, with_pis, pi_signals,
      List.length_replicate]
    rw [List.range'_concat, List.map_append]
    simp only [List.map_cons, List.map_nil, Nat.one_mul, Prod.mk.injEq,
      aig_network.mk.injEq, and_true, true_and]
    refine ⟨⟨?_, by rw [Nat.add_comm n 1]⟩, by rw [Nat.add_comm n 1]⟩
    rw [← List.replicate_succ']

theorem kids_with_pis (n : Nat) : kids (with_pis n) = List.replicate (n + 1) [] := by
  simp [kids, with_pis]

theorem getD_replicate_nil (n m : Nat) :
    (List.replicate n ([] : List signal)).getD m [] = [] := by
  rw [List.getD_eq_getElem?_getD]
  by_cases h : m < n
  · rw [List.getElem?_eq_getElem (by simpa using h)]
    simp
  · rw [List.getElem?_eq_none (by simpa using h)]
    rfl

theorem well_formed_with_pis (n : Nat) : well_formed (with_pis n) := by
  unfold well_formed
  rw [kids_with_pis]
  simp only [with_pis, List.length_replicate, getD_replicate_nil, List.mem_range', Nat.one_mul,
    List.not_mem_nil, false_implies, implies_true, and_true]
  refine ⟨by omega, trivial, ?_, List.nodup_range' 1 n, ?_, ?_⟩
  · rintro ⟨i, _, hi⟩
    omega
  · rintro m ⟨i, hi, rfl⟩
    omega
  · intro m hm hm0 hnin
    exfalso
    apply hnin
    exact ⟨m - 1, by omega, by omega⟩

theorem pis_ok_with_pis (n : Nat) : pis_ok (with_pis n) (pi_signals n) n := by
  intro i hi
  have hget : (pi_signals n).getD i default = ⟨i + 1, false⟩ := by
    unfold pi_signals
    rw [List.getD_eq_getElem?_getD, List.getElem?_map,
      List.getElem?_eq_getElem (by simpa using hi)]
    simp [List.getElem_range']
    omega
  rw [hget]
  have hlen : (with_pis n).nodes.length = n + 1 := by simp [with_pis]
  refine ⟨by rw [hlen]; simp; omega, ?_⟩
  intro p
  unfold signal_value
  simp only [Bool.xor_false]
  have hmem : i + 1 ∈ (with_pis n).inputs := by
    simp only [with_pis, List.mem_range']
    exact ⟨i, hi, by omega⟩
  rw [value_of_input _ p (i + 1) (by rw [hlen]; omega) hmem]
  congr 1
  have hnd : (List.range' 1 n).Nodup := List.nodup_range' 1 n
  have hi' : i < (List.range' 1 n).length := by simpa using hi
  have hel : (List.range' 1 n)[i] = i + 1 := by
    rw [List.getElem_range']
    omega
  have := List.indexOf_getElem hnd i hi'
  rw [hel] at this
  exact this

theorem pis_ok_extends {n1 n2 : aig_network} {pis : List signal} {n : Nat}
    (h : extends_to n1 n2) (hp : pis_ok n1 pis n) : pis_ok n2 pis n := by
  intro i hi
  obtain ⟨hv, hs⟩ := hp i hi
  refine ⟨lt_of_lt_of_le hv (extends_to_length h), ?_⟩
  intro p
  rw [extends_to_signal h p _ hv]
  exact hs p

theorem term_step_spec (pis : List signal) (str : List Char) (n i : Nat) (hi : i < n)
    (ntk : aig_network) (top : Option signal) (hwf : well_formed ntk)
    (hpis : pis_ok ntk pis n) (htop : ∀ t, top = some t → t.index < ntk.nodes.length) :
    well_formed (detail.term_step pis str (ntk, top) i).1
    ∧ extends_to ntk (detail.term_step pis str (ntk, top) i).1
    ∧ (∀ t, (detail.term_step pis str (ntk, top) i).2 = some t →
        t.index < (detail.term_step pis str (ntk, top) i).1.nodes.length)
    ∧ (detail.term_step pis str (ntk, top) i).2.isSome
        = (top.isSome || is_literal (str.getD i ' '))
    ∧ ∀ p, top_value (detail.term_step pis str (ntk, top) i).1 p
          (detail.term_step pis str (ntk, top) i).2
        = (top_value ntk p top && literal_holds (str.getD i ' ') (p.getD i false)) := by
  obtain ⟨hpv, hps⟩ := hpis i hi
  unfold detail.term_step
  generalize str.getD i ' ' = c
  generalize pis.getD i default = s at hpv hps
  by_cases h0 : c = '0'
  · subst h0
    simp only [if_true]
    cases top with
    | none =>
      refine ⟨hwf, extends_to_refl _, ?_, rfl, ?_⟩
      · intro t ht
        simp only [Option.some.injEq] at ht
        rw [← ht]
        exact hpv
      · intro p
        have hb := hps p
        generalize p.getD i false = b at hb
        simp only [top_value, literal_holds, signal_value_not, hb, if_true, Bool.true_and]
    | some t =>
      have hnv : s.not.index < ntk.nodes.length := hpv
      obtain ⟨c1, c2, c3, c4⟩ := create_and_spec ntk t s.not hwf (htop t rfl) hnv
      refine ⟨c1, c2, ?_, rfl, ?_⟩
      · intro t' ht'
        simp only [Option.some.injEq] at ht'
        rw [← ht']
        exact c3
      · intro p
        have hb := hps p
        generalize p.getD i false = b at hb
        simp only [top_value, literal_holds, c4 p, signal_value_not, hb, if_true]
  · by_cases h1 : c = '1'
    · subst h1
      have h10 : ¬ ('1' = '0') := by decide
      simp only [h10, if_true, if_false]
      cases top with
      | none =>
        refine ⟨hwf, extends_to_refl _, ?_, rfl, ?_⟩
        · intro t ht
          simp only [Option.some.injEq] at ht
          rw [← ht]
          exact hpv
        · intro p
          have hb := hps p
          generalize p.getD i false = b at hb
          simp only [top_value, literal_holds, hb, h10, if_true, if_false, Bool.true_and]
      | some t =>
        obtain ⟨c1, c2, c3, c4⟩ := create_and_spec ntk t s hwf (htop t rfl) hpv
        refine ⟨c1, c2, ?_, rfl, ?_⟩
        · intro t' ht'
          simp only [Option.some.injEq] at ht'
          rw [← ht']
          exact c3
        · intro p
          have hb := hps p
          generalize p.getD i false = b at hb
          simp only [top_value, literal_holds, c4 p, hb, h10, if_true, if_false]
    · simp only [h0, h1, if_false]
      refine ⟨hwf, extends_to_refl _, htop, ?_, ?_⟩
      · simp only [is_literal, h0, h1, decide_False, Bool.or_false]
      · intro p
        simp only [literal_holds, h0, h1, if_false, Bool.and_true]

theorem build_term_spec (pis : List signal) (str : List Char) (n : Nat)
    (ntk : aig_network) (hwf : well_formed ntk) (hpis : pis_ok ntk pis n)
    (m : Nat) (hm : m ≤ n) :
    well_formed ((List.range m).foldl (detail.term_step pis str) (ntk, none)).1
    ∧ extends_to ntk ((List.range m).foldl (detail.term_step pis str) (ntk, none)).1
    ∧ (∀ t, ((List.range m).foldl (detail.term_step pis str) (ntk, none)).2 = some t →
        t.index < ((List.range m).foldl (detail.term_step pis str) (ntk, none)).1.nodes.length)
    ∧ ((List.range m).foldl (detail.term_step pis str) (ntk, none)).2.isSome
        = literal_upto str m
    ∧ ∀ p, top_value ((List.range m).foldl (detail.term_step pis str) (ntk, none)).1 p
          ((List.range m).foldl (detail.term_step pis str) (ntk, none)).2
        = product_upto str p m := by
  induction m with
  | zero =>
    refine ⟨hwf, extends_to_refl _, ?_, rfl, fun p => rfl⟩
    intro t ht
    cases ht
  | succ m ih =>
    obtain ⟨i1, i2, i3, i4, i5⟩ := ih (by omega)
    rw [List.range_succ, List.foldl_append]
    simp only [List.foldl_cons, List.foldl_nil]
    generalize (List.range m).foldl (detail.term_step pis str) (ntk, none) = st at i1 i2 i3 i4 i5
    obtain ⟨ntk1, top1⟩ := st
    obtain ⟨s1, s2, s3, s4, s5⟩ := term_step_spec pis str n m (by omega) ntk1 top1 i1
      (pis_ok_extends i2 hpis) i3
    refine ⟨s1, extends_to_trans i2 s2, s3, ?_, ?_⟩
    · rw [s4]
      simp only at i4
      rw [i4]
      simp [literal_upto, List.range_succ, List.any_append]
    · intro p
      rw [s5 p]
      have := i5 p
      simp only at this
      rw [this]
      simp [product_upto, List.range_succ, List.all_append]

theorem parse_rows_spec (pis : List signal) (n : Nat) (lines : List (List Char)) :
    ∀ (ntk : aig_network) (terms : List signal), well_formed ntk → pis_ok ntk pis n →
      (∀ t ∈ terms, t.index < ntk.nodes.length) →
      (∀ l ∈ lines.takeWhile (fun l => l.take 4 ≠ ['.', 'e', 'n', 'd']), row_ok n l = true) →
      ∃ ntk2 terms2, detail.parse_rows pis n lines ntk terms = some (ntk2, terms2)
        ∧ well_formed ntk2 ∧ extends_to ntk ntk2
        ∧ (∀ t ∈ terms2, t.index < ntk2.nodes.length)
        ∧ ∀ p, terms2.map (signal_value ntk2 p)
            = terms.map (signal_value ntk p)
              ++ (((lines.takeWhile (fun l => l.take 4 ≠ ['.', 'e', 'n', 'd'])).map
                    detail.bit_field).filter has_literal).map (fun str => row_product str p) := by
  induction lines with
  | nil =>
    intro ntk terms hwf _ hterms _
    exact ⟨ntk, terms, rfl, hwf, extends_to_refl _, hterms, fun p => by simp⟩
  | cons line rest ih =>
    intro ntk terms hwf hpis hterms hrows
    by_cases hend : line.take 4 = ['.', 'e', 'n', 'd']
    · refine ⟨ntk, terms, ?_, hwf, extends_to_refl _, hterms, ?_⟩
      · rw [detail.parse_rows, if_pos hend]
      · intro p
        simp [List.takeWhile_cons, hend]
    · have htw : (line :: rest).takeWhile (fun l => l.take 4 ≠ ['.', 'e', 'n', 'd'])
          = line :: rest.takeWhile (fun l => l.take 4 ≠ ['.', 'e', 'n', 'd']) := by
        rw [List.takeWhile_cons]
        simp [hend]
      rw [htw] at hrows ⊢
      have hrow := hrows line (List.mem_cons_self _ _)
      simp only [row_ok, Bool.and_eq_true, decide_eq_true_eq] at hrow
      obtain ⟨hlen, hout⟩ := hrow
      obtain ⟨b1, b2, b3, b4, b5⟩ := build_term_spec pis (detail.bit_field line) n ntk hwf hpis
        n (le_refl n)
      have hfold : (List.range n).foldl (detail.term_step pis (detail.bit_field line)) (ntk, none)
          = detail.build_term ntk pis (detail.bit_field line) n := rfl
      rw [hfold] at b1 b2 b3 b4 b5
      have hvalid1 : ∀ t ∈ (match (detail.build_term ntk pis (detail.bit_field line) n).2 with
            | some top => terms ++ [top]
            | none => terms),
          t.index < (detail.build_term ntk pis (detail.bit_field line) n).1.nodes.length := by
        intro t ht
        cases hr : (detail.build_term ntk pis (detail.bit_field line) n).2 with
        | none =>
          rw [hr] at ht
          exact lt_of_lt_of_le (hterms t ht) (extends_to_length b2)
        | some top =>
          rw [hr] at ht
          simp only [List.mem_append, List.mem_singleton] at ht
          rcases ht with ht | rfl
          · exact lt_of_lt_of_le (hterms t ht) (extends_to_length b2)
          · exact b3 t hr
      obtain ⟨ntk2, terms2, e1, e2, e3, e4, e5⟩ := ih
        (detail.build_term ntk pis (detail.bit_field line) n).1 _ b1 (pis_ok_extends b2 hpis)
        hvalid1 (fun l hl => hrows l (List.mem_cons_of_mem _ hl))
      refine ⟨ntk2, terms2, ?_, e2, extends_to_trans b2 e3, e4, ?_⟩
      · rw [detail.parse_rows, if_neg hend, if_neg (by simpa using hlen)]
        simp only []
        rw [if_neg (by simpa using hout)]
        exact e1
      · intro p
        rw [e5 p]
        have hold : terms.map (signal_value
            (detail.build_term ntk pis (detail.bit_field line) n).1 p)
            = terms.map (signal_value ntk p) := by
          apply List.map_congr_left
          intro t ht
          exact extends_to_signal b2 p t (hterms t ht)
        have hlit : has_literal (detail.bit_field line)
            = (detail.build_term ntk pis (detail.bit_field line) n).2.isSome := by
          rw [b4, has_literal, hlen]
        have hrp : product_upto (detail.bit_field line) p n
            = row_product (detail.bit_field line) p := by
          rw [row_product, hlen]
        have hprod := (b5 p).trans hrp
        simp only [List.map_cons, List.filter_cons]
        cases hr : (detail.build_term ntk pis (detail.bit_field line) n).2 with
        | none =>
          rw [hr] at hlit
          simp only [Option.isSome_none] at hlit
          simp only [hlit, hold]
          rfl
        | some top =>
          rw [hr] at hlit hprod
          simp only [Option.isSome_some] at hlit
          simp only [hlit, if_true, List.map_append, List.map_cons, List.map_nil, hold,
            List.append_assoc, List.singleton_append]
          simp only [top_value] at hprod
          rw [hprod]

theorem any_eq_any_map_id {α : Type} (l : List α) (f : α → Bool) :
    l.any f = (l.map f).any id := by
  induction l with
  | nil => rfl
  | cons x rest ih => simp only [List.any_cons, List.map_cons, ih, id]

theorem or_terms_spec (terms : List signal) :
    ∀ (ntk : aig_network) (top : signal), well_formed ntk → top.index < ntk.nodes.length →
      (∀ t ∈ terms, t.index < ntk.nodes.length) →
      well_formed (detail.or_terms ntk top terms).1
      ∧ extends_to ntk (detail.or_terms ntk top terms).1
      ∧ (detail.or_terms ntk top terms).2.index < (detail.or_terms ntk top terms).1.nodes.length
      ∧ ∀ p, signal_value (detail.or_terms ntk top terms).1 p (detail.or_terms ntk top terms).2
          = (signal_value ntk p top || (terms.map (signal_value ntk p)).any id) := by
  induction terms with
  | nil =>
    intro ntk top hwf htop _
    exact ⟨hwf, extends_to_refl _, htop, fun p => by simp [detail.or_terms]⟩
  | cons t rest ih =>
    intro ntk top hwf htop hterms
    obtain ⟨c1, c2, c3, c4⟩ := create_or_spec ntk top t hwf htop (hterms t (List.mem_cons_self _ _))
    have hrest : ∀ u ∈ rest, u.index < (create_or ntk top t).2.nodes.length := fun u hu =>
      lt_of_lt_of_le (hterms u (List.mem_cons_of_mem _ hu)) (extends_to_length c2)
    obtain ⟨i1, i2, i3, i4⟩ := ih (create_or ntk top t).2 (create_or ntk top t).1 c1 c3 hrest
    have hstep : detail.or_terms ntk top (t :: rest)
        = detail.or_terms (create_or ntk top t).2 (create_or ntk top t).1 rest := rfl
    rw [hstep]
    refine ⟨i1, extends_to_trans c2 i2, i3, ?_⟩
    intro p
    rw [i4 p, c4 p]
    have hold : rest.map (signal_value (create_or ntk top t).2 p)
        = rest.map (signal_value ntk p) := by
      apply List.map_congr_left
      intro u hu
      exact extends_to_signal c2 p u (hterms u (List.mem_cons_of_mem _ hu))
    rw [hold]
    simp [Bool.or_assoc]

theorem node_values_create_po (ntk : aig_network) (f : signal) (p : List Bool) :
    node_values (create_po ntk f) p = node_values ntk p := by
  unfold node_values create_po
  simp only [kids_incr_fanout]

theorem well_formed_create_po (ntk : aig_network) (f : signal) (hwf : well_formed ntk)
    (hf : f.index < ntk.nodes.length) : well_formed (create_po ntk f) := by
  obtain ⟨h1, h2, h3, h4, h5, h6, h7, h8⟩ := hwf
  have hk : kids (create_po ntk f) = kids ntk := by
    simp [kids, create_po, kids_incr_fanout]
  have hl : (create_po ntk f).nodes.length = ntk.nodes.length := by
    simp [create_po, incr_fanout_length]
  unfold well_formed
  rw [hk, hl]
  refine ⟨h1, h2, h3, h4, h5, h6, h7, ?_⟩
  intro g hg
  have : g ∈ ntk.outputs ++ [f] := hg
  rw [List.mem_append, List.mem_singleton] at this
  rcases this with h | rfl
  · exact h8 g h
  · exact hf

/-- What `parse_excdc` builds in a fresh network from a description whose data rows
have the format and of which one at least holds a literal. -/
theorem parse_excdc_spec (n : Nat) (lines : List String)
    (hrows : ∀ l ∈ data_lines lines, row_ok n l = true) (hlit : term_rows lines ≠ []) :
    ∃ cdc, detail.parse_excdc aig_network.empty lines n = some cdc
      ∧ well_formed cdc ∧ cdc.inputs = List.range' 1 n ∧ cdc.outputs.length = 1
      ∧ ∀ p, simulate cdc p = [excdc_function (term_rows lines) p] := by
  obtain ⟨ntk2, terms2, e1, e2, e3, e4, e5⟩ := parse_rows_spec (pi_signals n) n
    ((lines.drop 4).map String.toList) (with_pis n) [] (well_formed_with_pis n)
    (pis_ok_with_pis n) (fun t ht => by cases ht) hrows
  have hterms : ∀ p, terms2.map (signal_value ntk2 p)
      = (term_rows lines).map (fun str => row_product str p) := by
    intro p
    rw [e5 p]
    rfl
  cases hts : terms2 with
  | nil =>
    exfalso
    have := hterms []
    rw [hts] at this
    simp only [List.map_nil] at this
    exact hlit (List.map_eq_nil_iff.mp this.symm)
  | cons t0 rest =>
    rw [hts] at e4 hterms e1
    obtain ⟨o1, o2, o3, o4⟩ := or_terms_spec rest ntk2 t0 e2 (e4 t0 (List.mem_cons_self _ _))
      (fun u hu => e4 u (List.mem_cons_of_mem _ hu))
    have hpo : detail.parse_excdc aig_network.empty lines n
        = some (create_po (detail.or_terms ntk2 t0 rest).1 (detail.or_terms ntk2 t0 rest).2.not) := by
      unfold detail.parse_excdc
      simp only [create_pis_eq, e1]
    have hin : (detail.or_terms ntk2 t0 rest).1.inputs = List.range' 1 n := by
      rw [o2.1, e3.1]
      rfl
    have hout : (detail.or_terms ntk2 t0 rest).1.outputs = [] := by
      rw [o2.2.1, e3.2.1]
      rfl
    refine ⟨_, hpo, well_formed_create_po _ _ o1 o3, hin, ?_, ?_⟩
    · show ((detail.or_terms ntk2 t0 rest).1.outputs ++ [_]).length = 1
      rw [hout]
      rfl
    · intro p
      unfold simulate
      have houts : (create_po (detail.or_terms ntk2 t0 rest).1
          (detail.or_terms ntk2 t0 rest).2.not).outputs = [(detail.or_terms ntk2 t0 rest).2.not] := by
        show (detail.or_terms ntk2 t0 rest).1.outputs ++ [_] = _
        rw [hout]
        rfl
      rw [houts]
      simp only [List.map_cons, List.map_nil, List.cons.injEq, and_true]
      have hsv : signal_value (create_po (detail.or_terms ntk2 t0 rest).1
          (detail.or_terms ntk2 t0 rest).2.not) p (detail.or_terms ntk2 t0 rest).2.not
          = signal_value (detail.or_terms ntk2 t0 rest).1 p (detail.or_terms ntk2 t0 rest).2.not := by
        unfold signal_value
        rw [node_values_create_po]
      rw [hsv, signal_value_not, o4 p]
      have h := hterms p
      have hany : (term_rows lines).any (fun str => row_product str p)
          = ((term_rows lines).map (fun str => row_product str p)).any id :=
        any_eq_any_map_id _ _
      unfold excdc_function
      rw [hany, ← h]
      simp

theorem from_file_spec (ntk : aig_network) (lines : List String)
    (hrows : ∀ l ∈ data_lines lines, row_ok ntk.num_pis l = true)
    (hlit : term_rows lines ≠ []) :
    ∃ view, dont_care_view.from_file ntk lines = some view ∧ view.ntk = ntk
      ∧ well_formed view._excdc
      ∧ num_pis view._excdc = num_pis ntk ∧ num_pos view._excdc = 1
      ∧ ∀ p, p.length = ntk.num_pis →
          dont_care_view.pattern_is_EXCDC view p = some (excdc_function (term_rows lines) p) := by
  obtain ⟨cdc, h1, h2, h3, h4, h5⟩ := parse_excdc_spec ntk.num_pis lines hrows hlit
  refine ⟨{ ntk := ntk, _excdc := cdc }, ?_, rfl, h2, ?_, h4, ?_⟩
  · unfold dont_care_view.from_file
    rw [h1]
    rfl
  · show cdc.inputs.length = _
    rw [h3]
    simp
  · intro p hp
    unfold dont_care_view.pattern_is_EXCDC
    simp only [hp, ne_eq, not_true_eq_false, if_false, h5 p]
    rfl

/-! ## The function of the view built from a file -/

theorem row_product_of_agrees (str : List Char) (p : List Bool) (h : agrees str p) :
    row_product str p = true := by
  unfold row_product product_upto
  rw [List.all_eq_true]
  intro i hi
  obtain ⟨h0, h1⟩ := h i (List.mem_range.mp hi)
  unfold literal_holds
  by_cases c0 : str.getD i ' ' = '0'
  · rw [if_pos c0, h0 c0]
    rfl
  · rw [if_neg c0]
    by_cases c1 : str.getD i ' ' = '1'
    · rw [if_pos c1, h1 c1]
    · rw [if_neg c1]

theorem lit_true_not (α : Nat → Bool) (l : lit_type) :
    lit_true α (lit_not l) = !(lit_true α l) := by
  unfold lit_true lit_not
  cases α l.var <;> cases l.negative <;> rfl

theorem lit_true_not_cond (α : Nat → Bool) (l : lit_type) (c : Bool) :
    lit_true α (lit_not_cond l c) = xor (lit_true α l) c := by
  unfold lit_not_cond
  cases c
  · simp
  · simp [lit_true_not]

theorem lit_not_cond_var (l : lit_type) (c : Bool) : (lit_not_cond l c).var = l.var := by
  unfold lit_not_cond lit_not
  cases c <;> rfl

theorem lit_not_not (l : lit_type) : lit_not (lit_not l) = l := by
  cases l with
  | mk v n => simp [lit_not]

theorem on_and_true (α : Nat → Bool) (c a b : lit_type) :
    (∀ cl ∈ detail.on_and c a b, clause_true α cl = true)
      ↔ lit_true α c = (lit_true α a && lit_true α b) := by
  simp only [detail.on_and, List.mem_cons, List.mem_singleton, List.not_mem_nil, or_false,
    forall_eq_or_imp, forall_eq, clause_true, List.any_cons, List.any_nil, Bool.or_false,
    lit_true_not]
  cases lit_true α c <;> cases lit_true α a <;> cases lit_true α b <;> simp

theorem lit_true_update (α : Nat → Bool) (v : Nat) (x : Bool) (l : lit_type)
    (h : l.var < v) : lit_true (Function.update α v x) l = lit_true α l := by
  unfold lit_true
  rw [Function.update_noteq (by omega)]

theorem clause_true_update (α : Nat → Bool) (v : Nat) (x : Bool) (c : List lit_type)
    (h : ∀ l ∈ c, l.var < v) : clause_true (Function.update α v x) c = clause_true α c := by
  unfold clause_true
  induction c with
  | nil => rfl
  | cons l rest ih =>
    simp only [List.any_cons]
    rw [lit_true_update α v x l (h l (List.mem_cons_self _ _)),
      ih (fun l' hl' => h l' (List.mem_cons_of_mem _ hl'))]

theorem enum_fold_spec (l : List Nat) (hnd : l.Nodup) :
    ∀ (k : Nat) (lits : List lit_type), (∀ n ∈ l, n < lits.length) →
      ((l.enumFrom k).foldl (fun lits e => lits.set e.2 ⟨e.1 + 1, false⟩) lits).length
          = lits.length
      ∧ ∀ m, ((l.enumFrom k).foldl (fun lits e => lits.set e.2 ⟨e.1 + 1, false⟩) lits).getD m
            default
          = if m ∈ l then ⟨k + l.indexOf m + 1, false⟩ else lits.getD m default := by
  induction l with
  | nil =>
    intro k lits _
    exact ⟨rfl, fun m => by simp⟩
  | cons x rest ih =>
    intro k lits hlt
    rw [List.nodup_cons] at hnd
    obtain ⟨hx, hrest⟩ := hnd
    have hxl : x < lits.length := hlt x (List.mem_cons_self _ _)
    obtain ⟨i1, i2⟩ := ih hrest (k + 1) (lits.set x ⟨k + 1, false⟩)
      (fun n hn => by rw [List.length_set]; exact hlt n (List.mem_cons_of_mem _ hn))
    simp only [List.enumFrom_cons, List.foldl_cons]
    refine ⟨by rw [i1, List.length_set], ?_⟩
    intro m
    rw [i2 m]
    by_cases hmx : m = x
    · subst hmx
      rw [if_neg hx, if_pos (List.mem_cons_self _ _), List.getD_eq_getElem?_getD,
        List.getElem?_set, if_pos rfl, if_pos hxl]
      simp
    · have hxm : ¬ x = m := fun e => hmx e.symm
      by_cases hmr : m ∈ rest
      · rw [if_pos hmr, if_pos (List.mem_cons_of_mem _ hmr), List.indexOf_cons]
        have : (x == m) = false := by simpa using hxm
        simp only [this, cond_false]
        congr 1
        omega
      · rw [if_neg hmr, if_neg (by simp [hmx, hmr]), List.getD_eq_getElem?_getD,
          List.getElem?_set, if_neg hxm, ← List.getD_eq_getElem?_getD]

theorem input_literals_spec (excdc : aig_network) (hwf : well_formed excdc) :
    (dont_care_view.input_literals excdc).length = excdc.nodes.length
    ∧ (dont_care_view.input_literals excdc).getD 0 default = ⟨0, false⟩
    ∧ ∀ m ∈ excdc.inputs, (dont_care_view.input_literals excdc).getD m default
        = ⟨excdc.inputs.indexOf m + 1, false⟩ := by
  obtain ⟨h1, h2, h3, h4, h5, h6, h7, h8⟩ := hwf
  have hl0 : ((List.replicate excdc.size (default : lit_type)).set 0 ⟨0, false⟩).length
      = excdc.nodes.length := by
    simp [aig_network.size]
  obtain ⟨e1, e2⟩ := enum_fold_spec excdc.inputs h4 0
    ((List.replicate excdc.size (default : lit_type)).set 0 ⟨0, false⟩)
    (fun n hn => by rw [hl0]; exact (h5 n hn).1)
  have hdef : dont_care_view.input_literals excdc
      = (excdc.inputs.enumFrom 0).foldl (fun lits e => lits.set e.2 ⟨e.1 + 1, false⟩)
          ((List.replicate excdc.size (default : lit_type)).set 0 ⟨0, false⟩) := by
    unfold dont_care_view.input_literals
    simp [get_node, get_constant, List.enum]
  rw [hdef]
  refine ⟨by rw [e1, hl0], ?_, ?_⟩
  · rw [e2 0, if_neg h3, List.getD_eq_getElem?_getD, List.getElem?_set, if_pos rfl,
      if_pos (by simp [aig_network.size]; exact h1)]
    rfl
  · intro m hm
    rw [e2 m, if_pos hm]
    simp

theorem value_of_const (ntk : aig_network) (hwf : well_formed ntk) (p : List Bool) :
    (node_values ntk p).getD 0 false = false := by
  obtain ⟨h1, h2, h3, _⟩ := hwf
  rw [node_values_getD ntk p 0 h1, h2]
  unfold node_value
  rw [if_neg h3]

theorem indexOf_lt_of_mem {l : List Nat} {m : Nat} (h : m ∈ l) : l.indexOf m < l.length :=
  List.indexOf_lt_length.mpr h

theorem encode_inv_start (excdc : aig_network) (hwf : well_formed excdc) (p : List Bool)
    (v0 : Nat) (hv0 : excdc.inputs.length + 1 ≤ v0) :
    encode_inv excdc p v0 0 (dont_care_view.input_literals excdc) v0 [] := by
  obtain ⟨l1, l2, l3⟩ := input_literals_spec excdc hwf
  have hval : ∀ α, fixes_inputs excdc.inputs.length p α →
      ∀ m, m < excdc.nodes.length → has_literal_at excdc 0 m →
        lit_true α ((dont_care_view.input_literals excdc).getD m default)
          = (node_values excdc p).getD m false := by
    intro α hα m hm hdef
    rcases hdef with h0 | hin | hlt
    · subst h0
      rw [l2, value_of_const excdc hwf p]
      unfold lit_true
      simp [hα.1]
    · rw [l3 m hin, value_of_input excdc p m hm hin]
      unfold lit_true
      simp only [Bool.xor_false]
      exact hα.2 _ (indexOf_lt_of_mem hin)
    · omega
  refine ⟨l1, le_refl _, ?_, ?_, ?_, ?_⟩
  · intro m hm hdef
    rcases hdef with h0 | hin | hlt
    · subst h0
      rw [l2]
      show 0 < v0
      omega
    · rw [l3 m hin]
      have := indexOf_lt_of_mem hin
      show excdc.inputs.indexOf m + 1 < v0
      omega
    · omega
  · intro c hc
    cases hc
  · intro α hα _
    exact hval α hα
  · refine ⟨fun v => if v = 0 then false else p.getD (v - 1) false, ⟨rfl, ?_⟩, ?_, ?_⟩
    · intro i _
      simp
    · intro c hc
      cases hc
    · exact hval _ ⟨rfl, fun i _ => by simp⟩

theorem has_literal_at_succ_of_not_gate (excdc : aig_network) (k m : Nat)
    (hk : is_gate excdc k = false) :
    has_literal_at excdc (k + 1) m ↔ has_literal_at excdc k m := by
  have hk' : k = 0 ∨ k ∈ excdc.inputs := by
    simp only [is_gate, is_pi, Bool.and_eq_false_iff, decide_eq_false_iff_not, ne_eq,
      not_not, Bool.not_eq_false', decide_eq_true_eq] at hk
    exact hk
  unfold has_literal_at
  constructor
  · rintro (h | h | h)
    · exact Or.inl h
    · exact Or.inr (Or.inl h)
    · by_cases hmk : m = k
      · subst hmk
        rcases hk' with h0 | hin
        · exact Or.inl h0
        · exact Or.inr (Or.inl hin)
      · exact Or.inr (Or.inr (by omega))
  · rintro (h | h | h)
    · exact Or.inl h
    · exact Or.inr (Or.inl h)
    · exact Or.inr (Or.inr (by omega))

theorem foldl_add_clause (s : solver_t) (cs : List (List lit_type)) :
    (cs.foldl solver_t.add_clause s).clauses = s.clauses ++ cs
    ∧ (cs.foldl solver_t.add_clause s).num_variables = s.num_variables := by
  induction cs generalizing s with
  | nil => simp
  | cons c rest ih =>
    obtain ⟨i1, i2⟩ := ih (s.add_clause c)
    simp only [List.foldl_cons]
    rw [i1, i2]
    simp [solver_t.add_clause]

theorem gate_step_gate (excdc : aig_network) (hwf : well_formed excdc) (k : Nat)
    (hk : k < excdc.nodes.length) (hg : is_gate excdc k = true)
    (lits : List lit_type) (solver : solver_t) :
    ∃ a b : signal, (kids excdc).getD k [] = [a, b] ∧ a.index < k ∧ b.index < k
      ∧ k ≠ 0 ∧ k ∉ excdc.inputs
      ∧ (dont_care_view.gate_step excdc (lits, solver) k).1
          = lits.set k ⟨solver.num_variables, false⟩
      ∧ (dont_care_view.gate_step excdc (lits, solver) k).2.num_variables
          = solver.num_variables + 1
      ∧ (dont_care_view.gate_step excdc (lits, solver) k).2.clauses
          = solver.clauses ++ detail.on_and ⟨solver.num_variables, false⟩
              (lit_not_cond (lits.getD a.index default) a.complement)
              (lit_not_cond (lits.getD b.index default) b.complement) := by
  obtain ⟨h1, h2, h3, h4, h5, h6, h7, h8⟩ := hwf
  have hg' : k ≠ 0 ∧ k ∉ excdc.inputs := by
    simp only [is_gate, is_pi, Bool.and_eq_true, decide_eq_true_eq, ne_eq,
      Bool.not_eq_true', decide_eq_false_iff_not] at hg
    exact hg
  obtain ⟨hlen, htop⟩ := h6 k hk hg'.1 hg'.2
  obtain ⟨a, b, hab⟩ : ∃ a b, (kids excdc).getD k [] = [a, b] := by
    match hc : (kids excdc).getD k [], hlen with
    | [a, b], _ => exact ⟨a, b, rfl⟩
  have hfan : foreach_fanin excdc k = [a, b] := by
    unfold foreach_fanin
    rw [if_pos hg]
    have : (excdc.nodes.getD k default).children = (kids excdc).getD k [] := by
      unfold kids
      rw [List.getD_eq_getElem?_getD, List.getD_eq_getElem?_getD, List.getElem?_map]
      cases excdc.nodes[k]? <;> rfl
    rw [this, hab]
  rw [hab] at htop
  refine ⟨a, b, hab, htop a (by simp), htop b (by simp), hg'.1, hg'.2, ?_, ?_, ?_⟩
  · unfold dont_care_view.gate_step
    simp only [hg, is_and, if_true, solver_t.add_variable]
  · unfold dont_care_view.gate_step
    simp only [hg, is_and, if_true, solver_t.add_variable]
    rw [(foldl_add_clause _ _).2]
  · unfold dont_care_view.gate_step
    simp only [hg, is_and, if_true, solver_t.add_variable, hfan]
    rw [(foldl_add_clause _ _).1]
    simp [get_node, is_complemented]

theorem getD_set_ne (lits : List lit_type) (k m : Nat) (x : lit_type) (h : m ≠ k) :
    (lits.set k x).getD m default = lits.getD m default := by
  rw [List.getD_eq_getElem?_getD, List.getD_eq_getElem?_getD, List.getElem?_set,
    if_neg (fun e => h e.symm)]

theorem getD_set_self (lits : List lit_type) (k : Nat) (x : lit_type) (h : k < lits.length) :
    (lits.set k x).getD k default = x := by
  rw [List.getD_eq_getElem?_getD, List.getElem?_set, if_pos rfl, if_pos h]
  rfl

theorem gate_step_inv (excdc : aig_network) (hwf : well_formed excdc) (p : List Bool)
    (v0 k : Nat) (hv0 : excdc.inputs.length + 1 ≤ v0) (hk : k < excdc.nodes.length)
    (lits : List lit_type) (solver : solver_t) (cl0 emitted : List (List lit_type))
    (hcl : solver.clauses = cl0 ++ emitted)
    (hinv : encode_inv excdc p v0 k lits solver.num_variables emitted) :
    ∃ emitted2, (dont_care_view.gate_step excdc (lits, solver) k).2.clauses = cl0 ++ emitted2
      ∧ encode_inv excdc p v0 (k + 1) (dont_care_view.gate_step excdc (lits, solver) k).1
          (dont_care_view.gate_step excdc (lits, solver) k).2.num_variables emitted2 := by
  obtain ⟨i1, i2, i3, i4, i5, i6⟩ := hinv
  cases hg : is_gate excdc k with
  | false =>
    have hst : dont_care_view.gate_step excdc (lits, solver) k = (lits, solver) := by
      unfold dont_care_view.gate_step
      simp [hg]
    rw [hst]
    have hiff := fun m => has_literal_at_succ_of_not_gate excdc k m hg
    refine ⟨emitted, hcl, i1, i2, ?_, i4, ?_, ?_⟩
    · intro m hm hd
      exact i3 m hm ((hiff m).mp hd)
    · intro α hα hsat m hm hd
      exact i5 α hα hsat m hm ((hiff m).mp hd)
    · obtain ⟨α, a1, a2, a3⟩ := i6
      exact ⟨α, a1, a2, fun m hm hd => a3 m hm ((hiff m).mp hd)⟩
  | true =>
    obtain ⟨a, b, hab, ha, hb, hk0, hkin, g1, g2, g3⟩ := gate_step_gate excdc hwf k hk hg lits solver
    rw [g1, g2, g3, hcl, List.append_assoc]
    have hda : has_literal_at excdc k a.index := Or.inr (Or.inr ha)
    have hdb : has_literal_at excdc k b.index := Or.inr (Or.inr hb)
    have hva := i3 a.index (by omega) hda
    have hvb := i3 b.index (by omega) hdb
    have hold : ∀ m, has_literal_at excdc (k + 1) m → m ≠ k → has_literal_at excdc k m := by
      rintro m (h | h | h) hne
      · exact Or.inl h
      · exact Or.inr (Or.inl h)
      · exact Or.inr (Or.inr (by omega))
    have hgate := value_of_gate excdc p k a b hk hkin hab ha hb
    refine ⟨_, rfl, ?_, by omega, ?_, ?_, ?_, ?_⟩
    · rw [List.length_set]; exact i1
    · intro m hm hd
      by_cases hmk : m = k
      · subst hmk
        rw [getD_set_self _ _ _ (by omega)]
        exact Nat.lt_succ_self _
      · rw [getD_set_ne _ _ _ _ hmk]
        exact Nat.lt_succ_of_lt (i3 m hm (hold m hd hmk))
    · intro c hc l hl
      rw [List.mem_append] at hc
      rcases hc with hc | hc
      · exact Nat.lt_succ_of_lt (i4 c hc l hl)
      · simp only [detail.on_and, List.mem_cons, List.mem_singleton, List.not_mem_nil,
          or_false] at hc
        rcases hc with rfl | rfl | rfl <;>
          simp only [List.mem_cons, List.mem_singleton, List.not_mem_nil, or_false] at hl <;>
          rcases hl with rfl | rfl | rfl <;>
          simp only [lit_not, lit_not_cond_var] <;> omega
    · intro α hα hsat m hm hd
      have hsat1 : ∀ c ∈ emitted, clause_true α c = true :=
        fun c hc => hsat c (List.mem_append_left _ hc)
      have hsat2 := (on_and_true α _ _ _).mp (fun c hc => hsat c (List.mem_append_right _ hc))
      by_cases hmk : m = k
      · subst hmk
        rw [getD_set_self _ _ _ (by omega), hsat2, lit_true_not_cond, lit_true_not_cond,
          i5 α hα hsat1 a.index (by omega) hda, i5 α hα hsat1 b.index (by omega) hdb, hgate]
        rfl
      · rw [getD_set_ne _ _ _ _ hmk]
        exact i5 α hα hsat1 m hm (hold m hd hmk)
    · obtain ⟨α, a1, a2, a3⟩ := i6
      refine ⟨Function.update α solver.num_variables ((node_values excdc p).getD k false),
        ⟨?_, ?_⟩, ?_, ?_⟩
      · rw [Function.update_noteq (by omega)]
        exact a1.1
      · intro i hi
        rw [Function.update_noteq (by omega)]
        exact a1.2 i hi
      · intro c hc
        rw [List.mem_append] at hc
        rcases hc with hc | hc
        · rw [clause_true_update _ _ _ _ (i4 c hc)]
          exact a2 c hc
        · revert c
          rw [on_and_true, lit_true_not_cond, lit_true_not_cond,
            lit_true_update _ _ _ _ hva, lit_true_update _ _ _ _ hvb,
            a3 a.index (by omega) hda, a3 b.index (by omega) hdb, hgate]
          unfold lit_true signal_value
          simp
      · intro m hm hd
        by_cases hmk : m = k
        · subst hmk
          rw [getD_set_self _ _ _ (by omega)]
          unfold lit_true
          simp
        · rw [getD_set_ne _ _ _ _ hmk, lit_true_update _ _ _ _ (i3 m hm (hold m hd hmk))]
          exact a3 m hm (hold m hd hmk)

theorem encode_gates_inv (excdc : aig_network) (hwf : well_formed excdc) (p : List Bool)
    (solver : solver_t) (hv0 : excdc.inputs.length + 1 ≤ solver.num_variables)
    (k : Nat) (hk : k ≤ excdc.nodes.length) :
    ∃ emitted,
      ((List.range k).foldl (dont_care_view.gate_step excdc)
        (dont_care_view.input_literals excdc, solver)).2.clauses = solver.clauses ++ emitted
      ∧ encode_inv excdc p solver.num_variables k
          ((List.range k).foldl (dont_care_view.gate_step excdc)
            (dont_care_view.input_literals excdc, solver)).1
          ((List.range k).foldl (dont_care_view.gate_step excdc)
            (dont_care_view.input_literals excdc, solver)).2.num_variables emitted := by
  induction k with
  | zero =>
    exact ⟨[], by simp, encode_inv_start excdc hwf p solver.num_variables hv0⟩
  | succ k ih =>
    obtain ⟨emitted, e1, e2⟩ := ih (by omega)
    rw [List.range_succ, List.foldl_append]
    simp only [List.foldl_cons, List.foldl_nil]
    generalize (List.range k).foldl (dont_care_view.gate_step excdc)
      (dont_care_view.input_literals excdc, solver) = st at e1 e2
    obtain ⟨lits, s⟩ := st
    exact gate_step_inv excdc hwf p solver.num_variables k hv0 (by omega) lits s
      solver.clauses emitted e1 e2

/-- C10. Exclusion-clause emission is a correct encoding: for a don't-care network made
of AND gates in topological order with one output `f`, a solver that has handed out the
variables 0 to `num_pis` already, and every full input assignment `p`, the clauses
`add_EXCDC_clauses` emits are satisfiable with variable 0 fixed to false and variable
`i + 1` fixed to `p[i]` if and only if `pattern_is_EXCDC(p)` is false; and the clause
emitted last is the unit clause holding the negation of the output signal's literal. -/
theorem exclusion_clauses_correct (view : dont_care_view) (solver : solver_t)
    (p : List Bool) (f : signal)
    (hwf : well_formed view._excdc) (hout : view._excdc.outputs = [f])
    (hvars : num_pis view._excdc + 1 ≤ solver.num_variables)
    (hp : p.length = num_pis view.ntk) :
    (satisfiable_with (num_pis view._excdc) p (dont_care_view.emitted_clauses view solver)
      ↔ dont_care_view.pattern_is_EXCDC view p = some false)
    ∧ (dont_care_view.emitted_clauses view solver).getLast?
        = some [lit_not (lit_not_cond
            ((dont_care_view.cdc_literals view solver).getD (get_node f) default)
            (is_complemented f))] := by
  obtain ⟨emitted, e1, e2⟩ := encode_gates_inv view._excdc hwf p solver hvars
    view._excdc.nodes.length (le_refl _)
  have hfold : (List.range view._excdc.nodes.length).foldl
      (dont_care_view.gate_step view._excdc)
      (dont_care_view.input_literals view._excdc, solver)
      = dont_care_view.encode_gates view._excdc solver := rfl
  rw [hfold] at e1 e2
  obtain ⟨i1, i2, i3, i4, i5, i6⟩ := e2
  have hfv : f.index < view._excdc.nodes.length := by
    obtain ⟨_, _, _, _, _, _, _, h8⟩ := hwf
    exact h8 f (by rw [hout]; exact List.mem_singleton_self f)
  have hdef : has_literal_at view._excdc view._excdc.nodes.length f.index :=
    Or.inr (Or.inr hfv)
  have hem : dont_care_view.emitted_clauses view solver
      = emitted ++ [[lit_not_cond ((dont_care_view.cdc_literals view solver).getD f.index
          default) (!f.complement)]] := by
    unfold dont_care_view.emitted_clauses dont_care_view.add_EXCDC_clauses
    rw [hout]
    simp only [List.foldl_cons, List.foldl_nil, solver_t.add_clause, e1, get_node,
      is_complemented]
    rw [List.append_assoc, List.drop_left]
  have hpat : dont_care_view.pattern_is_EXCDC view p = some (signal_value view._excdc p f) := by
    unfold dont_care_view.pattern_is_EXCDC simulate
    rw [if_neg (by simpa using hp), hout]
    rfl
  have hunit : ∀ α, lit_true α ((dont_care_view.cdc_literals view solver).getD f.index default)
        = (node_values view._excdc p).getD f.index false →
      (clause_true α [lit_not_cond ((dont_care_view.cdc_literals view solver).getD f.index
          default) (!f.complement)] = true ↔ signal_value view._excdc p f = false) := by
    intro α hα
    unfold clause_true signal_value
    simp only [List.any_cons, List.any_nil, Bool.or_false, lit_true_not_cond, hα]
    cases (node_values view._excdc p).getD f.index false <;> cases f.complement <;> simp
  refine ⟨?_, ?_⟩
  · rw [hem, hpat]
    constructor
    · rintro ⟨α, hα, hsat⟩
      have hsat1 : ∀ c ∈ emitted, clause_true α c = true :=
        fun c hc => hsat c (List.mem_append_left _ hc)
      have hlit := i5 α hα hsat1 f.index hfv hdef
      have hlast := hsat _ (List.mem_append_right _ (List.mem_singleton_self _))
      rw [(hunit α hlit).mp hlast]
    · intro hfalse
      have hsv : signal_value view._excdc p f = false := Option.some.inj hfalse
      obtain ⟨α, a1, a2, a3⟩ := i6
      refine ⟨α, a1, ?_⟩
      intro c hc
      rw [List.mem_append, List.mem_singleton] at hc
      rcases hc with hc | rfl
      · exact a2 c hc
      · exact (hunit α (a3 f.index hfv hdef)).mpr hsv
  · rw [hem, List.getLast?_concat]
    simp only [get_node, is_complemented, Option.some.injEq, List.cons.injEq, and_true]
    unfold lit_not_cond
    cases f.complement
    · simp
    · simp [lit_not_not]

/-- The gate `x1 AND NOT x2` on the assignment (true, false), which it excludes: the
clauses are not satisfiable and `pattern_is_EXCDC` is true. -/
theorem exclusion_clauses_correct_witness :
    (satisfiable_with 2 [true, false]
        (dont_care_view.emitted_clauses small_view ⟨3, []⟩)
      ↔ dont_care_view.pattern_is_EXCDC small_view [true, false] = some false)
    ∧ dont_care_view.pattern_is_EXCDC small_view [true, false] = some true
    ∧ dont_care_view.emitted_clauses small_view ⟨3, []⟩
        = [[⟨1, false⟩, ⟨3, true⟩], [⟨2, true⟩, ⟨3, true⟩],
            [⟨1, true⟩, ⟨2, false⟩, ⟨3, false⟩], [⟨3, true⟩]] :=
  ⟨(exclusion_clauses_correct small_view ⟨3, []⟩ [true, false] ⟨3, false⟩
      (by decide) (by decide) (by decide) (by decide)).1,
    by decide, by decide⟩

/-! ## The number of product terms -/

theorem term_step_isSome (pis : List signal) (str : List Char)
    (st : aig_network × Option signal) (i : Nat) :
    (detail.term_step pis str st i).2.isSome = (st.2.isSome || is_literal (str.getD i ' ')) := by
  unfold detail.term_step is_literal
  generalize str.getD i ' ' = c
  by_cases h0 : c = '0'
  · subst h0
    cases st.2 <;> simp
  · by_cases h1 : c = '1'
    · subst h1
      cases st.2 <;> simp
    · simp [h0, h1]

theorem build_term_isSome (pis : List signal) (str : List Char) (ntk : aig_network)
    (m : Nat) : (detail.build_term ntk pis str m).2.isSome = literal_upto str m := by
  unfold detail.build_term literal_upto
  induction m with
  | zero => rfl
  | succ m ih =>
    rw [List.range_succ, List.foldl_append, List.any_append]
    simp only [List.foldl_cons, List.foldl_nil, List.any_cons, List.any_nil, Bool.or_false]
    rw [term_step_isSome, ih]

theorem parse_rows_terms (pis : List signal) (n : Nat) (lines : List (List Char)) :
    ∀ (ntk : aig_network) (terms : List signal) (r : aig_network × List signal),
      detail.parse_rows pis n lines ntk terms = some r →
      r.2.length = terms.length
        + (((lines.takeWhile (fun l => l.take 4 ≠ ['.', 'e', 'n', 'd'])).map
            detail.bit_field).filter has_literal).length := by
  induction lines with
  | nil =>
    intro ntk terms r h
    simp only [detail.parse_rows, Option.some.injEq] at h
    subst h
    simp
  | cons line rest ih =>
    intro ntk terms r h
    unfold detail.parse_rows at h
    by_cases hend : line.take 4 = ['.', 'e', 'n', 'd']
    · rw [if_pos hend] at h
      simp only [Option.some.injEq] at h
      subst h
      simp [List.takeWhile, hend]
    · rw [if_neg hend] at h
      by_cases hlen : (detail.bit_field line).length ≠ n
      · rw [if_pos hlen] at h
        cases h
      · rw [if_neg hlen] at h
        simp only at h
        by_cases hout : detail.first_char (detail.output_field line) ≠ '0'
        · rw [if_pos hout] at h
          cases h
        · rw [if_neg hout] at h
          have hrec := ih _ _ r h
          have hsome := build_term_isSome pis (detail.bit_field line) ntk n
          have hhas : has_literal (detail.bit_field line)
              = literal_upto (detail.bit_field line) n := by
            unfold has_literal
            rw [not_not.mp hlen]
          have htw : (line :: rest).takeWhile (fun l => l.take 4 ≠ ['.', 'e', 'n', 'd'])
              = line :: rest.takeWhile (fun l => l.take 4 ≠ ['.', 'e', 'n', 'd']) := by
            simp [List.takeWhile, hend]
          rw [htw, hrec]
          simp only [List.map_cons, List.filter_cons, hhas, ← hsome]
          cases hb : (detail.build_term ntk pis (detail.bit_field line) n).2 with
          | none => simp
          | some top => simp; omega

/-- C20 (as amended). The number of product terms: for every cube-list description
accepted by `parse_excdc`, the number of terms that are OR-combined is the number of data
rows whose bitstring holds at least one `0` or `1` character; it is at least one and at
most the number of data rows, a data row without such a character contributing no
term. -/
theorem terms_count (ntk : aig_network) (lines : List String) (num_pis : Nat)
    (cdc : aig_network) (h : detail.parse_excdc ntk lines num_pis = some cdc) :
    ∃ terms, excdc_terms ntk lines num_pis = some terms
      ∧ terms.length = (term_rows lines).length
      ∧ 0 < terms.length
      ∧ terms.length ≤ (data_lines lines).length := by
  unfold detail.parse_excdc at h
  simp only at h
  unfold excdc_terms
  cases hp : detail.parse_rows (detail.create_pis ntk num_pis).2 num_pis
      ((lines.drop 4).map String.toList) (detail.create_pis ntk num_pis).1 [] with
  | none => rw [hp] at h; cases h
  | some r =>
    have hlen := parse_rows_terms _ _ _ _ _ r hp
    simp only [List.length_nil, Nat.zero_add] at hlen
    have hle : (term_rows lines).length ≤ (data_lines lines).length := by
      unfold term_rows
      exact (List.length_filter_le _ _).trans (by simp)
    refine ⟨r.2, rfl, hlen, ?_, by rw [hlen]; exact hle⟩
    rw [hp] at h
    obtain ⟨ntk2, terms⟩ := r
    cases terms with
    | nil => simp at h
    | cons t0 rest => simp

/-- The description `sample_description` has two data rows and gives two terms. -/
theorem terms_count_witness :
    (detail.parse_excdc aig_network.empty sample_description 3).isSome = true
    ∧ (data_lines sample_description).length = 2
    ∧ ∃ terms, excdc_terms aig_network.empty sample_description 3 = some terms
      ∧ terms.length = (term_rows sample_description).length
      ∧ 0 < terms.length
      ∧ terms.length ≤ (data_lines sample_description).length :=
  ⟨by decide, by decide,
    terms_count aig_network.empty sample_description 3
      ((detail.parse_excdc aig_network.empty sample_description 3).get (by decide))
      (Option.some_get _).symm⟩

/-- C20, the claim as stated fails: `blank_row_description` is accepted by `parse_excdc`
and has two data rows, the first holding no `0` or `1`, and only one term is
OR-combined. -/
theorem blank_row_gives_no_term :
    (detail.parse_excdc aig_network.empty blank_row_description 3).isSome = true
    ∧ (data_lines blank_row_description).length = 2
    ∧ (excdc_terms aig_network.empty blank_row_description 3).map List.length = some 1 := by
  decide

/-! ## When parse_excdc fails -/

theorem create_and_io (ntk : aig_network) (a b : signal) :
    (create_and ntk a b).2.inputs = ntk.inputs
    ∧ (create_and ntk a b).2.outputs = ntk.outputs := by
  unfold create_and
  simp only
  split <;> exact ⟨rfl, rfl⟩

theorem create_or_io (ntk : aig_network) (a b : signal) :
    (create_or ntk a b).2.inputs = ntk.inputs
    ∧ (create_or ntk a b).2.outputs = ntk.outputs := by
  unfold create_or
  exact create_and_io ntk a.not b.not

theorem term_step_io (pis : List signal) (str : List Char)
    (st : aig_network × Option signal) (i : Nat) :
    (detail.term_step pis str st i).1.inputs = st.1.inputs
    ∧ (detail.term_step pis str st i).1.outputs = st.1.outputs := by
  unfold detail.term_step
  generalize str.getD i ' ' = c
  split_ifs
  · cases st.2 with
    | none => exact ⟨rfl, rfl⟩
    | some top => exact create_and_io _ _ _
  · cases st.2 with
    | none => exact ⟨rfl, rfl⟩
    | some top => exact create_and_io _ _ _
  · exact ⟨rfl, rfl⟩

theorem build_term_io (pis : List signal) (str : List Char) (ntk : aig_network) (m : Nat) :
    (detail.build_term ntk pis str m).1.inputs = ntk.inputs
    ∧ (detail.build_term ntk pis str m).1.outputs = ntk.outputs := by
  unfold detail.build_term
  induction m with
  | zero => exact ⟨rfl, rfl⟩
  | succ m ih =>
    rw [List.range_succ, List.foldl_append]
    simp only [List.foldl_cons, List.foldl_nil]
    obtain ⟨h1, h2⟩ := term_step_io pis str
      ((List.range m).foldl (detail.term_step pis str) (ntk, none)) m
    exact ⟨h1.trans ih.1, h2.trans ih.2⟩

theorem parse_rows_io (pis : List signal) (n : Nat) (lines : List (List Char)) :
    ∀ (ntk : aig_network) (terms : List signal) (r : aig_network × List signal),
      detail.parse_rows pis n lines ntk terms = some r →
      r.1.inputs = ntk.inputs ∧ r.1.outputs = ntk.outputs := by
  induction lines with
  | nil =>
    intro ntk terms r h
    simp only [detail.parse_rows, Option.some.injEq] at h
    subst h
    exact ⟨rfl, rfl⟩
  | cons line rest ih =>
    intro ntk terms r h
    unfold detail.parse_rows at h
    by_cases hend : line.take 4 = ['.', 'e', 'n', 'd']
    · rw [if_pos hend] at h
      simp only [Option.some.injEq] at h
      subst h
      exact ⟨rfl, rfl⟩
    · rw [if_neg hend] at h
      by_cases hlen : (detail.bit_field line).length ≠ n
      · rw [if_pos hlen] at h
        cases h
      · rw [if_neg hlen] at h
        simp only at h
        by_cases hout : detail.first_char (detail.output_field line) ≠ '0'
        · rw [if_pos hout] at h
          cases h
        · rw [if_neg hout] at h
          obtain ⟨h1, h2⟩ := ih _ _ r h
          obtain ⟨b1, b2⟩ := build_term_io pis (detail.bit_field line) ntk n
          exact ⟨h1.trans b1, h2.trans b2⟩

theorem parse_rows_none_iff (pis : List signal) (n : Nat) (lines : List (List Char)) :
    ∀ (ntk : aig_network) (terms : List signal),
      detail.parse_rows pis n lines ntk terms = none
        ↔ ∃ l ∈ lines.takeWhile (fun l => l.take 4 ≠ ['.', 'e', 'n', 'd']),
            row_ok n l = false := by
  induction lines with
  | nil =>
    intro ntk terms
    simp [detail.parse_rows]
  | cons line rest ih =>
    intro ntk terms
    unfold detail.parse_rows
    by_cases hend : line.take 4 = ['.', 'e', 'n', 'd']
    · rw [if_pos hend]
      simp [List.takeWhile, hend]
    · rw [if_neg hend]
      have htw : (line :: rest).takeWhile (fun l => l.take 4 ≠ ['.', 'e', 'n', 'd'])
          = line :: rest.takeWhile (fun l => l.take 4 ≠ ['.', 'e', 'n', 'd']) := by
        simp [List.takeWhile, hend]
      rw [htw]
      by_cases hlen : (detail.bit_field line).length ≠ n
      · rw [if_pos hlen]
        simp only [true_iff]
        exact ⟨line, List.mem_cons_self _ _, by simp [row_ok, hlen]⟩
      · rw [if_neg hlen]
        simp only
        by_cases hout : detail.first_char (detail.output_field line) ≠ '0'
        · rw [if_pos hout]
          simp only [true_iff]
          exact ⟨line, List.mem_cons_self _ _, by simp [row_ok, hout]⟩
        · rw [if_neg hout, ih]
          have hok : row_ok n line = true := by
            simp only [row_ok, Bool.and_eq_true, decide_eq_true_eq]
            exact ⟨not_not.mp hlen, not_not.mp hout⟩
          constructor
          · rintro ⟨l, hl, hbad⟩
            exact ⟨l, List.mem_cons_of_mem _ hl, hbad⟩
          · rintro ⟨l, hl, hbad⟩
            rcases List.mem_cons.mp hl with rfl | hl
            · rw [hok] at hbad
              cases hbad
            · exact ⟨l, hl, hbad⟩

theorem or_terms_io (terms : List signal) :
    ∀ (ntk : aig_network) (top : signal),
      (detail.or_terms ntk top terms).1.inputs = ntk.inputs
      ∧ (detail.or_terms ntk top terms).1.outputs = ntk.outputs := by
  unfold detail.or_terms
  induction terms with
  | nil => intro ntk top; exact ⟨rfl, rfl⟩
  | cons t rest ih =>
    intro ntk top
    simp only [List.foldl_cons]
    obtain ⟨h1, h2⟩ := ih (create_or ntk top t).2 (create_or ntk top t).1
    obtain ⟨c1, c2⟩ := create_or_io ntk top t
    exact ⟨h1.trans c1, h2.trans c2⟩

theorem create_pis_io (ntk : aig_network) (n : Nat) :
    (detail.create_pis ntk n).1.inputs.length = ntk.inputs.length + n
    ∧ (detail.create_pis ntk n).1.outputs = ntk.outputs := by
  unfold detail.create_pis
  induction n with
  | zero => exact ⟨rfl, rfl⟩
  | succ n ih =>
    rw [List.range_succ, List.foldl_append]
    simp only [List.foldl_cons, List.foldl_nil]
    generalize (List.range n).foldl
      (fun st _ => ((create_pi st.1).2, st.2 ++ [(create_pi st.1).1])) (ntk, []) = st at ih ⊢
    obtain ⟨h1, h2⟩ := ih
    refine ⟨?_, h2⟩
    show (st.1.inputs ++ [st.1.nodes.length]).length = _
    rw [List.length_append, h1]
    simp only [List.length_singleton]
    omega

theorem parse_excdc_none_iff (ntk : aig_network) (lines : List String) (n : Nat) :
    detail.parse_excdc ntk lines n = none
      ↔ (∃ l ∈ data_lines lines, row_ok n l = false) ∨ term_rows lines = [] := by
  unfold detail.parse_excdc
  simp only
  cases hp : detail.parse_rows (detail.create_pis ntk n).2 n
      ((lines.drop 4).map String.toList) (detail.create_pis ntk n).1 [] with
  | none =>
    simp only [true_iff]
    exact Or.inl ((parse_rows_none_iff _ _ _ _ _).mp hp)
  | some r =>
    have hno : ¬ ∃ l ∈ data_lines lines, row_ok n l = false := by
      intro hex
      have := (parse_rows_none_iff (detail.create_pis ntk n).2 n
        ((lines.drop 4).map String.toList) (detail.create_pis ntk n).1 []).mpr hex
      rw [hp] at this
      cases this
    have hlen := parse_rows_terms _ _ _ _ _ r hp
    simp only [List.length_nil, Nat.zero_add] at hlen
    have hterm : (term_rows lines).length = r.2.length := hlen.symm
    obtain ⟨ntk2, terms⟩ := r
    cases terms with
    | nil =>
      simp only [true_iff]
      exact Or.inr (List.length_eq_zero.mp hterm)
    | cons t0 rest =>
      constructor
      · intro h
        cases h
      · rintro (hex | h)
        · exact (hno hex).elim
        · rw [h] at hterm
          simp at hterm

theorem parse_excdc_io (ntk : aig_network) (lines : List String) (n : Nat)
    (cdc : aig_network) (h : detail.parse_excdc ntk lines n = some cdc) :
    num_pis cdc = num_pis ntk + n ∧ num_pos cdc = num_pos ntk + 1 := by
  unfold detail.parse_excdc at h
  simp only at h
  cases hp : detail.parse_rows (detail.create_pis ntk n).2 n
      ((lines.drop 4).map String.toList) (detail.create_pis ntk n).1 [] with
  | none => rw [hp] at h; cases h
  | some r =>
    rw [hp] at h
    obtain ⟨r1, r2⟩ := parse_rows_io _ _ _ _ _ r hp
    obtain ⟨p1, p2⟩ := create_pis_io ntk n
    obtain ⟨ntk2, terms⟩ := r
    cases terms with
    | nil => simp at h
    | cons t0 rest =>
      simp only [Option.some.injEq] at h
      subst h
      obtain ⟨o1, o2⟩ := or_terms_io rest ntk2 t0
      unfold num_pis num_pos create_po
      simp only [List.length_append, List.length_singleton]
      simp only at r1 r2
      rw [o1, o2, r1, r2, p1, p2]
      exact ⟨rfl, rfl⟩

theorem output_character_of_blank (line : List Char) (h : ' ' ∈ line) :
    detail.first_char (detail.output_field line) = '0' ↔ output_character line = some '0' := by
  unfold detail.output_field detail.first_char output_character
  rw [if_pos h]
  cases ((line.dropWhile (fun c => c ≠ ' ')).drop 1) with
  | nil => simp
  | cons c rest => simp

/-- Where every data row holds a blank, parsing a description fails an assertion if and
only if some data row's bitstring length differs from `num_pis`, or some data row's output
character is not `0`, or no data row contributes a term; in every other case the call
creates exactly `num_pis` primary inputs and exactly one primary output. -/
theorem parse_excdc_fails_iff_of_blanks (ntk : aig_network) (lines : List String)
    (num_pis : Nat) (hblank : ∀ l ∈ data_lines lines, ' ' ∈ l) :
    (detail.parse_excdc ntk lines num_pis = none
      ↔ ((∃ l ∈ data_lines lines, (detail.bit_field l).length ≠ num_pis)
        ∨ (∃ l ∈ data_lines lines, output_character l ≠ some '0')
        ∨ term_rows lines = []))
    ∧ (∀ cdc, detail.parse_excdc ntk lines num_pis = some cdc →
        aig_network.num_pis cdc = aig_network.num_pis ntk + num_pis
        ∧ aig_network.num_pos cdc = aig_network.num_pos ntk + 1) := by
  refine ⟨?_, parse_excdc_io ntk lines num_pis⟩
  rw [parse_excdc_none_iff]
  constructor
  · rintro (⟨l, hl, hbad⟩ | h)
    · by_cases hlen : (detail.bit_field l).length = num_pis
      · right; left
        refine ⟨l, hl, fun hout => ?_⟩
        have := (output_character_of_blank l (hblank l hl)).mpr hout
        simp [row_ok, hlen, this] at hbad
      · exact Or.inl ⟨l, hl, hlen⟩
    · exact Or.inr (Or.inr h)
  · rintro (⟨l, hl, hbad⟩ | ⟨l, hl, hbad⟩ | h)
    · exact Or.inl ⟨l, hl, by simp [row_ok, hbad]⟩
    · have hne : detail.first_char (detail.output_field l) ≠ '0' :=
        fun h0 => hbad ((output_character_of_blank l (hblank l hl)).mp h0)
      exact Or.inl ⟨l, hl, by simp [row_ok, hne]⟩
    · exact Or.inr h

/-- C21, the code misses the check the claim states.  The only data row of
`no_output_description`, `0-1`, has a bitstring of 3 characters and contributes a term,
and it has no output character, so its output character is not `0` and the claim makes the
call a precondition violation.  In the code the second `getline` fails on the exhausted
row and leaves `str` holding the bitstring, the assertion `str[0] == '0'` reads the first
bit of the row, and `parse_excdc` with 3 inputs passes every assertion; with the row `1-1`
in place of `0-1` the same assertion fails. -/
theorem row_without_output_accepted :
    (∀ l ∈ data_lines no_output_description, (detail.bit_field l).length = 3)
    ∧ (∃ l ∈ data_lines no_output_description, output_character l ≠ some '0')
    ∧ term_rows no_output_description ≠ []
    ∧ (∀ l ∈ data_lines no_output_description, detail.output_field l = detail.bit_field l)
    ∧ (detail.parse_excdc aig_network.empty no_output_description 3).isSome = true
    ∧ detail.parse_excdc aig_network.empty
        [".i 3", ".o 1", ".p 1", ".type fr", "1-1", ".end"] 3 = none := by
  decide

/-! ## The shape of the view -/

theorem from_networks_shape (ntk cdc_ntk : aig_network) (view : dont_care_view)
    (h : dont_care_view.from_networks ntk cdc_ntk = some view) :
    view.ntk = ntk ∧ view._excdc = cdc_ntk
    ∧ num_pis view._excdc = num_pis ntk ∧ num_pos view._excdc = 1 := by
  unfold dont_care_view.from_networks at h
  by_cases h1 : ntk.num_pis ≠ cdc_ntk.num_pis
  · rw [if_pos h1] at h
    cases h
  · rw [if_neg h1] at h
    by_cases h2 : cdc_ntk.num_pos ≠ 1
    · rw [if_pos h2] at h
      cases h
    · rw [if_neg h2] at h
      simp only [Option.some.injEq] at h
      subst h
      exact ⟨rfl, rfl, (not_not.mp h1).symm, not_not.mp h2⟩

theorem from_file_shape (ntk : aig_network) (lines : List String) (view : dont_care_view)
    (h : dont_care_view.from_file ntk lines = some view) :
    view.ntk = ntk ∧ num_pis view._excdc = num_pis ntk ∧ num_pos view._excdc = 1 := by
  unfold dont_care_view.from_file at h
  cases hp : detail.parse_excdc aig_network.empty lines ntk.num_pis with
  | none => rw [hp] at h; cases h
  | some cdc =>
    rw [hp] at h
    simp only [Option.map_some', Option.some.injEq] at h
    subst h
    obtain ⟨h1, h2⟩ := parse_excdc_io _ _ _ cdc hp
    refine ⟨rfl, ?_, ?_⟩
    · rw [h1]
      show 0 + ntk.num_pis = _
      omega
    · rw [h2]
      rfl

theorem pattern_is_EXCDC_in_range (view : dont_care_view)
    (hpos : num_pos view._excdc = 1) (p : List Bool) (hp : p.length = num_pis view.ntk) :
    (simulate view._excdc p).length = 1
    ∧ ∃ b, dont_care_view.pattern_is_EXCDC view p = some b
        ∧ (simulate view._excdc p)[0]? = some b := by
  have hlen : (simulate view._excdc p).length = 1 := by
    unfold simulate
    rw [List.length_map]
    exact hpos
  refine ⟨hlen, (simulate view._excdc p)[0], ?_, List.getElem?_eq_getElem (by omega)⟩
  unfold dont_care_view.pattern_is_EXCDC
  rw [if_neg (by simpa using hp)]
  exact List.getElem?_eq_getElem (by omega)

/-- C22. Shape invariant of the don't-care view: after either constructor succeeds, the
base network of the view is the network it was given, nodes, inputs and outputs
unchanged; the don't-care network has as many primary inputs as the base network and
exactly one primary output; and on every pattern of length `num_pis()` the simulation of
the don't-care network yields exactly one value, so that `pattern_is_EXCDC` reads the
existing value at index 0. -/
theorem dont_care_view_shape (ntk cdc_ntk : aig_network) (lines : List String)
    (view : dont_care_view)
    (h : dont_care_view.from_networks ntk cdc_ntk = some view
      ∨ dont_care_view.from_file ntk lines = some view) :
    view.ntk = ntk
    ∧ num_pis view._excdc = num_pis view.ntk
    ∧ num_pos view._excdc = 1
    ∧ ∀ p : List Bool, p.length = num_pis view.ntk →
        (simulate view._excdc p).length = 1
        ∧ ∃ b, dont_care_view.pattern_is_EXCDC view p = some b
            ∧ (simulate view._excdc p)[0]? = some b := by
  have key : view.ntk = ntk ∧ num_pis view._excdc = num_pis ntk ∧ num_pos view._excdc = 1 := by
    rcases h with h | h
    · obtain ⟨h1, _, h3, h4⟩ := from_networks_shape ntk cdc_ntk view h
      exact ⟨h1, h3, h4⟩
    · exact from_file_shape ntk lines view h
  obtain ⟨h1, h2, h3⟩ := key
  refine ⟨h1, by rw [h1]; exact h2, h3, fun p hp => pattern_is_EXCDC_in_range view h3 p hp⟩

/-- The view `small_view`, built from its two networks, and the view built over three
inputs from `sample_description`. -/
theorem dont_care_view_shape_witness :
    dont_care_view.from_networks small_view.ntk small_view._excdc = some small_view
    ∧ num_pis small_view._excdc = 2 ∧ num_pos small_view._excdc = 1
    ∧ (dont_care_view.from_file (with_pis 3) sample_description).isSome = true
    ∧ num_pis ((dont_care_view.from_file (with_pis 3) sample_description).get
        (by decide))._excdc = 3 :=
  ⟨by decide,
    (dont_care_view_shape small_view.ntk small_view._excdc [] small_view
      (Or.inl (by decide))).2.1.trans (by decide),
    (dont_care_view_shape small_view.ntk small_view._excdc [] small_view
      (Or.inl (by decide))).2.2.1,
    by decide,
    (dont_care_view_shape (with_pis 3) aig_network.empty sample_description _
      (Or.inr (Option.some_get _).symm)).2.1.trans (by decide)⟩

end mockturtle

/-! # Theorems about the inverter pass -/

namespace mockturtle

open mig_network

/-! ## A flip preserves the function -/

theorem maj_not (a b c : Bool) : maj (!a) (!b) (!c) = !maj a b c := by
  cases a <;> cases b <;> cases c <;> rfl

theorem toggle_at_length (g : Nat) (vals : List Bool) :
    (toggle_at g vals).length = vals.length := by
  unfold toggle_at
  simp

theorem toggle_at_getD (g : Nat) (vals : List Bool) (m : Nat) :
    (toggle_at g vals).getD m false
      = if m = g ∧ m < vals.length then !vals.getD m false else vals.getD m false := by
  unfold toggle_at
  rw [List.getD_eq_getElem?_getD, List.getD_eq_getElem?_getD, List.getElem?_mapIdx]
  by_cases hm : m < vals.length
  · rw [List.getElem?_eq_getElem hm]
    by_cases hg : m = g
    · subst hg
      simp [hm]
    · simp [hg]
  · rw [List.getElem?_eq_none (by omega)]
    simp [hm]

theorem toggle_at_append (g : Nat) (vals : List Bool) (v : Bool) :
    toggle_at g (vals ++ [v])
      = toggle_at g vals ++ [if vals.length = g then !v else v] := by
  unfold toggle_at
  rw [List.mapIdx_append_one]

theorem toggle_use_index (g : Nat) (f : signal) : (toggle_use g f).index = f.index := by
  unfold toggle_use
  split_ifs <;> rfl

/-- The value an edge carries into a gate is complemented by the flip when the gate is
the flipped one, and unchanged otherwise. -/
theorem edge_value_flip (g : Nat) (vals : List Bool) (n : Nat) (hn : n = vals.length)
    (f : signal) (hf : f.index < n) :
    xor ((toggle_at g vals).getD (toggle_use g f).index false) (toggle_use g f).complement
      = xor (vals.getD f.index false) f.complement
    ∧ (n = g →
        xor ((toggle_at g vals).getD ((toggle_use g f).not).index false)
            ((toggle_use g f).not).complement
          = !xor (vals.getD f.index false) f.complement) := by
  have h1 : xor ((toggle_at g vals).getD (toggle_use g f).index false)
      (toggle_use g f).complement = xor (vals.getD f.index false) f.complement := by
    rw [toggle_use_index, toggle_at_getD]
    unfold toggle_use
    by_cases hg : f.index = g
    · rw [if_pos ⟨hg, by omega⟩, if_pos hg]
      simp [signal.not]
    · rw [if_neg (fun h => hg h.1), if_neg hg]
  refine ⟨h1, fun _ => ?_⟩
  have e : xor ((toggle_at g vals).getD ((toggle_use g f).not).index false)
      ((toggle_use g f).not).complement
      = !xor ((toggle_at g vals).getD (toggle_use g f).index false)
          (toggle_use g f).complement := by
    simp [signal.not]
  rw [e, h1]

theorem node_value_flip (inputs : List Nat) (p : List Bool) (g : Nat) (vals : List Bool)
    (children : List signal) (hlt : ∀ f ∈ children, f.index < vals.length)
    (hg : vals.length = g → vals.length ∉ inputs ∧ children.length = 3) :
    node_value inputs p (toggle_at g vals) vals.length (flip_children g vals.length children)
      = if vals.length = g then !node_value inputs p vals vals.length children
        else node_value inputs p vals vals.length children := by
  unfold node_value
  by_cases hin : vals.length ∈ inputs
  · have hne : vals.length ≠ g := fun h => (hg h).1 hin
    rw [if_pos hin, if_pos hin, if_neg hne]
  · rw [if_neg hin, if_neg hin]
    unfold flip_children
    by_cases hng : vals.length = g
    · rw [if_pos hng, if_pos hng]
      obtain ⟨_, h3⟩ := hg hng
      match children, h3, hlt with
      | [a, b, c], _, hlt =>
        simp only [List.map_cons, List.map_nil]
        rw [(edge_value_flip g vals _ rfl a (hlt a (by simp))).2 hng,
          (edge_value_flip g vals _ rfl b (hlt b (by simp))).2 hng,
          (edge_value_flip g vals _ rfl c (hlt c (by simp))).2 hng, maj_not]
    · rw [if_neg hng, if_neg hng]
      match children, hlt with
      | [], _ => rfl
      | [_], _ => rfl
      | [_, _], _ => rfl
      | [a, b, c], hlt =>
        simp only [List.map_cons, List.map_nil]
        rw [(edge_value_flip g vals _ rfl a (hlt a (by simp))).1,
          (edge_value_flip g vals _ rfl b (hlt b (by simp))).1,
          (edge_value_flip g vals _ rfl c (hlt c (by simp))).1]
      | _ :: _ :: _ :: _ :: _, _ => rfl

theorem simulate_nodes_flip (inputs : List Nat) (p : List Bool) (g : Nat)
    (rest : List (List signal)) :
    ∀ (vals : List Bool),
      (∀ j children, rest[j]? = some children →
        (∀ f ∈ children, f.index < vals.length + j)
        ∧ (vals.length + j = g → vals.length + j ∉ inputs ∧ children.length = 3)) →
      simulate_nodes inputs p
          (rest.mapIdx (fun j children => flip_children g (vals.length + j) children))
          (toggle_at g vals)
        = toggle_at g (simulate_nodes inputs p rest vals) := by
  induction rest with
  | nil => intro vals _; rfl
  | cons children rest ih =>
    intro vals h
    rw [List.mapIdx_cons]
    simp only [simulate_nodes]
    obtain ⟨hlt, hg⟩ := h 0 children (by simp)
    simp only [Nat.add_zero] at hlt hg ⊢
    rw [toggle_at_length, node_value_flip inputs p g vals children hlt hg,
      ← toggle_at_append]
    generalize node_value inputs p vals vals.length children = v
    have hfun : (fun j cs => flip_children g (vals.length + (j + 1)) cs)
        = (fun j cs => flip_children g ((vals ++ [v]).length + j) cs) := by
      funext j cs
      simp only [List.length_append, List.length_singleton]
      congr 1
      omega
    rw [hfun]
    apply ih
    intro j cs hcs
    have := h (j + 1) cs (by simpa using hcs)
    simp only [List.length_append, List.length_singleton]
    have e : vals.length + 1 + j = vals.length + (j + 1) := by omega
    rw [e]
    exact this

theorem foreach_fanin_of_getElem? {ntk : mig_network} {n : Nat} {children : List signal}
    (h : ntk.nodes[n]? = some children) : foreach_fanin ntk n = children := by
  unfold foreach_fanin
  rw [List.getD_eq_getElem?_getD, h]
  rfl

theorem mig_simulate_nodes_length (inputs : List Nat) (p : List Bool)
    (rest : List (List signal)) :
    ∀ vals, (simulate_nodes inputs p rest vals).length = vals.length + rest.length := by
  induction rest with
  | nil => intro vals; rfl
  | cons children rest ih =>
    intro vals
    simp only [simulate_nodes]
    rw [ih]
    simp only [List.length_append, List.length_cons, List.length_nil]
    omega

theorem mig_node_values_length (ntk : mig_network) (p : List Bool) :
    (node_values ntk p).length = ntk.size := by
  unfold node_values
  rw [mig_simulate_nodes_length]
  simp [size]

theorem not_input_of_gate {ntk : mig_network} {g : Nat} (hg : is_gate ntk g = true) :
    g ≠ 0 ∧ g ∉ ntk.inputs := by
  unfold is_gate is_constant is_pi at hg
  simpa using hg

theorem node_values_invert_node (ntk : mig_network) (hwf : well_formed ntk) (g : Nat)
    (hg : is_gate ntk g = true) (p : List Bool) :
    node_values (invert_node ntk g) p = toggle_at g (node_values ntk p) := by
  unfold node_values invert_node
  have h := simulate_nodes_flip ntk.inputs p g ntk.nodes [] (by
    intro j children hj
    have hjlt : j < ntk.size := by
      unfold size
      by_contra hge
      rw [List.getElem?_eq_none (by omega)] at hj
      cases hj
    have hf := foreach_fanin_of_getElem? hj
    obtain ⟨hgate, hother⟩ := hwf j hjlt
    rw [hf] at hgate hother
    simp only [List.length_nil, Nat.zero_add]
    constructor
    · intro f hmem
      cases hjg : is_gate ntk j with
      | true => exact (hgate hjg).2 f hmem
      | false => rw [hother hjg] at hmem; cases hmem
    · intro hjeq
      subst hjeq
      exact ⟨(not_input_of_gate hg).2, (hgate hg).1⟩)
  simp only [List.length_nil, Nat.zero_add] at h
  exact h

theorem signal_value_invert_node (ntk : mig_network) (hwf : well_formed ntk) (g : Nat)
    (hlt : g < ntk.size) (hg : is_gate ntk g = true) (p : List Bool) (f : signal) :
    signal_value (invert_node ntk g) p (toggle_use g f) = signal_value ntk p f := by
  unfold signal_value
  rw [node_values_invert_node ntk hwf g hg, toggle_use_index, toggle_at_getD,
    mig_node_values_length]
  unfold toggle_use
  by_cases hf : f.index = g
  · rw [if_pos ⟨hf, by omega⟩, if_pos hf]
    simp [signal.not]
  · rw [if_neg (fun h => hf h.1), if_neg hf]

theorem simulate_invert_node (ntk : mig_network) (hwf : well_formed ntk) (g : Nat)
    (hlt : g < ntk.size) (hg : is_gate ntk g = true) (p : List Bool) :
    simulate (invert_node ntk g) p = simulate ntk p := by
  unfold simulate
  have : (invert_node ntk g).outputs = ntk.outputs.map (toggle_use g) := rfl
  rw [this, List.map_map]
  apply List.map_congr_left
  intro f _
  exact signal_value_invert_node ntk hwf g hlt hg p f

theorem foreach_fanin_invert_node (ntk : mig_network) (g n : Nat) :
    foreach_fanin (invert_node ntk g) n = flip_children g n (foreach_fanin ntk n) := by
  unfold foreach_fanin invert_node
  simp only
  rw [List.getD_eq_getElem?_getD, List.getD_eq_getElem?_getD, List.getElem?_mapIdx]
  cases ntk.nodes[n]? with
  | none =>
    simp only [Option.map_none', Option.getD_none]
    unfold flip_children
    split_ifs <;> rfl
  | some children => rfl

theorem flip_children_length (g n : Nat) (children : List signal) :
    (flip_children g n children).length = children.length := by
  unfold flip_children
  split_ifs <;> simp

theorem flip_children_index (g n : Nat) (children : List signal) (f : signal)
    (hf : f ∈ flip_children g n children) : ∃ f0 ∈ children, f.index = f0.index := by
  unfold flip_children at hf
  split_ifs at hf
  · simp only [List.map_map, List.mem_map, Function.comp_apply] at hf
    obtain ⟨f0, hmem, rfl⟩ := hf
    exact ⟨f0, hmem, by simp [signal.not, toggle_use_index]⟩
  · simp only [List.mem_map] at hf
    obtain ⟨f0, hmem, rfl⟩ := hf
    exact ⟨f0, hmem, toggle_use_index g f0⟩

theorem well_formed_invert_node (ntk : mig_network) (hwf : well_formed ntk) (g : Nat) :
    well_formed (invert_node ntk g) := by
  intro n hn
  have hsize : (invert_node ntk g).size = ntk.size := by simp [invert_node, size]
  have hgate : is_gate (invert_node ntk g) n = is_gate ntk n := rfl
  rw [hsize] at hn
  obtain ⟨h1, h2⟩ := hwf n hn
  rw [hgate, foreach_fanin_invert_node]
  constructor
  · intro hg
    refine ⟨by rw [flip_children_length]; exact (h1 hg).1, ?_⟩
    intro f hf
    obtain ⟨f0, hmem, hidx⟩ := flip_children_index g n _ f hf
    rw [hidx]
    exact (h1 hg).2 f0 hmem
  · intro hg
    rw [h2 hg]
    unfold flip_children
    split_ifs <;> rfl

theorem visit_preserves (policy : mig_network → Nat → Bool)
    (st : mig_network × mig_inv_optimization_stats) (n : Nat) (hwf : well_formed st.1)
    (p : List Bool) :
    well_formed (mig_inv_optimization_visit policy st n).1
    ∧ simulate (mig_inv_optimization_visit policy st n).1 p = simulate st.1 p
    ∧ (mig_inv_optimization_visit policy st n).1.inputs = st.1.inputs
    ∧ (mig_inv_optimization_visit policy st n).1.outputs.length = st.1.outputs.length := by
  unfold mig_inv_optimization_visit
  by_cases h : (decide (n < st.1.size) && is_gate st.1 n && policy st.1 n) = true
  · rw [if_pos h]
    simp only [Bool.and_eq_true, decide_eq_true_eq] at h
    exact ⟨well_formed_invert_node st.1 hwf n,
      simulate_invert_node st.1 hwf n h.1.1 h.1.2 p, rfl, by simp [invert_node]⟩
  · rw [if_neg h]
    exact ⟨hwf, rfl, rfl, rfl⟩

theorem pass_preserves (policy : mig_network → Nat → Bool) (schedule : List Nat) :
    ∀ (st : mig_network × mig_inv_optimization_stats), well_formed st.1 → ∀ p,
      well_formed (schedule.foldl (mig_inv_optimization_visit policy) st).1
      ∧ simulate (schedule.foldl (mig_inv_optimization_visit policy) st).1 p = simulate st.1 p
      ∧ (schedule.foldl (mig_inv_optimization_visit policy) st).1.inputs = st.1.inputs
      ∧ (schedule.foldl (mig_inv_optimization_visit policy) st).1.outputs.length
          = st.1.outputs.length := by
  induction schedule with
  | nil => intro st hwf p; exact ⟨hwf, rfl, rfl, rfl⟩
  | cons n rest ih =>
    intro st hwf p
    simp only [List.foldl_cons]
    obtain ⟨h1, h2, h3, h4⟩ := visit_preserves policy st n hwf p
    obtain ⟨k1, k2, k3, k4⟩ := ih _ h1 p
    exact ⟨k1, k2.trans h2, k3.trans h3, k4.trans h4⟩

/-- C11. The pass preserves the function: for every well-formed majority network,
whatever gates the pass visits and whichever of them it decides to flip, in particular
with flips on strict improvement in creation order, the network after the pass is well
formed, has the primary inputs and the number of primary outputs it had, and every
primary output computes under every assignment of the primary inputs the value it
computed before. -/
theorem mig_inv_optimization_preserves_function (policy : mig_network → Nat → Bool)
    (schedule : List Nat) (ntk : mig_network) (hwf : well_formed ntk) :
    well_formed (mig_inv_optimization policy schedule ntk).1
    ∧ (mig_inv_optimization policy schedule ntk).1.inputs = ntk.inputs
    ∧ (mig_inv_optimization policy schedule ntk).1.outputs.length = ntk.outputs.length
    ∧ ∀ p, simulate (mig_inv_optimization policy schedule ntk).1 p = simulate ntk p := by
  unfold mig_inv_optimization
  refine ⟨(pass_preserves policy schedule _ hwf []).1,
    (pass_preserves policy schedule _ hwf []).2.2.1,
    (pass_preserves policy schedule _ hwf []).2.2.2, fun p => ?_⟩
  exact (pass_preserves policy schedule _ hwf p).2.1

set_option maxRecDepth 8000 in
/-- The network of the test "output" after three sweeps with flips on strict
improvement: gate 5 has been flipped, and the outputs compute what they did. -/
theorem mig_inv_optimization_preserves_function_witness :
    well_formed test_output
    ∧ (mig_inv_optimization strict_improvement (sweeps test_output 3) test_output).1
        ≠ test_output
    ∧ ∀ p, simulate
        (mig_inv_optimization strict_improvement (sweeps test_output 3) test_output).1 p
          = simulate test_output p :=
  ⟨by decide, by decide,
    (mig_inv_optimization_preserves_function strict_improvement (sweeps test_output 3)
      test_output (by decide)).2.2.2⟩

/-! ## The gain of a flip is the saving -/

theorem cast_sum_map (l : List Nat) (f : Nat → Nat) :
    (((l.map f).sum : Nat) : Int) = (l.map (fun n => (f n : Int))).sum := by
  induction l with
  | nil => rfl
  | cons a l ih => simp only [List.map_cons, List.sum_cons, Nat.cast_add, ih]

theorem sum_map_sub_int (l : List Nat) (a b : Nat → Int) :
    (l.map (fun n => a n - b n)).sum = (l.map a).sum - (l.map b).sum := by
  induction l with
  | nil => rfl
  | cons x l ih => simp only [List.map_cons, List.sum_cons, ih]; ring

theorem sum_map_add_int (l : List Nat) (a b : Nat → Int) :
    (l.map (fun n => a n + b n)).sum = (l.map a).sum + (l.map b).sum := by
  induction l with
  | nil => rfl
  | cons x l ih => simp only [List.map_cons, List.sum_cons, ih]; ring

theorem sum_map_single (l : List Nat) (hl : l.Nodup) (g : Nat) (hg : g ∈ l) (c : Int) :
    (l.map (fun n => if n = g then c else 0)).sum = c := by
  induction l with
  | nil => cases hg
  | cons x l ih =>
    simp only [List.map_cons, List.sum_cons]
    rw [List.nodup_cons] at hl
    by_cases hx : x = g
    · subst hx
      have hzero : (l.map (fun n => if n = x then c else 0)).sum = 0 := by
        have : l.map (fun n => if n = x then c else 0) = l.map (fun _ => (0 : Int)) := by
          apply List.map_congr_left
          intro n hn
          rw [if_neg]
          rintro rfl
          exact hl.1 hn
        rw [this]
        simp
      rw [if_pos rfl, hzero]
      ring
    · rw [if_neg hx]
      rcases List.mem_cons.mp hg with h | h
      · exact (hx h.symm).elim
      · rw [ih hl.2 h]
        ring

theorem sum_filter_of_zero (l : List Nat) (q : Nat → Bool) (h : Nat → Int)
    (hz : ∀ n ∈ l, q n = false → h n = 0) :
    ((l.filter q).map h).sum = (l.map h).sum := by
  induction l with
  | nil => rfl
  | cons x l ih =>
    have ih2 := ih (fun n hn => hz n (List.mem_cons_of_mem _ hn))
    cases hq : q x with
    | true =>
      rw [List.filter_cons_of_pos hq]
      simp only [List.map_cons, List.sum_cons, ih2]
    | false =>
      rw [List.filter_cons_of_neg (by simp [hq])]
      simp only [List.map_cons, List.sum_cons, ih2, hz x (List.mem_cons_self _ _) hq]
      ring

theorem inverted_slots_not (l : List signal) :
    ((inverted_slots (l.map signal.not) : Nat) : Int)
      = (inverted_slots l : Int)
        - ((l.filter (fun f => !is_constant (get_node f))).map polarity_gain).sum := by
  unfold inverted_slots
  induction l with
  | nil => rfl
  | cons f l ih =>
    simp only [List.map_cons, List.filter_cons]
    obtain ⟨index, complement⟩ := f
    by_cases h0 : index = 0 <;> cases complement <;>
      simp [h0, is_constant, get_node, is_complemented, signal.not, polarity_gain] at ih ⊢ <;>
      omega

theorem inverted_slots_toggle (g : Nat) (hg : g ≠ 0) (l : List signal) :
    ((inverted_slots (l.map (toggle_use g)) : Nat) : Int)
      = (inverted_slots l : Int) - use_gain g l := by
  unfold inverted_slots use_gain
  induction l with
  | nil => rfl
  | cons f l ih =>
    simp only [List.map_cons, List.filter_cons]
    obtain ⟨index, complement⟩ := f
    by_cases hi : index = g
    · subst hi
      cases complement <;>
        simp [hg, is_constant, get_node, is_complemented, signal.not, polarity_gain,
          toggle_use] at ih ⊢ <;> omega
    · by_cases h0 : index = 0
      · subst h0
        cases complement <;>
          simp [hi, is_constant, get_node, is_complemented, signal.not, polarity_gain,
            toggle_use] at ih ⊢ <;> omega
      · cases complement <;>
          simp [hi, h0, is_constant, get_node, is_complemented, signal.not, polarity_gain,
            toggle_use] at ih ⊢ <;> omega

theorem complemented_toggle (g : Nat) (l : List signal) :
    ((((l.map (toggle_use g)).filter is_complemented).length : Nat) : Int)
      = ((l.filter is_complemented).length : Int) - use_gain g l := by
  unfold use_gain
  induction l with
  | nil => rfl
  | cons f l ih =>
    simp only [List.map_cons, List.filter_cons]
    obtain ⟨index, complement⟩ := f
    by_cases hi : index = g <;> cases complement <;>
      simp [hi, is_complemented, signal.not, polarity_gain, toggle_use] at ih ⊢ <;> omega

theorem toggle_use_of_no_use (g : Nat) (l : List signal) (h : ∀ f ∈ l, f.index ≠ g) :
    l.map (toggle_use g) = l ∧ use_gain g l = 0 := by
  constructor
  · conv_rhs => rw [← List.map_id l]
    apply List.map_congr_left
    intro f hf
    unfold toggle_use
    rw [if_neg (h f hf)]
    rfl
  · unfold use_gain
    have : l.filter (fun f => decide (f.index = g)) = [] := by
      rw [List.filter_eq_nil_iff]
      intro f hf
      simpa using h f hf
    rw [this]
    rfl

theorem number_of_inverted_eq (ntk : mig_network) :
    inv_opt_test.number_of_inverted ntk
      = ((foreach_gate ntk).map (fun n => inverted_slots (foreach_fanin ntk n))).sum
        + (ntk.outputs.filter is_complemented).length := rfl

/-- The count at one gate after the flip of gate `g`. -/
theorem inverted_slots_invert_node (ntk : mig_network) (hwf : well_formed ntk) (g : Nat)
    (hg : is_gate ntk g = true) (n : Nat) (hn : n < ntk.size)
    (hgate : is_gate ntk n = true) :
    ((inverted_slots (foreach_fanin (invert_node ntk g) n) : Nat) : Int)
      = (inverted_slots (foreach_fanin ntk n) : Int)
        - (use_gain g (foreach_fanin ntk n) + if n = g then fanin_gain ntk g else 0) := by
  rw [foreach_fanin_invert_node]
  unfold flip_children
  by_cases hng : n = g
  · subst hng
    have hno := toggle_use_of_no_use n (foreach_fanin ntk n) (fun f hf => by
      have := ((hwf n hn).1 hgate).2 f hf
      omega)
    rw [if_pos rfl, if_pos rfl, hno.1, hno.2, inverted_slots_not]
    unfold fanin_gain
    ring
  · rw [if_neg hng, if_neg hng, inverted_slots_toggle g (not_input_of_gate hg).1]
    ring

theorem sum_use_gain_gates (ntk : mig_network) (hwf : well_formed ntk) (g : Nat) :
    ((foreach_gate ntk).map (fun n => use_gain g (foreach_fanin ntk n))).sum
      = ((fanout_view.foreach_fanout ntk g).map
          (fun p => use_gain g (foreach_fanin ntk p))).sum := by
  unfold foreach_gate fanout_view.foreach_fanout
  rw [sum_filter_of_zero, sum_filter_of_zero]
  · intro n _ hq
    refine (toggle_use_of_no_use g (foreach_fanin ntk n) ?_).2
    intro f hf hidx
    have : ((foreach_fanin ntk n).any (fun f => decide (f.index = g))) = true := by
      rw [List.any_eq_true]
      exact ⟨f, hf, by simpa using hidx⟩
    rw [this] at hq
    cases hq
  · intro n hn hq
    rw [(hwf n (List.mem_range.mp hn)).2 hq]
    rfl

theorem number_of_inverted_invert_node (ntk : mig_network) (hwf : well_formed ntk) (g : Nat)
    (hlt : g < ntk.size) (hg : is_gate ntk g = true) :
    ((inv_opt_test.number_of_inverted (invert_node ntk g) : Nat) : Int)
      = (inv_opt_test.number_of_inverted ntk : Int) - flip_gain ntk g := by
  rw [number_of_inverted_eq, number_of_inverted_eq]
  have hgates : foreach_gate (invert_node ntk g) = foreach_gate ntk := by
    unfold foreach_gate
    have hsize : (invert_node ntk g).size = ntk.size := by simp [invert_node, size]
    rw [hsize]
    rfl
  have hout : (invert_node ntk g).outputs = ntk.outputs.map (toggle_use g) := rfl
  rw [hgates, hout, Nat.cast_add, Nat.cast_add, cast_sum_map, cast_sum_map,
    complemented_toggle]
  have hmap : (foreach_gate ntk).map
      (fun n => ((inverted_slots (foreach_fanin (invert_node ntk g) n) : Nat) : Int))
      = (foreach_gate ntk).map (fun n => (inverted_slots (foreach_fanin ntk n) : Int)
        - (use_gain g (foreach_fanin ntk n) + if n = g then fanin_gain ntk g else 0)) := by
    apply List.map_congr_left
    intro n hn
    unfold foreach_gate at hn
    rw [List.mem_filter] at hn
    exact inverted_slots_invert_node ntk hwf g hg n (List.mem_range.mp hn.1) hn.2
  have hnodup : (foreach_gate ntk).Nodup := by
    unfold foreach_gate
    exact (List.nodup_range _).filter _
  have hmem : g ∈ foreach_gate ntk := by
    unfold foreach_gate
    rw [List.mem_filter]
    exact ⟨List.mem_range.mpr hlt, hg⟩
  rw [hmap, sum_map_sub_int, sum_map_add_int, sum_map_single _ hnodup g hmem,
    sum_use_gain_gates ntk hwf g]
  unfold flip_gain
  ring

theorem visit_gain (policy : mig_network → Nat → Bool)
    (st : mig_network × mig_inv_optimization_stats) (n : Nat) (hwf : well_formed st.1) :
    ((inv_opt_test.number_of_inverted (mig_inv_optimization_visit policy st n).1 : Nat) : Int)
      = (inv_opt_test.number_of_inverted st.1 : Int)
        - ((mig_inv_optimization_visit policy st n).2.total_gain - st.2.total_gain) := by
  unfold mig_inv_optimization_visit
  by_cases h : (decide (n < st.1.size) && is_gate st.1 n && policy st.1 n) = true
  · rw [if_pos h]
    simp only [Bool.and_eq_true, decide_eq_true_eq] at h
    rw [number_of_inverted_invert_node st.1 hwf n h.1.1 h.1.2]
    ring
  · rw [if_neg h]
    ring

theorem pass_gain (policy : mig_network → Nat → Bool) (schedule : List Nat) :
    ∀ (st : mig_network × mig_inv_optimization_stats), well_formed st.1 →
      (inv_opt_test.number_of_inverted st.1 : Int)
        - (inv_opt_test.number_of_inverted
            (schedule.foldl (mig_inv_optimization_visit policy) st).1 : Int)
        = (schedule.foldl (mig_inv_optimization_visit policy) st).2.total_gain
          - st.2.total_gain := by
  induction schedule with
  | nil => intro st _; simp
  | cons n rest ih =>
    intro st hwf
    simp only [List.foldl_cons]
    have h1 := visit_gain policy st n hwf
    have h2 := ih _ (visit_preserves policy st n hwf []).1
    rw [h1] at h2
    linarith

/-- C12. The reported gain is the measured saving: for every well-formed majority
network, whatever gates the pass visits and whichever of them it decides to flip, in
particular with flips on strict improvement in creation order,
`number_of_inverted` before the pass minus `number_of_inverted` after it equals
`total_gain`, where `number_of_inverted` counts the complemented fanins of gates whose
node is not the constant plus the complemented primary outputs. -/
theorem total_gain_is_saving (policy : mig_network → Nat → Bool) (schedule : List Nat)
    (ntk : mig_network) (hwf : well_formed ntk) :
    (inv_opt_test.number_of_inverted ntk : Int)
      - (inv_opt_test.number_of_inverted (mig_inv_optimization policy schedule ntk).1 : Int)
      = (mig_inv_optimization policy schedule ntk).2.total_gain := by
  unfold mig_inv_optimization
  have h := pass_gain policy schedule (ntk, { total_gain := 0 }) hwf
  simpa using h

set_option maxRecDepth 8000 in
/-- The network of the test "basic" with flips on strict improvement in creation order:
4 complemented edges before, and a gain of 1. -/
theorem total_gain_is_saving_witness :
    well_formed test_basic
    ∧ inv_opt_test.number_of_inverted test_basic = 4
    ∧ (mig_inv_optimization strict_improvement (sweeps test_basic 1) test_basic).2.total_gain
        = 1
    ∧ (inv_opt_test.number_of_inverted test_basic : Int)
        - (inv_opt_test.number_of_inverted
            (mig_inv_optimization strict_improvement (sweeps test_basic 1) test_basic).1 : Int)
        = (mig_inv_optimization strict_improvement (sweeps test_basic 1) test_basic).2.total_gain :=
  ⟨by decide, by decide, by decide,
    total_gain_is_saving strict_improvement (sweeps test_basic 1) test_basic (by decide)⟩

set_option maxRecDepth 100000 in
/-- The savings the six tests expect, 1, 1, 0, 1, 7 and 2, are gains of the pass.  With
flips on strict improvement one sweep in creation order gains 1, 1, 0 and 1 on the first
four networks; on "complex" one sweep gains 2 and three sweeps gain 7; on "two level"
strict improvement flips nothing, and the flip of gate 5, of gain 0, followed by the flip
of gate 7, one of its fanouts, gains 2. -/
theorem test_savings :
    (mig_inv_optimization strict_improvement (sweeps test_basic 1) test_basic).2.total_gain = 1
    ∧ (mig_inv_optimization strict_improvement (sweeps test_constant_0 1)
        test_constant_0).2.total_gain = 1
    ∧ (mig_inv_optimization strict_improvement (sweeps test_constant_1 1)
        test_constant_1).2.total_gain = 0
    ∧ (mig_inv_optimization strict_improvement (sweeps test_output 1)
        test_output).2.total_gain = 1
    ∧ (mig_inv_optimization strict_improvement (sweeps test_complex 1)
        test_complex).2.total_gain = 2
    ∧ (mig_inv_optimization strict_improvement (sweeps test_complex 3)
        test_complex).2.total_gain = 7
    ∧ (mig_inv_optimization strict_improvement (sweeps test_two_level 3)
        test_two_level).2.total_gain = 0
    ∧ flip_gain test_two_level 5 = 0
    ∧ (mig_inv_optimization always_flip [5, 7] test_two_level).2.total_gain = 2 := by
  refine ⟨by decide, by decide, by decide, by decide, by decide, by decide, by decide,
    by decide, by decide⟩

/-- The flip has to complement the fanins of the gate.  On the network of the test
"basic" the rewrite that only toggles the uses of gate 5 saves 2 complemented edges, where
the test expects the pass to save 1 and the flip saves 1, and it changes the value of an
output. -/
theorem toggle_uses_differs :
    inv_opt_test.number_of_inverted test_basic = 4
    ∧ inv_opt_test.number_of_inverted (toggle_uses test_basic 5) = 2
    ∧ inv_opt_test.number_of_inverted (invert_node test_basic 5) = 3
    ∧ simulate (toggle_uses test_basic 5) [true, false, false, false]
        ≠ simulate test_basic [true, false, false, false] := by
  refine ⟨by decide, by decide, by decide, by decide⟩

end mockturtle
